import Mathlib

/-!
A verification development for the package `mycontext`.

Shallow embedding of `src/mycontext/mycontext.go` (a re-implementation of Go's
`context` package), of the demo in `src/main.go` and of the handler in
`src/middleware/auth.go`.

* Interface values of type `any` are modelled by the inductive type `any`, with Go's
  `==` on interface values as `any.eq` (which can panic at run time).
* Interface values of type `Context` are modelled by the inductive type `Context`.
  The fields of a node that are never reassigned after construction (the embedded parent
  `Context`, `key`, `val`, `deadline`) are carried by the value itself; a pointer to a
  `cancelCtx`/`timerCtx` is its address `ptr` in the heap of `State`.
* A Go function that can panic returns `Option`; `none` means "does not return normally".
-/

namespace mycontext

/-! ## Values of type `any` -/

/-- Dynamic values stored in a Go `any`, one kind for each way `==` can behave: the nil
interface, values of two comparable dynamic types whose comparison never panics (`int`,
`string`), values of one uncomparable dynamic type (`[]int`), and values of one comparable
composite dynamic type whose element is again an interface value (`[1]any{elem}`; a struct
with an interface field behaves alike). -/
inductive any where
  | nil
  | int (n : Int)
  | string (s : String)
  | slice (xs : List Int)
  | array (elem : any)
  deriving DecidableEq

/-- Go's `a == b` on two interface values: values of different dynamic types are unequal,
values of the same comparable dynamic type are compared by value, comparing two values
of the same uncomparable dynamic type is a run-time panic (`none`), and two arrays are
compared element by element, which panics when the comparison of the elements does. -/
def any.eq : any → any → Option Bool
  | .slice _, .slice _ => none
  | .array a, .array b => any.eq a b
  | a, b => some (decide (a = b))

/-- The value holds no value of an uncomparable dynamic type, neither itself nor as the
element of an array. -/
def any.plain : any → Bool
  | .slice _ => false
  | .array elem => any.plain elem
  | _ => true

/-! ## Contexts and value lookup -/

/-- Interface values of type `Context`: the nil interface, `emptyCtx{}`, `*cancelCtx`,
`*timerCtx` and `*valCtx`. `parent` is the embedded `Context` field. -/
inductive Context where
  | nil
  | emptyCtx
  | cancelCtx (ptr : Nat) (parent : Context)
  | timerCtx (ptr : Nat) (parent : Context) (deadline : Int)
  | valCtx (parent : Context) (key val : any)
  deriving DecidableEq

/-- The function `Background()`: the background root. -/
def Background : Context := .emptyCtx

/-- The function `TODO()`: the to-do root. -/
def TODO : Context := .emptyCtx

/-- The function `WithValue(parent, key, value)`: panics on a nil parent, otherwise allocates a
`valCtx`. -/
def WithValue (parent : Context) (key value : any) : Option Context :=
  if parent = .nil then none else some (.valCtx parent key value)

/-- The helper `value(c, key)`: the loop of the source, one iteration per recursive call.
`emptyCtx{}` is not a `*emptyCtx`, so a root falls to the `default` branch, which calls
`emptyCtx.Value` and returns nil; on the nil interface the `default` branch calls a method
of a nil interface and panics. -/
def value : Context → any → Option any
  | .valCtx parent k v, key =>
    match any.eq k key with
    | none => none
    | some true => some v
    | some false => value parent key
  | .emptyCtx, _ => some .nil
  | .cancelCtx _ parent, key => value parent key
  | .timerCtx _ parent _, key => value parent key
  | .nil, _ => none

/-- The method `Value(key)` of each kind of node: `emptyCtx.Value` returns nil;
`cancelCtx` and `timerCtx` have no `Value` of their own and promote that of the embedded
parent; `valCtx.Value` is the method of the source, which returns `key` on a match and
otherwise calls the helper `value` on the parent. -/
def Context.Value : Context → any → Option any
  | .nil, _ => none
  | .emptyCtx, _ => some .nil
  | .cancelCtx _ parent, key => parent.Value key
  | .timerCtx _ parent _, key => parent.Value key
  | .valCtx parent k _, key =>
    match any.eq k key with
    | none => none
    | some true => some key
    | some false => value parent key

/-- The parent chain of a node, the node first and its root last; the nil interface is
not a node. -/
def chain : Context → List Context
  | .nil => []
  | .emptyCtx => [.emptyCtx]
  | .cancelCtx ptr p => .cancelCtx ptr p :: chain p
  | .timerCtx ptr p d => .timerCtx ptr p d :: chain p
  | .valCtx p k v => .valCtx p k v :: chain p

/-- The strict ancestors of a node, nearest first. -/
def ancestors (c : Context) : List Context := (chain c).tail

/-- The node is a value node whose key compares equal (`==`) to `k`. -/
def binds : Context → any → Bool
  | .valCtx _ key _, k => decide (any.eq key k = some true)
  | _, _ => false

/-- The three value nodes of `main` in `src/main.go`. -/
def main_ctx1 : Context := .valCtx Background (.int 1) (.int 1)

/-- Second node of the demo. -/
def main_ctx2 : Context := .valCtx main_ctx1 (.int 2) (.int 2)

/-- Third node of the demo. -/
def main_ctx3 : Context := .valCtx main_ctx2 (.int 3) (.int 3)

/-- The chain root→V1(key=1,val="a")→V2(key=2,val="b")→V3(key=1,val="c") of the
value-precedence scenario. -/
def precedenceV3 : Context :=
  .valCtx (.valCtx (.valCtx Background (.int 1) (.string "a")) (.int 2) (.string "b"))
    (.int 1) (.string "c")

/-! ## Cancellation state -/

/-- Values of type `error` other than nil: the two package-level causes and any other
error value. The nil error is `none : Option error`. -/
inductive error where
  | ErrCancel
  | ErrDeadline
  | other (msg : String)
  deriving DecidableEq

/-- A `cancelCtx` struct in the heap: the embedded parent `Context`, whether `once` has
run, whether the channel `done` is closed, the keys of the map `children` (addresses of
the registered cancelers, in the order of their insertion; Go ranges over a map in an
unspecified order), the slot `err` and, for the `cancelCtx` embedded in a `timerCtx`, the
field `deadline`. The mutex `mu` is free between two operations and is not
represented. -/
structure cancelCtx where
  parent : Context
  once : Bool
  done : Bool
  children : List Nat
  err : Option error
  deadline : Option Int
  deriving DecidableEq

/-- A channel value: the nil channel or the channel made for the heap cell `ptr`. -/
inductive chan where
  | nil
  | made (ptr : Nat)
  deriving DecidableEq

/-- The state of a program using the package: the heap of `cancelCtx` structs in
allocation order, the monitoring goroutines that have not yet returned (parent and
child of each), the pending timers (node and instant of each) and the clock. -/
structure State where
  heap : List cancelCtx
  goroutines : List (Context × Nat)
  timers : List (Nat × Int)
  now : Int
  deriving DecidableEq

/-- The state of a program that has not called the package yet. -/
def State.init (now : Int) : State := ⟨[], [], [], now⟩

/-- The method `Done()`: nil channel for `emptyCtx`, the field `done` for `cancelCtx`
and `timerCtx`, the parent's for `valCtx`; a call on the nil interface panics. -/
def Context.Done : Context → Option chan
  | .nil => none
  | .emptyCtx => some .nil
  | .cancelCtx ptr _ => some (.made ptr)
  | .timerCtx ptr _ _ => some (.made ptr)
  | .valCtx parent _ _ => parent.Done

/-- Whether a receive from the channel can proceed, that is, whether it is closed. -/
def fired (h : List cancelCtx) : chan → Bool
  | .nil => false
  | .made ptr =>
    match h[ptr]? with
    | some n => n.done
    | none => false

/-- The method `Err()`: nil for `emptyCtx`, the slot `err` for `cancelCtx` and
`timerCtx`, the parent's for `valCtx`; a call on the nil interface panics. -/
def Context.Err (h : List mycontext.cancelCtx) : Context → Option (Option error)
  | .nil => none
  | .emptyCtx => some none
  | .cancelCtx ptr _ => (h[ptr]?).map (fun n => n.err)
  | .timerCtx ptr _ _ => (h[ptr]?).map (fun n => n.err)
  | .valCtx parent _ _ => parent.Err h

/-- The method `Deadline()`: `(zero, false)` for `emptyCtx`, `(deadline, true)` for
`timerCtx`, the parent's for `cancelCtx` and `valCtx`. -/
def Context.Deadline : Context → Option (Int × Bool)
  | .nil => none
  | .emptyCtx => some (0, false)
  | .cancelCtx _ parent => parent.Deadline
  | .timerCtx _ _ d => some (d, true)
  | .valCtx parent _ _ => parent.Deadline

/-- The method `cancel(err)` of the `cancelCtx` at address `c`, with `fuel` bounding the
depth of the recursion through `children`. `once.Do` returns at once when `once` has
run; otherwise the body closes `done` (closing a closed channel panics), stores `err`,
calls `cancel(err)` on every child, and `once` is marked as run when the body returns. -/
def cancel : Nat → List cancelCtx → Nat → Option error → Option (List cancelCtx)
  | 0, _, _, _ => none
  | fuel + 1, h, c, err =>
    match h[c]? with
    | none => none
    | some n =>
      if n.once then some h
      else if n.done then none
      else
        match n.children.foldlM (fun h1 child => cancel fuel h1 child err)
            (h.set c { n with done := true, err := err }) with
        | none => none
        | some h2 =>
          match h2[c]? with
          | none => none
          | some n2 => some (h2.set c { n2 with once := true })

/-- The call `c.cancel(err)`, with fuel for the deepest possible chain of children. -/
def cancelCtx.cancel (h : List cancelCtx) (c : Nat) (err : Option error) :
    Option (List cancelCtx) :=
  mycontext.cancel (h.length + 1) h c err

/-- The struct `n` after the body of its `cancel` has run with cause `e`. -/
def fire (n : cancelCtx) (e : Option error) : cancelCtx :=
  { n with once := true, done := true, err := e }

/-- What a call of `cancel` with cause `e` can do to a heap: every struct is left as it
was, or it was not cancelled and the body of its `cancel` has run with `e`. -/
def Touched (e : Option error) (h h1 : List cancelCtx) : Prop :=
  h1.length = h.length ∧
    ∀ (i : Nat) (n : cancelCtx), h[i]? = some n →
      h1[i]? = some n ∨ (n.once = false ∧ n.done = false ∧ h1[i]? = some (fire n e))

/-- A freshly allocated `cancelCtx` struct. -/
def cancelCtx.new (parent : Context) (deadline : Option Int) : cancelCtx :=
  ⟨parent, false, false, [], none, deadline⟩

/-- The statement `parent.children[child] = struct{}{}` on the struct at `p`. -/
def addChild (h : List cancelCtx) (p child : Nat) : Option (List cancelCtx) :=
  match h[p]? with
  | none => none
  | some n =>
    some (h.set p { n with children :=
      if child ∈ n.children then n.children else n.children ++ [child] })

/-- The function `propagateCancel(parent, child)`: when `parent` is a `*cancelCtx` the
child is added to its `children`; in every case the monitoring goroutine is started. -/
def propagateCancel (s : State) (parent : Context) (child : Nat) : Option State :=
  match parent with
  | .cancelCtx p _ =>
    match addChild s.heap p child with
    | none => none
    | some h => some { s with heap := h, goroutines := s.goroutines ++ [(parent, child)] }
  | _ => some { s with goroutines := s.goroutines ++ [(parent, child)] }

/-- The function `WithCancel(parent)`: returns the new context and the address whose `cancel` the
returned `CancelFunc` calls. -/
def WithCancel (s : State) (parent : Context) : Option ((Context × Nat) × State) :=
  if parent = .nil then none
  else
    let child := s.heap.length
    match propagateCancel { s with heap := s.heap ++ [cancelCtx.new parent none] }
        parent child with
    | none => none
    | some s1 => some ((.cancelCtx child parent, child), s1)

/-- The function `WithDeadline(parent, deadline)`: `time.Now().After(deadline)` is `deadline < now`,
and the timer is created after that test whatever its outcome. -/
def WithDeadline (s : State) (parent : Context) (deadline : Int) :
    Option ((Context × Nat) × State) :=
  let child := s.heap.length
  match propagateCancel { s with heap := s.heap ++ [cancelCtx.new parent (some deadline)] }
      parent child with
  | none => none
  | some s1 =>
    match (if deadline < s1.now then cancelCtx.cancel s1.heap child (some .ErrDeadline)
        else some s1.heap) with
    | none => none
    | some h2 =>
      some ((.timerCtx child parent deadline, child),
        { s1 with heap := h2, timers := s1.timers ++ [(child, deadline)] })

/-- The function `WithTimeout(parent, timeout)`: `WithDeadline` at `now + timeout`. -/
def WithTimeout (s : State) (parent : Context) (timeout : Int) :
    Option ((Context × Nat) × State) :=
  WithDeadline s parent (s.now + timeout)

/-- A call of the `CancelFunc` returned for the node at `c`. -/
def CancelFunc (s : State) (c : Nat) : Option State :=
  match cancelCtx.cancel s.heap c (some .ErrCancel) with
  | none => none
  | some h => some { s with heap := h }

/-- The `i`-th pending timer fires: possible once its instant is reached; the callback
calls `child.cancel(ErrDeadline)`. -/
def timerFire (s : State) (i : Nat) : Option State :=
  match s.timers[i]? with
  | none => none
  | some (c, d) =>
    if d ≤ s.now then
      match cancelCtx.cancel s.heap c (some .ErrDeadline) with
      | none => none
      | some h => some { s with heap := h, timers := s.timers.eraseIdx i }
    else none

/-- The `i`-th monitoring goroutine takes the branch `case <-parent.Done()`: possible
when that channel is closed; it calls `child.cancel(parent.Err())` and returns. -/
def monitorParent (s : State) (i : Nat) : Option State :=
  match s.goroutines[i]? with
  | none => none
  | some (parent, child) =>
    match parent.Done with
    | none => none
    | some ch =>
      if fired s.heap ch then
        match parent.Err s.heap with
        | none => none
        | some e =>
          match cancelCtx.cancel s.heap child e with
          | none => none
          | some h => some { s with heap := h, goroutines := s.goroutines.eraseIdx i }
      else none

/-- The `i`-th monitoring goroutine takes the branch `case <-child.Done()`: possible
when the child's channel is closed; it returns. -/
def monitorChild (s : State) (i : Nat) : Option State :=
  match s.goroutines[i]? with
  | none => none
  | some (parent, child) =>
    match parent.Done with
    | none => none
    | some _ =>
      if fired s.heap (.made child) then
        some { s with goroutines := s.goroutines.eraseIdx i }
      else none

/-- A context value that the constructors have returned in a program whose heap is `h`:
every `cancelCtx` and `timerCtx` on its chain is the struct at its address. -/
def issued (h : List cancelCtx) : Context → Bool
  | .nil => false
  | .emptyCtx => true
  | .valCtx p _ _ => issued h p
  | .cancelCtx ptr p =>
    (match h[ptr]? with
      | some n => decide (n.parent = p ∧ n.deadline = none)
      | none => false) && issued h p
  | .timerCtx ptr p d =>
    (match h[ptr]? with
      | some n => decide (n.parent = p ∧ n.deadline = some d)
      | none => false) && (decide (p = .nil) || issued h p)

/-- The operations of a program on the package, and the events of the runtime. -/
inductive Op where
  | WithCancel (parent : Context)
  | WithDeadline (parent : Context) (deadline : Int)
  | WithTimeout (parent : Context) (timeout : Int)
  | WithValue (parent : Context) (key value : any)
  | CancelFunc (c : Nat)
  | timerFire (i : Nat)
  | monitorParent (i : Nat)
  | monitorChild (i : Nat)
  | tick (d : Nat)

/-- Whether the program can perform the operation: a parent is nil or a context that a
constructor has returned, and a `CancelFunc` is one that a constructor has returned. -/
def Op.possible (s : State) : Op → Bool
  | .WithCancel p => decide (p = .nil) || issued s.heap p
  | .WithDeadline p _ => decide (p = .nil) || issued s.heap p
  | .WithTimeout p _ => decide (p = .nil) || issued s.heap p
  | .WithValue p _ _ => decide (p = .nil) || issued s.heap p
  | .CancelFunc c => decide (c < s.heap.length)
  | _ => true

/-- The state after a completed operation; `none` when the operation panics or when the
event cannot happen in the state. The operation runs from its first statement to its
last with no other goroutine in between; the runs in which the statements of `cancel`
of several goroutines interleave are those of `cstep`. -/
def step (s : State) : Op → Option State
  | .WithCancel p => (WithCancel s p).map (fun r => r.2)
  | .WithDeadline p d => (WithDeadline s p d).map (fun r => r.2)
  | .WithTimeout p t => (WithTimeout s p t).map (fun r => r.2)
  | .WithValue p k v => (WithValue p k v).map (fun _ => s)
  | .CancelFunc c => CancelFunc s c
  | .timerFire i => timerFire s i
  | .monitorParent i => monitorParent s i
  | .monitorChild i => monitorChild s i
  | .tick d => some { s with now := s.now + d }

/-- The states reachable from an empty tree by completed operations, each run with no
other goroutine in between. -/
inductive Reachable : State → Prop where
  | init (now : Int) : Reachable (State.init now)
  | step {s s1 : State} (op : Op) : Reachable s → Op.possible s op = true →
      step s op = some s1 → Reachable s1

/-- The state after a list of operations, each of which must be possible and complete. -/
def run (s : State) : List Op → Option State
  | [] => some s
  | op :: ops =>
    if Op.possible s op then
      match step s op with
      | none => none
      | some s1 => run s1 ops
    else none

/-! ## Invariants of the heap -/

/-- The addresses of the `cancelCtx` and `timerCtx` structs on the chain of a context. -/
def ptrs : Context → List Nat
  | .nil => []
  | .emptyCtx => []
  | .cancelCtx ptr p => ptr :: ptrs p
  | .timerCtx ptr p _ => ptr :: ptrs p
  | .valCtx p _ _ => ptrs p

/-- The keys of the map `children` of the struct at `a`. -/
def kids (h : List cancelCtx) (a : Nat) : List Nat :=
  match h[a]? with
  | some n => n.children
  | none => []

/-- The struct at `b` is reachable from the struct at `a` through the maps `children`. -/
def reach (h : List cancelCtx) (a b : Nat) : Prop :=
  Relation.ReflTransGen (fun x y => y ∈ kids h x) a b

/-- The body of `cancel` has run on the struct at `i`. -/
def onceAt (h : List cancelCtx) (i : Nat) : Prop :=
  ∃ n, h[i]? = some n ∧ n.once = true

/-- The struct at `b` was allocated by `WithCancel` on the `cancelCtx` at `a`. -/
def builtOn (h : List cancelCtx) (a b : Nat) : Bool :=
  match h[b]? with
  | some n =>
    match n.parent, n.deadline with
    | .cancelCtx p _, none => decide (p = a)
    | _, _ => false
  | none => false

/-- A cause is one of the two fixed causes `ErrCancel` and `ErrDeadline`. -/
def fixedCause (e : Option error) : Prop :=
  e = some .ErrCancel ∨ e = some .ErrDeadline

/-- A struct is consistent: `once` has run exactly when `done` is closed, `done` is closed
exactly when `err` is not nil, and a non-nil `err` is one of the two fixed causes. -/
def cellOK (n : cancelCtx) : Prop :=
  n.once = n.done ∧ (n.done = true ↔ n.err ≠ none) ∧ (n.err ≠ none → fixedCause n.err)

/-- Every struct of the heap is consistent. -/
def HeapOK (h : List cancelCtx) : Prop :=
  ∀ (i : Nat) (n : cancelCtx), h[i]? = some n → cellOK n

/-- Every registered child was allocated after the struct it is registered in. -/
def Ordered (h : List cancelCtx) : Prop :=
  ∀ (i : Nat) (n : cancelCtx), h[i]? = some n → ∀ x ∈ n.children, i < x ∧ x < h.length

/-- A struct whose parent is a `*cancelCtx` is among the children of that parent. -/
def Registered (h : List cancelCtx) : Prop :=
  ∀ (j : Nat) (n : cancelCtx) (p : Nat) (q : Context), h[j]? = some n →
    n.parent = .cancelCtx p q → j ∈ kids h p

/-- Every struct on the parent chain of a struct was allocated before it. -/
def ParentsBelow (h : List cancelCtx) : Prop :=
  ∀ (j : Nat) (n : cancelCtx), h[j]? = some n → ∀ x ∈ ptrs n.parent, x < j

/-- Every key of a map `children` is a struct whose parent is the owner of the map. -/
def KidsBuilt (h : List cancelCtx) : Prop :=
  ∀ (a x : Nat), x ∈ kids h a →
    ∃ (cell : cancelCtx) (q : Context), h[x]? = some cell ∧ cell.parent = .cancelCtx a q

/-- The invariant of the heap. -/
def InvH (h : List cancelCtx) : Prop :=
  HeapOK h ∧ Ordered h ∧ Registered h ∧ ParentsBelow h ∧ KidsBuilt h

/-- The invariant of the reachable states. -/
def Inv (s : State) : Prop := InvH s.heap

/-- The slot `err` of the struct at `a`, as `Err()` returns it. -/
def errAt (h : List cancelCtx) (a : Nat) : Option (Option error) :=
  (h[a]?).map (fun n => n.err)

/-- Whether the channel `done` of the struct at `a` is closed. -/
def doneAt (h : List cancelCtx) (a : Nat) : Option Bool :=
  (h[a]?).map (fun n => n.done)

/-- The state after `A, cancelA := WithCancel(Background())` and `cancelA()`, at time 0. -/
def cancelledA : State :=
  ⟨[⟨.emptyCtx, true, true, [], some .ErrCancel, none⟩], [(.emptyCtx, 0)], [], 0⟩

/-- The state after `A := WithCancel(Background())`, `B := WithCancel(A)` and
`C := WithCancel(B)`, at time 0. -/
def chainABC : State :=
  ⟨[⟨.emptyCtx, false, false, [1], none, none⟩,
    ⟨.cancelCtx 0 .emptyCtx, false, false, [2], none, none⟩,
    ⟨.cancelCtx 1 (.cancelCtx 0 .emptyCtx), false, false, [], none, none⟩],
   [(.emptyCtx, 0), (.cancelCtx 0 .emptyCtx, 1), (.cancelCtx 1 (.cancelCtx 0 .emptyCtx), 2)],
   [], 0⟩

/-- The state after `A := WithCancel(Background())`, `B := WithCancel(A)` and
`C := WithCancel(A)`, at time 0: `B` and `C` are siblings. -/
def siblingsBC : State :=
  ⟨[⟨.emptyCtx, false, false, [1, 2], none, none⟩,
    ⟨.cancelCtx 0 .emptyCtx, false, false, [], none, none⟩,
    ⟨.cancelCtx 0 .emptyCtx, false, false, [], none, none⟩],
   [(.emptyCtx, 0), (.cancelCtx 0 .emptyCtx, 1), (.cancelCtx 0 .emptyCtx, 2)],
   [], 0⟩

/-- A program in which `C` is registered with `B` after `B` was cancelled:
`T := WithDeadline(Background(), 10)` at time 0, `A := WithCancel(T)`,
`B, cancelB := WithCancel(A)`, `cancelB()`, `C := WithCancel(B)`; then the clock reaches
10 and the timer of `T` fires. -/
def lateOps : List Op :=
  [.WithDeadline .emptyCtx 10,
   .WithCancel (.timerCtx 0 .emptyCtx 10),
   .WithCancel (.cancelCtx 1 (.timerCtx 0 .emptyCtx 10)),
   .CancelFunc 2,
   .WithCancel (.cancelCtx 2 (.cancelCtx 1 (.timerCtx 0 .emptyCtx 10))),
   .tick 10,
   .timerFire 0]

/-! ## Value lookup through the heap -/

/-- The number of nodes on the parent chain of a context. -/
def depth : Context → Nat
  | .nil => 0
  | .emptyCtx => 1
  | .cancelCtx _ p => depth p + 1
  | .timerCtx _ p _ => depth p + 1
  | .valCtx p _ _ => depth p + 1

/-- The helper `value(c, key)` run on the heap: as `value`, except that `ctx.Context` of
a `*cancelCtx` or `*timerCtx` is read from the struct at its address; `fuel` bounds the
number of iterations of the loop. -/
def valueH (h : List cancelCtx) : Nat → Context → any → Option any
  | 0, _, _ => none
  | fuel + 1, .valCtx parent k v, key =>
    match any.eq k key with
    | none => none
    | some true => some v
    | some false => valueH h fuel parent key
  | _ + 1, .emptyCtx, _ => some .nil
  | fuel + 1, .cancelCtx ptr _, key =>
    match h[ptr]? with
    | none => none
    | some n => valueH h fuel n.parent key
  | fuel + 1, .timerCtx ptr _ _, key =>
    match h[ptr]? with
    | none => none
    | some n => valueH h fuel n.parent key
  | _ + 1, .nil, _ => none

/-- The method `Value(key)` run on the heap: as `Context.Value`, except that the embedded
parent of a `*cancelCtx` or `*timerCtx` is read from the struct at its address. -/
def ValueH (h : List cancelCtx) : Nat → Context → any → Option any
  | 0, _, _ => none
  | _ + 1, .nil, _ => none
  | _ + 1, .emptyCtx, _ => some .nil
  | fuel + 1, .cancelCtx ptr _, key =>
    match h[ptr]? with
    | none => none
    | some n => ValueH h fuel n.parent key
  | fuel + 1, .timerCtx ptr _ _, key =>
    match h[ptr]? with
    | none => none
    | some n => ValueH h fuel n.parent key
  | fuel + 1, .valCtx parent k _, key =>
    match any.eq k key with
    | none => none
    | some true => some key
    | some false => valueH h fuel parent key

/-- The state after `A := WithCancel(Background())`, at time 0. -/
def onlyA : State :=
  ⟨[⟨.emptyCtx, false, false, [], none, none⟩], [(.emptyCtx, 0)], [], 0⟩

/-- The value node `B` of the end-to-end scenario root→A(cancelable)→B("uid"→42). -/
def scenarioB : Context := .valCtx (.cancelCtx 0 .emptyCtx) (.string "uid") (.int 42)

/-- A program in which a deadline node `T` gets a child:
`T := WithDeadline(Background(), 10)` at time 0 and `B := WithCancel(T)`; then the clock
reaches 10 and the timer of `T` fires. -/
def deadlineParentOps : List Op :=
  [.WithDeadline .emptyCtx 10, .WithCancel (.timerCtx 0 .emptyCtx 10), .tick 10,
   .timerFire 0]

/-- A program cancelling a deadline node before its deadline:
`T, cancelT := WithDeadline(Background(), 10)` at time 0 and `cancelT()`. -/
def stoppedEarlyOps : List Op :=
  [.WithDeadline .emptyCtx 10, .CancelFunc 0]

/-! ## The statements of `cancel`, one at a time -/

/-- The statement `close(c.done)` on the struct at `c`; closing a closed channel
panics. -/
def closeDone (h : List cancelCtx) (c : Nat) : Option (List cancelCtx) :=
  match h[c]? with
  | none => none
  | some n => if n.done then none else some (h.set c { n with done := true })

/-- The statement `c.err = err` on the struct at `c`. -/
def storeErr (h : List cancelCtx) (c : Nat) (err : Option error) :
    Option (List cancelCtx) :=
  match h[c]? with
  | none => none
  | some n => some (h.set c { n with err := err })

/-- The loop `for child := range c.children { child.cancel(err) }` on the struct
at `c`. -/
def rangeChildren (fuel : Nat) (h : List cancelCtx) (c : Nat) (err : Option error) :
    Option (List cancelCtx) :=
  match h[c]? with
  | none => none
  | some n => n.children.foldlM (fun h1 child => cancel fuel h1 child err) h

/-- The end of `once.Do` on the struct at `c`: `once` is marked as run. -/
def markOnce (h : List cancelCtx) (c : Nat) : Option (List cancelCtx) :=
  match h[c]? with
  | none => none
  | some n => some (h.set c { n with once := true })

/-- The body of `cancel`, statement after statement: `close(c.done)`, `c.err = err`
(under `c.mu`), the loop over `children`, and the end of `once.Do`. -/
def cancelBody (fuel : Nat) (h : List cancelCtx) (c : Nat) (err : Option error) :
    Option (List cancelCtx) :=
  (closeDone h c).bind fun h1 =>
    (storeErr h1 c err).bind fun h2 =>
      (rangeChildren fuel h2 c err).bind fun h3 => markOnce h3 c

/-- The state after `A, cancelA := WithCancel(Background())` and
`B := WithCancel(WithValue(A, "k", 7))`, at time 0, before any cancellation. -/
def monitoredLive : State :=
  ⟨[⟨.emptyCtx, false, false, [], none, none⟩,
    ⟨.valCtx (.cancelCtx 0 .emptyCtx) (.string "k") (.int 7), false, false, [], none, none⟩],
   [(.emptyCtx, 0), (.valCtx (.cancelCtx 0 .emptyCtx) (.string "k") (.int 7), 1)],
   [], 0⟩

/-- The interleaving in which `cancelA()` has executed `close(c.done)` on `A` and, before
it executes `c.err = err`, the goroutine monitoring `A` (through the value node) for `B`
runs; then `cancelA()` executes its remaining statements. The result is the heap at the
end, `none` if a step panics. -/
def racedCancel : Option (List cancelCtx) :=
  (closeDone monitoredLive.heap 0).bind fun h1 =>
    (monitorParent { monitoredLive with heap := h1 } 1).bind fun s2 =>
      (storeErr s2.heap 0 (some .ErrCancel)).bind fun h3 =>
        (rangeChildren 2 h3 0 (some .ErrCancel)).bind fun h4 => markOnce h4 0

end mycontext

/-! ## The middleware of `src/middleware/auth.go` -/

namespace middleware

/-- The loop of `strings.Split` for a separator of one character: `acc` holds, in
reverse, the characters of the segment being read. -/
def splitAux (sep : Char) : List Char → List Char → List String
  | [], acc => [String.mk acc.reverse]
  | c :: cs, acc =>
    if c = sep then String.mk acc.reverse :: splitAux sep cs []
    else splitAux sep cs (c :: acc)

/-- The call `strings.Split(s, sep)` for a separator `sep` of one character, as in
`strings.Split(auth, " ")`. -/
def Split (s : String) (sep : Char) : List String :=
  splitAux sep s.data []

/-- What the handler does with a request: it answers `http.StatusUnauthorized` and
returns, or it calls `next.ServeHTTP` with a context carrying `userId`. -/
inductive Response where
  | StatusUnauthorized
  | next (userId : Int)
  deriving DecidableEq

/-- The function `parseToken(token)`, which returns 1. -/
def parseToken (_ : String) : Int := 1

/-- The handler of `Auth(next)` on a request whose `Authorization` header is `auth`
(the empty string when the header is missing). The guard is
`len(ls) != 2 && ls[0] != "Bearer"`, evaluated left to right; an index out of range
panics (`none`). -/
def Auth (auth : String) : Option Response :=
  let ls := Split auth ' '
  let reject : Option Bool :=
    if ls.length ≠ 2 then
      match ls[0]? with
      | none => none
      | some first => some (decide (first ≠ "Bearer"))
    else some false
  match reject with
  | none => none
  | some true => some .StatusUnauthorized
  | some false =>
    match ls[1]? with
    | none => none
    | some token => some (.next (parseToken token))

end middleware

namespace mycontext

/-! ## Cancellation statement by statement, with the goroutines interleaved

A call of `cancel` is four kinds of steps: `once.Do`, `close(c.done)`, `c.mu.Lock()` with
`c.err = err`, and one step for each child of the loop, the last step being
`c.mu.Unlock()` with the end of `once.Do`. Between any two of them every other goroutine
can run: `Err()` reads `c.err` without the mutex, constructors register children
(`propagateCancel` waits for `c.mu`), timers fire, monitoring goroutines wake up, and
`range c.children` yields the keys in any order. A call made inside a constructor
(`WithDeadline` with a passed deadline) is a thread as well, so that the runs of the
program are among the runs below. -/

/-- Where a call of `cancel` stands: at `c.once.Do`; inside the body before
`close(c.done)`; after it, before `c.mu.Lock()` and `c.err = err`; and in the loop over
`children`, holding `c.mu`, with the children still to visit. -/
inductive PC where
  | enter
  | close
  | store
  | loop (rest : List Nat)
  deriving DecidableEq

/-- The call is inside the body of `once.Do`, holding the mutex of `once`. -/
def PC.inBody : PC → Bool
  | .enter => false
  | _ => true

/-- The call has executed `close(c.done)`. -/
def PC.afterClose : PC → Bool
  | .store => true
  | .loop _ => true
  | _ => false

/-- The call holds `c.mu`. -/
def PC.holdsMu : PC → Bool
  | .loop _ => true
  | _ => false

/-- A call `c.cancel(err)` in progress on the struct at `node`. -/
structure Frame where
  node : Nat
  err : Option error
  pc : PC
  deriving DecidableEq

/-- The state of a running program: the state of the package and, for every thread that
has called `cancel` (a caller of a `CancelFunc`, a timer callback, a monitoring goroutine
that forwards), its stack of calls of `cancel`, the innermost first; a thread whose call
has returned has an empty stack. -/
structure Conc where
  st : State
  threads : List (List Frame)
  deriving DecidableEq

/-- Some call is inside the body of `once.Do` of the struct at `c`. -/
def busy (ths : List (List Frame)) (c : Nat) : Bool :=
  ths.any (fun t => t.any (fun f => decide (f.node = c) && f.pc.inBody))

/-- Some call holds the mutex `mu` of the struct at `c`. -/
def locked (ths : List (List Frame)) (c : Nat) : Bool :=
  ths.any (fun t => t.any (fun f => decide (f.node = c) && f.pc.holdsMu))

/-- The mutex that `propagateCancel` takes is held: that of a `*cancelCtx` parent. -/
def parentLocked (ths : List (List Frame)) : Context → Bool
  | .cancelCtx p _ => locked ths p
  | _ => false

/-- No call of `cancel` is in progress. -/
def atRest (cs : Conc) : Bool :=
  cs.threads.all (fun t => t.isEmpty)

/-- A new thread calls `c.cancel(e)`. -/
def spawn (cs : Conc) (c : Nat) (e : Option error) : Conc :=
  { cs with threads := cs.threads ++ [[⟨c, e, .enter⟩]] }

/-- The thread `t` executes the next statement of its innermost call of `cancel`.
At `once.Do` the call returns when `once` has run, waits (`none`) while another call is
inside the body, and enters the body otherwise; then come `close(c.done)`, the
assignment `c.err = err` under `c.mu`, one call `child.cancel(err)` for each key of
`children`, and the end of `once.Do`, which marks `once` as run. -/
def stepThread (cs : Conc) (t : Nat) : Option Conc :=
  match cs.threads[t]? with
  | none => none
  | some [] => none
  | some (f :: rest) =>
    match cs.st.heap[f.node]? with
    | none => none
    | some n =>
      match f.pc with
      | .enter =>
        if n.once then some { cs with threads := cs.threads.set t rest }
        else if busy cs.threads f.node then none
        else some { cs with threads := cs.threads.set t ({ f with pc := .close } :: rest) }
      | .close =>
        if n.done then none
        else some
          { st := { cs.st with heap := cs.st.heap.set f.node { n with done := true } },
            threads := cs.threads.set t ({ f with pc := .store } :: rest) }
      | .store =>
        some
          { st := { cs.st with heap := cs.st.heap.set f.node { n with err := f.err } },
            threads := cs.threads.set t ({ f with pc := .loop n.children } :: rest) }
      | .loop [] =>
        some
          { st := { cs.st with heap := cs.st.heap.set f.node { n with once := true } },
            threads := cs.threads.set t rest }
      | .loop (x :: xs) =>
        some { cs with threads :=
          cs.threads.set t (⟨x, f.err, .enter⟩ :: { f with pc := .loop xs } :: rest) }

/-- The function `WithDeadline(parent, deadline)` in a running program: the struct is
allocated and registered as in `WithDeadline`; when the deadline has passed the
constructor calls `child.cancel(ErrDeadline)`, whose statements other goroutines can
interleave with; the timer is created. -/
def WithDeadlineC (cs : Conc) (parent : Context) (deadline : Int) :
    Option ((Context × Nat) × Conc) :=
  let child := cs.st.heap.length
  match propagateCancel
      { cs.st with heap := cs.st.heap ++ [cancelCtx.new parent (some deadline)] }
      parent child with
  | none => none
  | some s1 =>
    let cs1 : Conc := ⟨{ s1 with timers := s1.timers ++ [(child, deadline)] }, cs.threads⟩
    some ((.timerCtx child parent deadline, child),
      if deadline < s1.now then spawn cs1 child (some .ErrDeadline) else cs1)

/-- The order in which `range c.children` yields the keys of the map is not fixed: in
the loop of the innermost call of the thread `t`, the key at position `i` of those still
to visit comes next. -/
def pickNext (cs : Conc) (t i : Nat) : Option Conc :=
  match cs.threads[t]? with
  | some (f :: rest) =>
    match f.pc with
    | .loop xs =>
      match xs[i]? with
      | some x =>
        some { cs with threads :=
          cs.threads.set t ({ f with pc := .loop (x :: xs.eraseIdx i) } :: rest) }
      | none => none
    | _ => none
  | _ => none

/-- The events of a running program: an operation of the program or of the runtime
starts, a thread executes one statement of `cancel`, or the runtime chooses the key
that a loop over `children` visits next. -/
inductive Ev where
  | op (o : Op)
  | stmt (t : Nat)
  | pick (t i : Nat)

/-- The state after an event; `none` when the event panics or cannot happen in the
state. A constructor with a `*cancelCtx` parent waits while the mutex of the parent is
held; a `CancelFunc`, a timer callback and a monitoring goroutine that finds
`parent.Done()` closed start a call of `cancel`, the goroutine with the value that
`parent.Err()` has at that moment. -/
def cstep (cs : Conc) : Ev → Option Conc
  | .op (.WithCancel p) =>
    if parentLocked cs.threads p then none
    else (WithCancel cs.st p).map (fun r => { cs with st := r.2 })
  | .op (.WithDeadline p d) =>
    if parentLocked cs.threads p then none
    else (WithDeadlineC cs p d).map (fun r => r.2)
  | .op (.WithTimeout p t) =>
    if parentLocked cs.threads p then none
    else (WithDeadlineC cs p (cs.st.now + t)).map (fun r => r.2)
  | .op (.WithValue p k v) => (WithValue p k v).map (fun _ => cs)
  | .op (.CancelFunc c) =>
    if c < cs.st.heap.length then some (spawn cs c (some .ErrCancel)) else none
  | .op (.timerFire i) =>
    match cs.st.timers[i]? with
    | none => none
    | some (c, d) =>
      if d ≤ cs.st.now then
        some (spawn { cs with st := { cs.st with timers := cs.st.timers.eraseIdx i } } c
          (some .ErrDeadline))
      else none
  | .op (.monitorParent i) =>
    match cs.st.goroutines[i]? with
    | none => none
    | some (parent, child) =>
      match parent.Done with
      | none => none
      | some ch =>
        if fired cs.st.heap ch then
          match parent.Err cs.st.heap with
          | none => none
          | some e =>
            some (spawn
              { cs with st := { cs.st with goroutines := cs.st.goroutines.eraseIdx i } }
              child e)
        else none
  | .op (.monitorChild i) => (monitorChild cs.st i).map (fun s => { cs with st := s })
  | .op (.tick d) => some { cs with st := { cs.st with now := cs.st.now + d } }
  | .stmt t => stepThread cs t
  | .pick t i => pickNext cs t i

/-- Whether the event can be started by the program or the runtime. -/
def Ev.possible (cs : Conc) : Ev → Bool
  | .op o => Op.possible cs.st o
  | .stmt _ => true
  | .pick _ _ => true

/-- The state of a program that has not called the package yet. -/
def Conc.init (now : Int) : Conc := ⟨State.init now, []⟩

/-- The states that a running program can be in. -/
inductive CReachable : Conc → Prop where
  | init (now : Int) : CReachable (Conc.init now)
  | step {cs cs1 : Conc} (ev : Ev) : CReachable cs → Ev.possible cs ev = true →
      cstep cs ev = some cs1 → CReachable cs1

/-- The state after a list of events, each of which must be possible and happen. -/
def crun (cs : Conc) : List Ev → Option Conc
  | [] => some cs
  | ev :: evs =>
    if Ev.possible cs ev then
      match cstep cs ev with
      | none => none
      | some cs1 => crun cs1 evs
    else none

/-- The whole run of `A, cancelA := WithCancel(Background())`, `B := WithCancel(A)` and
`cancelA()` in which the goroutine monitoring `A` for `B` is scheduled between the
statements `close(c.done)` and `c.err = err` of `A.cancel`, and every call returns. -/
def racedChildEvents : List Ev :=
  [.op (.WithCancel .emptyCtx), .op (.WithCancel (.cancelCtx 0 .emptyCtx)),
   .op (.CancelFunc 0), .stmt 0, .stmt 0,
   .op (.monitorParent 1), .stmt 1, .stmt 1, .stmt 1, .stmt 1,
   .stmt 0, .stmt 0, .stmt 0, .stmt 0]

/-- Whether `once` has run on the struct at `a`. -/
def onceFlag (h : List cancelCtx) (a : Nat) : Option Bool :=
  (h[a]?).map (fun n => n.once)

/-- The heap `h1` has the structs of `h` with the same parents, children and deadlines. -/
def SameShape (h h1 : List cancelCtx) : Prop :=
  h1.length = h.length ∧
    ∀ (i : Nat) (n : cancelCtx), h[i]? = some n →
      ∃ n1, h1[i]? = some n1 ∧ n1.parent = n.parent ∧ n1.children = n.children ∧
        n1.deadline = n.deadline

/-- What holds of a struct at every moment of a running program: `once` has run only
when `done` is closed, and `err` is not nil only when `done` is closed. -/
def CellC (n : cancelCtx) : Prop :=
  (n.once = true → n.done = true) ∧ (n.err ≠ none → n.done = true)

/-- The call `g` is in progress in some thread. -/
def inThreads (ths : List (List Frame)) (g : Frame) : Prop :=
  ∃ t ∈ ths, g ∈ t

/-- Every call that has executed `close(c.done)` is on a struct whose `done` is closed. -/
def FramesClosed (h : List cancelCtx) (ths : List (List Frame)) : Prop :=
  ∀ (g : Frame), inThreads ths g → g.pc.afterClose = true → doneAt h g.node = some true

/-- Every struct whose `done` is closed while `once` has not run yet has a call in
progress that has executed `close(c.done)` on it. -/
def Covered (h : List cancelCtx) (ths : List (List Frame)) : Prop :=
  ∀ (i : Nat), doneAt h i = some true → onceFlag h i = some false →
    ∃ g, inThreads ths g ∧ g.node = i ∧ g.pc.afterClose = true

/-- The invariant of a running program. -/
def CInv (cs : Conc) : Prop :=
  ((∀ (i : Nat) (n : cancelCtx), cs.st.heap[i]? = some n → CellC n) ∧
      Ordered cs.st.heap ∧ Registered cs.st.heap ∧ ParentsBelow cs.st.heap ∧
      KidsBuilt cs.st.heap) ∧
    FramesClosed cs.st.heap cs.threads ∧ Covered cs.st.heap cs.threads

/-- The thread `t` alone executes statements, no other event in between, and takes the
program from `cs` to `cs1`. -/
def RunsTo (cs : Conc) (t : Nat) (cs1 : Conc) : Prop :=
  ∃ k, crun cs (List.replicate k (Ev.stmt t)) = some cs1

/-- The frames of one stack respect the link from the struct at `a` to its child at `b`:
a call on `a` that is in its loop has `b` still to visit, or `once` has run on `b`, or
the frame directly above it (`above`) is the call on `b` it is waiting for. -/
def stackOK (h : List cancelCtx) (a b : Nat) : Option Nat → List Frame → Prop
  | _, [] => True
  | above, f :: rest =>
    (f.node = a → ∀ (xs : List Nat), f.pc = .loop xs →
        b ∈ xs ∨ onceFlag h b = some true ∨ above = some b) ∧
      stackOK h a b (some f.node) rest

/-- The link from the struct at `a` to its child at `b` in a running program: `b` is in
the map `children` of `a`, `once` has run on `b` if it has run on `a`, and every stack
respects the link. -/
def Link (a b : Nat) (cs : Conc) : Prop :=
  b ∈ kids cs.st.heap a ∧
    (onceFlag cs.st.heap a = some true → onceFlag cs.st.heap b = some true) ∧
    ∀ stk ∈ cs.threads, stackOK cs.st.heap a b none stk

/-- The call `c.cancel(_)` that the thread `t` was started for is at the bottom of its
stack, or it has returned (the stack is empty) and `once` has run on the struct at `c`. -/
def Called (t c : Nat) (cs : Conc) : Prop :=
  ∃ stk, cs.threads[t]? = some stk ∧ (stk = [] → onceFlag cs.st.heap c = some true) ∧
    ∀ (f : Frame), stk.getLast? = some f → f.node = c

/-- The call of `cancel` on the struct at `p` is over: `once` has run, `done` is closed,
`err` holds `e`, and no call is inside the body. -/
def Settled (p : Nat) (e : Option error) (cs : Conc) : Prop :=
  onceFlag cs.st.heap p = some true ∧ doneAt cs.st.heap p = some true ∧
    errAt cs.st.heap p = some e ∧ busy cs.threads p = false

/-- The running program after `A, cancelA := WithCancel(Background())` and a call of
`cancelA()` that has returned, at time 0. -/
def cancelledConc : Conc := ⟨cancelledA, [[]]⟩

/-- The running program after `A := WithCancel(Background())`, `B := WithCancel(A)` and
`C := WithCancel(B)`, at time 0, no call of `cancel` started. -/
def chainConc : Conc := ⟨chainABC, []⟩

/-- A schedule of `cancelA()` on the chain `A`, `B`, `C`, after the call has started: the
goroutine monitoring `A` for `B` is scheduled between the statements `close(c.done)`
and `c.err = err` of `A.cancel`; its call `B.cancel(A.Err())` runs to its end, through
`C`; then `A.cancel` goes on and returns. -/
def racedChainTail : List Ev :=
  [.stmt 0, .stmt 0, .op (.monitorParent 1),
   .stmt 1, .stmt 1, .stmt 1, .stmt 1, .stmt 1, .stmt 1, .stmt 1, .stmt 1, .stmt 1,
   .stmt 0, .stmt 0, .stmt 0, .stmt 0]

/-- The running program at the end of the schedule `racedChainTail`. -/
def racedChainEnd : Conc :=
  ⟨⟨[⟨.emptyCtx, true, true, [1], some .ErrCancel, none⟩,
     ⟨.cancelCtx 0 .emptyCtx, true, true, [2], none, none⟩,
     ⟨.cancelCtx 1 (.cancelCtx 0 .emptyCtx), true, true, [], none, none⟩],
    [(.emptyCtx, 0), (.cancelCtx 1 (.cancelCtx 0 .emptyCtx), 2)], [], 0⟩, [[], []]⟩

/-- The running program at the end of the schedule `racedChildEvents`. -/
def racedChildEnd : Conc :=
  ⟨⟨[⟨.emptyCtx, true, true, [1], some .ErrCancel, none⟩,
     ⟨.cancelCtx 0 .emptyCtx, true, true, [], none, none⟩],
    [(.emptyCtx, 0)], [], 0⟩, [[], []]⟩

/-- The start of a run on the tree A(cancelable)→V(value)→B(cancelable):
`A, cancelA := WithCancel(Background())`, `V := WithValue(A, "k", 7)`,
`B := WithCancel(V)`, then `cancelA()` executes `once.Do` and `close(c.done)`. -/
def racedValueStart : List Ev :=
  [.op (.WithCancel .emptyCtx),
   .op (.WithValue (.cancelCtx 0 .emptyCtx) (.string "k") (.int 7)),
   .op (.WithCancel (.valCtx (.cancelCtx 0 .emptyCtx) (.string "k") (.int 7))),
   .op (.CancelFunc 0), .stmt 0, .stmt 0]

/-- The running program after `racedValueStart`: `A.done` is closed, `A.err` is not yet
stored, `B` is not cancelled and its monitoring goroutine has not run. -/
def racedValueMid : Conc :=
  ⟨⟨[⟨.emptyCtx, false, true, [], none, none⟩,
     ⟨.valCtx (.cancelCtx 0 .emptyCtx) (.string "k") (.int 7), false, false, [], none, none⟩],
    [(.emptyCtx, 0), (.valCtx (.cancelCtx 0 .emptyCtx) (.string "k") (.int 7), 1)], [], 0⟩,
   [[⟨0, some .ErrCancel, .store⟩]]⟩

/-- The rest of the run: the goroutine monitoring `V` for `B` runs and its call of
`B.cancel` returns; then `cancelA()` stores `A.err` and returns. -/
def racedValueRest : List Ev :=
  [.op (.monitorParent 1), .stmt 1, .stmt 1, .stmt 1, .stmt 1, .stmt 0, .stmt 0]

/-- The running program at the end of the run `racedValueStart ++ racedValueRest`. -/
def racedValueEnd : Conc :=
  ⟨⟨[⟨.emptyCtx, true, true, [], some .ErrCancel, none⟩,
     ⟨.valCtx (.cancelCtx 0 .emptyCtx) (.string "k") (.int 7), true, true, [], none, none⟩],
    [(.emptyCtx, 0)], [], 0⟩, [[], []]⟩

/-! ## Value lookup: lemmas -/

/-- Comparing anything with a plain value does not panic and decides equality. -/
theorem any_eq_of_plain : ∀ {k : any}, k.plain = true → ∀ (x : any),
    any.eq x k = some (decide (x = k)) := by
  intro k
  induction k with
  | nil => intro _ x; cases x <;> simp [any.eq]
  | int n => intro _ x; cases x <;> simp [any.eq]
  | string s => intro _ x; cases x <;> simp [any.eq]
  | slice xs => intro hk; simp [any.plain] at hk
  | array e ih =>
    intro hk x
    simp only [any.plain] at hk
    cases x with
    | array a => simp [any.eq, ih hk a]
    | nil => simp [any.eq]
    | int n => simp [any.eq]
    | string s => simp [any.eq]
    | slice xs => simp [any.eq]

/-- A value that some comparison finds equal is plain. -/
theorem plain_of_any_eq_true : ∀ {k a : any}, any.eq a k = some true → k.plain = true := by
  intro k
  induction k with
  | nil => intro _ _; rfl
  | int n => intro _ _; rfl
  | string s => intro _ _; rfl
  | slice xs => intro a h; cases a <;> simp [any.eq] at h
  | array e ih =>
    intro a h
    cases a with
    | array a =>
      simp only [any.eq] at h
      simpa [any.plain] using ih h
    | nil => simp [any.eq] at h
    | int n => simp [any.eq] at h
    | string s => simp [any.eq] at h
    | slice xs => simp [any.eq] at h

theorem valCtx_Value_self (p : Context) (k v : any) (hk : k.plain = true) :
    (Context.valCtx p k v).Value k = some k := by
  simp [Context.Value, any_eq_of_plain hk]

theorem value_nearest (k : any) (q : Context) (k2 v2 : any) (rest : List Context)
    (hk : any.eq k2 k = some true) :
    ∀ (c : Context) (pre : List Context), chain c = pre ++ Context.valCtx q k2 v2 :: rest →
      (∀ x ∈ pre, binds x k = false) → value c k = some v2 := by
  have hc := plain_of_any_eq_true hk
  intro c
  induction c with
  | nil => intro pre h; simp [chain] at h
  | emptyCtx =>
    intro pre h _
    cases pre with
    | nil => simp [chain] at h
    | cons x pre => simp [chain] at h
  | cancelCtx ptr p ih =>
    intro pre h hpre
    cases pre with
    | nil => simp [chain] at h
    | cons x pre =>
      simp only [chain, List.cons_append, List.cons.injEq] at h
      simp only [value]
      exact ih pre h.2 (fun y hy => hpre y (List.mem_cons_of_mem _ hy))
  | timerCtx ptr p d ih =>
    intro pre h hpre
    cases pre with
    | nil => simp [chain] at h
    | cons x pre =>
      simp only [chain, List.cons_append, List.cons.injEq] at h
      simp only [value]
      exact ih pre h.2 (fun y hy => hpre y (List.mem_cons_of_mem _ hy))
  | valCtx p key val ih =>
    intro pre h hpre
    cases pre with
    | nil =>
      simp only [chain, List.nil_append, List.cons.injEq, Context.valCtx.injEq] at h
      obtain ⟨⟨_, rfl, rfl⟩, _⟩ := h
      simp [value, hk]
    | cons x pre =>
      simp only [chain, List.cons_append, List.cons.injEq] at h
      have hx := hpre x (List.mem_cons_self _ _)
      rw [← h.1] at hx
      simp only [binds, any_eq_of_plain hc, Option.some.injEq, decide_eq_true_eq,
        decide_eq_false_iff_not] at hx
      simp only [value, any_eq_of_plain hc, hx, decide_False]
      exact ih pre h.2 (fun y hy => hpre y (List.mem_cons_of_mem _ hy))

theorem Touched.refl (e : Option error) (h : List cancelCtx) : Touched e h h :=
  ⟨rfl, fun _ _ hn => Or.inl hn⟩

theorem Touched.trans {e : Option error} {h h1 h2 : List cancelCtx}
    (h01 : Touched e h h1) (h12 : Touched e h1 h2) : Touched e h h2 := by
  refine ⟨h12.1.trans h01.1, fun i n hn => ?_⟩
  rcases h01.2 i n hn with h1n | ⟨ho, hd, h1n⟩
  · exact h12.2 i n h1n
  · rcases h12.2 i _ h1n with h2n | ⟨ho2, _, _⟩
    · exact Or.inr ⟨ho, hd, h2n⟩
    · simp [fire] at ho2

theorem foldlM_touched {e : Option error} (f : List cancelCtx → Nat → Option (List cancelCtx))
    (hf : ∀ h c h1, f h c = some h1 → Touched e h h1) :
    ∀ (l : List Nat) (h h1 : List cancelCtx), l.foldlM f h = some h1 → Touched e h h1 := by
  intro l
  induction l with
  | nil =>
    intro h h1 hr
    simp only [List.foldlM_nil, Option.pure_def, Option.some.injEq] at hr
    subst hr
    exact Touched.refl e h
  | cons c l ih =>
    intro h h1 hr
    simp only [List.foldlM_cons, Option.bind_eq_bind, Option.bind_eq_some] at hr
    obtain ⟨hm, hfc, hrest⟩ := hr
    exact (hf h c hm hfc).trans (ih hm h1 hrest)

theorem cancel_touched (e : Option error) :
    ∀ (fuel : Nat) (h : List cancelCtx) (c : Nat) (h1 : List cancelCtx),
      cancel fuel h c e = some h1 → Touched e h h1 := by
  intro fuel
  induction fuel with
  | zero => intro h c h1 hr; simp [cancel] at hr
  | succ fuel ih =>
    intro h c h1 hr
    unfold cancel at hr
    split at hr
    · simp at hr
    · rename_i n hn
      split at hr
      · simp only [Option.some.injEq] at hr
        subst hr
        exact Touched.refl e h
      · rename_i hon
        split at hr
        · simp at hr
        · rename_i hdn
          split at hr
          · simp at hr
          · rename_i h2 hfold
            have hc : c < h.length := (List.getElem?_eq_some.1 hn).1
            have ht := foldlM_touched (fun h1 child => cancel fuel h1 child e)
              (fun a b d hab => ih a b d hab) _ _ _ hfold
            have hlen : h2.length = h.length := by simpa using ht.1
            have h2c : h2[c]? = some { n with done := true, err := e } := by
              rcases ht.2 c { n with done := true, err := e }
                (by simp [List.getElem?_set, hc]) with h2n | ⟨_, hd, _⟩
              · exact h2n
              · simp at hd
            rw [h2c] at hr
            simp only [Option.some.injEq] at hr
            subst hr
            refine ⟨by simp [hlen], fun i m hm => ?_⟩
            by_cases hic : c = i
            · subst hic
              rw [hn] at hm
              simp only [Option.some.injEq] at hm
              subst hm
              right
              refine ⟨by simpa using hon, by simpa using hdn, ?_⟩
              simp [List.getElem?_set, hlen, hc, fire]
            · rw [List.getElem?_set_ne hic]
              exact ht.2 i m (by rw [List.getElem?_set_ne hic]; exact hm)

theorem Touched.inv {e : Option error} {h h1 : List cancelCtx} (ht : Touched e h h1)
    {i : Nat} {n1 : cancelCtx} (h1n : h1[i]? = some n1) :
    ∃ n, h[i]? = some n ∧ (n1 = n ∨ (n.once = false ∧ n.done = false ∧ n1 = fire n e)) := by
  have hi : i < h.length := by
    have := (List.getElem?_eq_some.1 h1n).1
    rw [ht.1] at this
    exact this
  refine ⟨h[i], List.getElem?_eq_getElem hi, ?_⟩
  rcases ht.2 i h[i] (List.getElem?_eq_getElem hi) with hx | ⟨ho, hd, hx⟩
  · rw [hx] at h1n
    exact Or.inl (Option.some.inj h1n).symm
  · rw [hx] at h1n
    exact Or.inr ⟨ho, hd, (Option.some.inj h1n).symm⟩

theorem Touched.once_stays {e : Option error} {h h1 : List cancelCtx} (ht : Touched e h h1)
    {i : Nat} {n : cancelCtx} (hn : h[i]? = some n) (ho : n.once = true) :
    h1[i]? = some n := by
  rcases ht.2 i n hn with hx | ⟨ho2, _, _⟩
  · exact hx
  · simp [ho] at ho2

theorem Touched.kids_eq {e : Option error} {h h1 : List cancelCtx} (ht : Touched e h h1)
    (a : Nat) : mycontext.kids h1 a = mycontext.kids h a := by
  unfold mycontext.kids
  cases hn : h[a]? with
  | none =>
    have : h1[a]? = none := by
      rw [List.getElem?_eq_none_iff] at hn ⊢
      rw [ht.1]
      exact hn
    rw [this]
  | some n =>
    rcases ht.2 a n hn with hx | ⟨_, _, hx⟩
    · rw [hx]
    · rw [hx]; rfl

theorem Touched.heapOK {e : Option error} {h h1 : List cancelCtx} (ht : Touched e h h1)
    (he : fixedCause e) (hok : HeapOK h) : HeapOK h1 := by
  intro i n1 h1n
  obtain ⟨n, hn, hcase⟩ := ht.inv h1n
  rcases hcase with rfl | ⟨_, _, rfl⟩
  · exact hok i _ hn
  · have hne : e ≠ none := by rcases he with rfl | rfl <;> simp
    exact ⟨rfl, by simp [fire, hne], fun _ => he⟩

theorem Touched.ordered {e : Option error} {h h1 : List cancelCtx} (ht : Touched e h h1)
    (hord : Ordered h) : Ordered h1 := by
  intro i n1 h1n x hx
  obtain ⟨n, hn, hcase⟩ := ht.inv h1n
  rw [ht.1]
  rcases hcase with rfl | ⟨_, _, rfl⟩
  · exact hord i _ hn x hx
  · exact hord i n hn x hx

theorem Touched.registered {e : Option error} {h h1 : List cancelCtx} (ht : Touched e h h1)
    (hreg : Registered h) : Registered h1 := by
  intro j n1 p q h1n hp
  obtain ⟨n, hn, hcase⟩ := ht.inv h1n
  rw [ht.kids_eq]
  rcases hcase with rfl | ⟨_, _, rfl⟩
  · exact hreg j _ p q hn hp
  · exact hreg j n p q hn hp

theorem Touched.kidsBuilt {e : Option error} {h h1 : List cancelCtx}
    (ht : Touched e h h1) (hkb : KidsBuilt h) : KidsBuilt h1 := by
  intro a x hx
  rw [ht.kids_eq] at hx
  obtain ⟨cell, q, hcell, hpar⟩ := hkb a x hx
  rcases ht.2 x cell hcell with h1x | ⟨_, _, h1x⟩
  · exact ⟨cell, q, h1x, hpar⟩
  · exact ⟨fire cell e, q, h1x, hpar⟩

theorem Touched.parentsBelow {e : Option error} {h h1 : List cancelCtx}
    (ht : Touched e h h1) (hpb : ParentsBelow h) : ParentsBelow h1 := by
  intro j n1 h1n x hx
  obtain ⟨n, hn, hcase⟩ := ht.inv h1n
  rcases hcase with rfl | ⟨_, _, rfl⟩
  · exact hpb j _ hn x hx
  · exact hpb j n hn x hx

/-! ## Enough fuel: `cancel` returns on an ordered heap -/

theorem foldlM_cancel_succeeds (e : Option error) (fuel len c : Nat)
    (ih : ∀ (h : List cancelCtx) (x : Nat), Ordered h →
      (∀ (i : Nat) (n : cancelCtx), h[i]? = some n → x ≤ i → n.once = n.done) →
      x < h.length → h.length - x ≤ fuel → ∃ h1, cancel fuel h x e = some h1)
    (hfuel : len - c ≤ fuel + 1) :
    ∀ (l : List Nat) (hk : List cancelCtx), hk.length = len → Ordered hk →
      (∀ (i : Nat) (n : cancelCtx), hk[i]? = some n → c < i → n.once = n.done) →
      (∀ x ∈ l, c < x ∧ x < len) →
      ∃ h2, l.foldlM (fun h1 child => cancel fuel h1 child e) hk = some h2 := by
  intro l
  induction l with
  | nil => intro hk _ _ _ _; exact ⟨hk, rfl⟩
  | cons x l ihl =>
    intro hk hlen hord hod hl
    have hx := hl x (List.mem_cons_self _ _)
    obtain ⟨hm, hcan⟩ := ih hk x hord (fun i n hn hxi => hod i n hn (by omega))
      (by omega) (by omega)
    have ht := cancel_touched e fuel hk x hm hcan
    obtain ⟨h2, hrest⟩ := ihl hm (by rw [ht.1, hlen]) (ht.ordered hord)
      (fun i n1 h1n hci => by
        obtain ⟨n, hn, hcase⟩ := ht.inv h1n
        rcases hcase with rfl | ⟨_, _, rfl⟩
        · exact hod i _ hn hci
        · rfl)
      (fun y hy => hl y (List.mem_cons_of_mem _ hy))
    exact ⟨h2, by simp [List.foldlM_cons, hcan, hrest]⟩

theorem cancel_succeeds (e : Option error) :
    ∀ (fuel : Nat) (h : List cancelCtx) (c : Nat), Ordered h →
      (∀ (i : Nat) (n : cancelCtx), h[i]? = some n → c ≤ i → n.once = n.done) →
      c < h.length → h.length - c ≤ fuel → ∃ h1, cancel fuel h c e = some h1 := by
  intro fuel
  induction fuel with
  | zero => intro h c _ _ hc hf; omega
  | succ fuel ih =>
    intro h c hord hod hc hf
    have hn : h[c]? = some h[c] := List.getElem?_eq_getElem hc
    unfold cancel
    simp only [hn]
    by_cases honce : h[c].once = true
    · exact ⟨h, by simp [honce]⟩
    · have hdone : h[c].done = false := by
        have := hod c _ hn (Nat.le_refl c)
        rw [← this]
        simpa using honce
      rw [if_neg honce, if_neg (by rw [hdone]; simp)]
      have hord0 : Ordered (h.set c { h[c] with done := true, err := e }) := by
        intro i n hi x hx
        rw [List.length_set]
        by_cases hci : c = i
        · subst hci
          rw [List.getElem?_set, if_pos rfl, if_pos hc] at hi
          simp only [Option.some.injEq] at hi
          subst hi
          exact hord c _ hn x hx
        · rw [List.getElem?_set_ne hci] at hi
          exact hord i n hi x hx
      obtain ⟨h2, hfold⟩ := foldlM_cancel_succeeds e fuel h.length c ih hf h[c].children
        (h.set c { h[c] with done := true, err := e }) (by simp) hord0
        (fun i n hi hci => by
          rw [List.getElem?_set_ne (by omega)] at hi
          exact hod i n hi (by omega))
        (fun x hx => hord c _ hn x hx)
      have ht := foldlM_touched (fun h1 child => cancel fuel h1 child e)
        (fun a b d hab => cancel_touched e fuel a b d hab) _ _ _ hfold
      have hc2 : c < h2.length := by rw [ht.1]; simpa using hc
      dsimp only at hfold ⊢
      rw [hfold]
      simp only [List.getElem?_eq_getElem hc2]
      exact ⟨_, rfl⟩

theorem cancelCtx_cancel_succeeds (h : List cancelCtx) (c : Nat) (e : Option error)
    (hok : HeapOK h) (hord : Ordered h) (hc : c < h.length) :
    ∃ h1, cancelCtx.cancel h c e = some h1 :=
  cancel_succeeds e (h.length + 1) h c hord (fun i n hn _ => (hok i n hn).1) hc (by omega)

theorem foldlM_some_mono (f g : List cancelCtx → Nat → Option (List cancelCtx))
    (hfg : ∀ a b r, f a b = some r → g a b = some r) :
    ∀ (l : List Nat) (hk r : List cancelCtx), l.foldlM f hk = some r →
      l.foldlM g hk = some r := by
  intro l
  induction l with
  | nil => intro hk r hr; simpa using hr
  | cons x l ih =>
    intro hk r hr
    simp only [List.foldlM_cons, Option.bind_eq_bind, Option.bind_eq_some] at hr ⊢
    obtain ⟨hm, hfx, hrest⟩ := hr
    exact ⟨hm, hfg _ _ _ hfx, ih hm r hrest⟩

/-- More fuel does not change the result of a call of `cancel` that returns. -/
theorem cancel_fuel_succ (e : Option error) :
    ∀ (fuel : Nat) (h : List cancelCtx) (c : Nat) (h1 : List cancelCtx),
      cancel fuel h c e = some h1 → cancel (fuel + 1) h c e = some h1 := by
  intro fuel
  induction fuel with
  | zero => intro h c h1 hr; simp [cancel] at hr
  | succ fuel ih =>
    intro h c h1 hr
    unfold cancel at hr ⊢
    split at hr
    · simp at hr
    · rename_i n hn
      split at hr
      · rename_i honce
        rw [if_pos honce]
        exact hr
      · rename_i honce
        rw [if_neg honce]
        split at hr
        · simp at hr
        · rename_i hdone
          rw [if_neg hdone]
          split at hr
          · simp at hr
          · rename_i h2 hfold
            rw [foldlM_some_mono _ _ (fun a b r hab => ih a b r hab) _ _ _ hfold]
            exact hr

theorem cancel_fuel_le (e : Option error) (fuel fuel1 : Nat) (hle : fuel ≤ fuel1)
    (h : List cancelCtx) (c : Nat) (h1 : List cancelCtx) (hr : cancel fuel h c e = some h1) :
    cancel fuel1 h c e = some h1 := by
  induction hle with
  | refl => exact hr
  | step _ ih => exact cancel_fuel_succ e _ h c h1 ih

/-! ## What `cancel` reaches, and what it leaves alone -/

theorem Touched.onceAt_mono {e : Option error} {h h1 : List cancelCtx} (ht : Touched e h h1)
    {i : Nat} (hi : onceAt h i) : onceAt h1 i := by
  obtain ⟨n, hn, ho⟩ := hi
  exact ⟨n, ht.once_stays hn ho, ho⟩

theorem kids_set (h : List cancelCtx) (c : Nat) (n n1 : cancelCtx) (hn : h[c]? = some n)
    (hch : n1.children = n.children) (a : Nat) : kids (h.set c n1) a = kids h a := by
  unfold kids
  by_cases hca : c = a
  · subst hca
    rw [List.getElem?_set, if_pos rfl, if_pos (List.getElem?_eq_some.1 hn).1, hn]
    exact hch
  · rw [List.getElem?_set_ne hca]

theorem onceAt_set_once (h2 : List cancelCtx) (c : Nat) (n0 : cancelCtx)
    (hn0 : h2[c]? = some n0) {x : Nat} (hx : onceAt h2 x) :
    onceAt (h2.set c { n0 with once := true }) x := by
  by_cases hcx : c = x
  · subst hcx
    exact ⟨_, by rw [List.getElem?_set, if_pos rfl, if_pos (List.getElem?_eq_some.1 hn0).1],
      rfl⟩
  · obtain ⟨n, hn, ho⟩ := hx
    exact ⟨n, by rw [List.getElem?_set_ne hcx]; exact hn, ho⟩

theorem foldlM_cancel_closed (e : Option error) (fuel : Nat)
    (ih : ∀ (h : List cancelCtx) (c : Nat) (h1 : List cancelCtx),
      cancel fuel h c e = some h1 →
      onceAt h1 c ∧ ∀ i, ¬ onceAt h i → onceAt h1 i → ∀ x ∈ kids h i, onceAt h1 x) :
    ∀ (l : List Nat) (hk h2 : List cancelCtx),
      l.foldlM (fun h1 child => cancel fuel h1 child e) hk = some h2 →
      (∀ x ∈ l, onceAt h2 x) ∧
        ∀ i, ¬ onceAt hk i → onceAt h2 i → ∀ x ∈ kids hk i, onceAt h2 x := by
  intro l
  induction l with
  | nil =>
    intro hk h2 hr
    simp only [List.foldlM_nil, Option.pure_def, Option.some.injEq] at hr
    subst hr
    exact ⟨fun x hx => by simp at hx, fun i hno ho => absurd ho hno⟩
  | cons y l ihl =>
    intro hk h2 hr
    simp only [List.foldlM_cons, Option.bind_eq_bind, Option.bind_eq_some] at hr
    obtain ⟨hm, hy, hrest⟩ := hr
    have ht1 := cancel_touched e fuel hk y hm hy
    have ht2 := foldlM_touched (fun h1 child => cancel fuel h1 child e)
      (fun a b d hab => cancel_touched e fuel a b d hab) _ _ _ hrest
    obtain ⟨hyo, hyc⟩ := ih hk y hm hy
    obtain ⟨hlo, hlc⟩ := ihl hm h2 hrest
    refine ⟨fun x hx => ?_, fun i hno ho x hx => ?_⟩
    · rcases List.mem_cons.1 hx with rfl | hx
      · exact ht2.onceAt_mono hyo
      · exact hlo x hx
    · by_cases hmi : onceAt hm i
      · exact ht2.onceAt_mono (hyc i hno hmi x hx)
      · exact hlc i hmi ho x (by rw [ht1.kids_eq]; exact hx)

/-- After a call of `cancel` that returns, the body has run on the node, and every node
on which the body has run during the call has all its children cancelled. -/
theorem cancel_closed (e : Option error) :
    ∀ (fuel : Nat) (h : List cancelCtx) (c : Nat) (h1 : List cancelCtx),
      cancel fuel h c e = some h1 →
      onceAt h1 c ∧ ∀ i, ¬ onceAt h i → onceAt h1 i → ∀ x ∈ kids h i, onceAt h1 x := by
  intro fuel
  induction fuel with
  | zero => intro h c h1 hr; simp [cancel] at hr
  | succ fuel ih =>
    intro h c h1 hr
    unfold cancel at hr
    split at hr
    · simp at hr
    · rename_i n hn
      split at hr
      · rename_i honce
        simp only [Option.some.injEq] at hr
        subst hr
        exact ⟨⟨n, hn, honce⟩, fun i hno ho => absurd ho hno⟩
      · rename_i honce
        split at hr
        · simp at hr
        · rename_i hdone
          split at hr
          · simp at hr
          · rename_i h2 hfold
            have hc : c < h.length := (List.getElem?_eq_some.1 hn).1
            have ht := foldlM_touched (fun h1 child => cancel fuel h1 child e)
              (fun a b d hab => cancel_touched e fuel a b d hab) _ _ _ hfold
            have h2c : h2[c]? = some { n with done := true, err := e } := by
              rcases ht.2 c { n with done := true, err := e }
                (by simp [List.getElem?_set, hc]) with h2n | ⟨_, hd, _⟩
              · exact h2n
              · simp at hd
            obtain ⟨hlo, hlc⟩ := foldlM_cancel_closed e fuel ih _ _ _ hfold
            rw [h2c] at hr
            simp only [Option.some.injEq] at hr
            subst hr
            refine ⟨⟨_, by rw [List.getElem?_set, if_pos rfl,
              if_pos (List.getElem?_eq_some.1 h2c).1], rfl⟩, fun i hno ho x hx => ?_⟩
            by_cases hci : c = i
            · subst hci
              have hxk : x ∈ n.children := by simpa [kids, hn] using hx
              exact onceAt_set_once h2 c _ h2c (hlo x hxk)
            · have hno0 : ¬ onceAt (h.set c { n with done := true, err := e }) i := by
                rintro ⟨m, hm, hmo⟩
                rw [List.getElem?_set_ne hci] at hm
                exact hno ⟨m, hm, hmo⟩
              have ho2 : onceAt h2 i := by
                obtain ⟨m, hm, hmo⟩ := ho
                rw [List.getElem?_set_ne hci] at hm
                exact ⟨m, hm, hmo⟩
              have hxk : x ∈ kids (h.set c { n with done := true, err := e }) i := by
                rw [kids_set h c n { n with done := true, err := e } hn rfl]
                exact hx
              exact onceAt_set_once h2 c _ h2c (hlc i hno0 ho2 x hxk)

theorem reach_congr {h h1 : List cancelCtx} (hk : ∀ a, kids h1 a = kids h a) (a b : Nat) :
    reach h1 a b ↔ reach h a b := by
  have : kids h1 = kids h := funext hk
  unfold reach
  rw [this]

theorem reach_le {h : List cancelCtx} (hord : Ordered h) {a b : Nat} (hab : reach h a b) :
    a ≤ b := by
  induction hab with
  | refl => exact Nat.le_refl a
  | @tail x y _ hstep ih =>
    unfold kids at hstep
    cases hn : h[x]? with
    | none => rw [hn] at hstep; simp at hstep
    | some n =>
      rw [hn] at hstep
      have := (hord x n hn _ hstep).1
      omega

theorem foldlM_cancel_frame (e : Option error) (fuel : Nat) (h : List cancelCtx) (m : Nat)
    (ih : ∀ (hk : List cancelCtx) (c : Nat) (h1 : List cancelCtx),
      cancel fuel hk c e = some h1 → ¬ reach hk c m → h1[m]? = hk[m]?) :
    ∀ (l : List Nat) (hk h2 : List cancelCtx), (∀ a, kids hk a = kids h a) →
      (∀ x ∈ l, ¬ reach h x m) →
      l.foldlM (fun h1 child => cancel fuel h1 child e) hk = some h2 → h2[m]? = hk[m]? := by
  intro l
  induction l with
  | nil =>
    intro hk h2 _ _ hr
    simp only [List.foldlM_nil, Option.pure_def, Option.some.injEq] at hr
    subst hr
    rfl
  | cons y l ihl =>
    intro hk h2 hkids hl hr
    simp only [List.foldlM_cons, Option.bind_eq_bind, Option.bind_eq_some] at hr
    obtain ⟨hm, hy, hrest⟩ := hr
    have ht1 := cancel_touched e fuel hk y hm hy
    have h1 := ih hk y hm hy (fun hr => hl y (List.mem_cons_self _ _)
      ((reach_congr hkids y m).1 hr))
    have h2m := ihl hm h2 (fun a => by rw [ht1.kids_eq, hkids])
      (fun x hx => hl x (List.mem_cons_of_mem _ hx)) hrest
    rw [h2m, h1]

/-- A call of `cancel` leaves every struct that is not reachable from the node through
the maps `children` exactly as it was. -/
theorem cancel_frame (e : Option error) (m : Nat) :
    ∀ (fuel : Nat) (h : List cancelCtx) (c : Nat) (h1 : List cancelCtx),
      cancel fuel h c e = some h1 → ¬ reach h c m → h1[m]? = h[m]? := by
  intro fuel
  induction fuel with
  | zero => intro h c h1 hr; simp [cancel] at hr
  | succ fuel ih =>
    intro h c h1 hr hnr
    have hcm : c ≠ m := fun hcm => hnr (hcm ▸ Relation.ReflTransGen.refl)
    unfold cancel at hr
    split at hr
    · simp at hr
    · rename_i n hn
      split at hr
      · simp only [Option.some.injEq] at hr
        subst hr
        rfl
      · split at hr
        · simp at hr
        · split at hr
          · simp at hr
          · rename_i h2 hfold
            have hfr := foldlM_cancel_frame e fuel h m ih n.children _ h2
              (fun a => kids_set h c n { n with done := true, err := e } hn rfl a)
              (fun x hx hr => hnr (Relation.ReflTransGen.head
                (by simpa [kids, hn] using hx) hr))
              hfold
            split at hr
            · simp at hr
            · simp only [Option.some.injEq] at hr
              subst hr
              rw [List.getElem?_set_ne hcm, hfr, List.getElem?_set_ne hcm]

/-! ## The invariant holds in every reachable state -/

theorem issued_ptrs_lt (h : List cancelCtx) :
    ∀ (p : Context), issued h p = true → ∀ x ∈ ptrs p, x < h.length := by
  intro p
  induction p with
  | nil => intro _ x hx; simp [ptrs] at hx
  | emptyCtx => intro _ x hx; simp [ptrs] at hx
  | cancelCtx ptr p ih =>
    intro hi x hx
    simp only [issued, Bool.and_eq_true] at hi
    simp only [ptrs, List.mem_cons] at hx
    rcases hx with rfl | hx
    · cases hn : h[x]? with
      | none => simp [hn] at hi
      | some n => exact (List.getElem?_eq_some.1 hn).1
    · exact ih hi.2 x hx
  | timerCtx ptr p d ih =>
    intro hi x hx
    simp only [issued, Bool.and_eq_true, Bool.or_eq_true, decide_eq_true_eq] at hi
    simp only [ptrs, List.mem_cons] at hx
    rcases hx with rfl | hx
    · cases hn : h[x]? with
      | none => simp [hn] at hi
      | some n => exact (List.getElem?_eq_some.1 hn).1
    · rcases hi.2 with rfl | hp
      · simp [ptrs] at hx
      · exact ih hp x hx
  | valCtx p k v ih =>
    intro hi x hx
    simp only [issued] at hi
    simp only [ptrs] at hx
    exact ih hi x hx

theorem possible_parent_ptrs_lt (h : List cancelCtx) (p : Context)
    (hp : (decide (p = .nil) || issued h p) = true) : ∀ x ∈ ptrs p, x < h.length := by
  simp only [Bool.or_eq_true, decide_eq_true_eq] at hp
  rcases hp with rfl | hp
  · intro x hx; simp [ptrs] at hx
  · exact issued_ptrs_lt h p hp

theorem cellOK_new (parent : Context) (d : Option Int) : cellOK (cancelCtx.new parent d) := by
  simp [cellOK, cancelCtx.new]

/-- The heap after allocating a struct for `parent` and running `propagateCancel`: the
structure of the heap is kept, and so is every property `P` of the structs that a fresh
struct has and that does not depend on `children`. -/
theorem propagate_alloc_gen (P : cancelCtx → Prop)
    (hPnew : ∀ (parent : Context) (d : Option Int), P (cancelCtx.new parent d))
    (hPch : ∀ (n : cancelCtx) (ch : List Nat), P n → P { n with children := ch })
    (s s1 : State) (parent : Context) (d : Option Int)
    (hinv : (∀ (i : Nat) (n : cancelCtx), s.heap[i]? = some n → P n) ∧ Ordered s.heap ∧
      Registered s.heap ∧ ParentsBelow s.heap ∧ KidsBuilt s.heap)
    (hp : ∀ x ∈ ptrs parent, x < s.heap.length)
    (hr : propagateCancel { s with heap := s.heap ++ [cancelCtx.new parent d] } parent
      s.heap.length = some s1) :
    ((∀ (i : Nat) (n : cancelCtx), s1.heap[i]? = some n → P n) ∧ Ordered s1.heap ∧
        Registered s1.heap ∧ ParentsBelow s1.heap ∧ KidsBuilt s1.heap) ∧
      s1.heap.length = s.heap.length + 1 ∧
      s1.heap[s.heap.length]? = some (cancelCtx.new parent d) ∧
      s1.timers = s.timers ∧ s1.now = s.now := by
  obtain ⟨hok, hord, hreg, hpb, hkb⟩ := hinv
  have hplain : ∀ (s2 : State), s2.heap = s.heap ++ [cancelCtx.new parent d] →
      (∀ p q, parent ≠ .cancelCtx p q) →
      ((∀ (i : Nat) (n : cancelCtx), s2.heap[i]? = some n → P n) ∧ Ordered s2.heap ∧
        Registered s2.heap ∧ ParentsBelow s2.heap ∧ KidsBuilt s2.heap) ∧
      s2.heap.length = s.heap.length + 1 ∧
      s2.heap[s.heap.length]? = some (cancelCtx.new parent d) := by
    intro s2 h2 hnc
    rw [h2]
    refine ⟨⟨?_, ?_, ?_, ?_, ?_⟩, by simp, by simp⟩
    · intro i n hn
      rcases Nat.lt_or_ge i s.heap.length with hi | hi
      · rw [List.getElem?_append_left hi] at hn
        exact hok i n hn
      · rw [List.getElem?_append_right hi] at hn
        cases hk : i - s.heap.length with
        | zero =>
          rw [hk] at hn
          simp only [List.getElem?_cons_zero, Option.some.injEq] at hn
          subst hn
          exact hPnew parent d
        | succ k => rw [hk] at hn; simp at hn
    · intro i n hn x hx
      rcases Nat.lt_or_ge i s.heap.length with hi | hi
      · rw [List.getElem?_append_left hi] at hn
        have := hord i n hn x hx
        simp only [List.length_append, List.length_singleton]
        omega
      · rw [List.getElem?_append_right hi] at hn
        cases hk : i - s.heap.length with
        | zero =>
          rw [hk] at hn
          simp only [List.getElem?_cons_zero, Option.some.injEq] at hn
          subst hn
          simp [cancelCtx.new] at hx
        | succ k => rw [hk] at hn; simp at hn
    · intro j n p q hn hpar
      rcases Nat.lt_or_ge j s.heap.length with hj | hj
      · rw [List.getElem?_append_left hj] at hn
        have hmem := hreg j n p q hn hpar
        unfold kids at hmem ⊢
        cases hpn : s.heap[p]? with
        | none => rw [hpn] at hmem; simp at hmem
        | some m =>
          rw [hpn] at hmem
          rw [List.getElem?_append_left (List.getElem?_eq_some.1 hpn).1, hpn]
          exact hmem
      · rw [List.getElem?_append_right hj] at hn
        cases hk : j - s.heap.length with
        | zero =>
          rw [hk] at hn
          simp only [List.getElem?_cons_zero, Option.some.injEq] at hn
          subst hn
          exact absurd hpar (hnc p q)
        | succ k => rw [hk] at hn; simp at hn
    · intro j n hn x hx
      rcases Nat.lt_or_ge j s.heap.length with hj | hj
      · rw [List.getElem?_append_left hj] at hn
        exact hpb j n hn x hx
      · rw [List.getElem?_append_right hj] at hn
        cases hk : j - s.heap.length with
        | zero =>
          rw [hk] at hn
          simp only [List.getElem?_cons_zero, Option.some.injEq] at hn
          subst hn
          have := hp x hx
          omega
        | succ k => rw [hk] at hn; simp at hn
    · intro a x hx
      unfold kids at hx
      rcases Nat.lt_or_ge a s.heap.length with ha | ha
      · rw [List.getElem?_append_left ha] at hx
        obtain ⟨cell, q, hcell, hpar⟩ := hkb a x hx
        exact ⟨cell, q, by
          rw [List.getElem?_append_left (List.getElem?_eq_some.1 hcell).1]; exact hcell, hpar⟩
      · rw [List.getElem?_append_right ha] at hx
        cases hk : a - s.heap.length with
        | zero => rw [hk] at hx; simp [cancelCtx.new] at hx
        | succ k => rw [hk] at hx; simp at hx
  cases parent with
  | nil =>
    simp only [propagateCancel, Option.some.injEq] at hr
    subst hr
    exact ⟨(hplain _ rfl (by simp)).1, (hplain _ rfl (by simp)).2.1,
      (hplain _ rfl (by simp)).2.2, rfl, rfl⟩
  | emptyCtx =>
    simp only [propagateCancel, Option.some.injEq] at hr
    subst hr
    exact ⟨(hplain _ rfl (by simp)).1, (hplain _ rfl (by simp)).2.1,
      (hplain _ rfl (by simp)).2.2, rfl, rfl⟩
  | timerCtx ptr p dl =>
    simp only [propagateCancel, Option.some.injEq] at hr
    subst hr
    exact ⟨(hplain _ rfl (by simp)).1, (hplain _ rfl (by simp)).2.1,
      (hplain _ rfl (by simp)).2.2, rfl, rfl⟩
  | valCtx p k v =>
    simp only [propagateCancel, Option.some.injEq] at hr
    subst hr
    exact ⟨(hplain _ rfl (by simp)).1, (hplain _ rfl (by simp)).2.1,
      (hplain _ rfl (by simp)).2.2, rfl, rfl⟩
  | cancelCtx ptr q =>
    have hptr : ptr < s.heap.length := hp ptr (by simp [ptrs])
    have hcell : s.heap[ptr]? = some s.heap[ptr] := List.getElem?_eq_getElem hptr
    simp only [propagateCancel, addChild, List.getElem?_append_left hptr, hcell] at hr
    simp only [Option.some.injEq] at hr
    subst hr
    simp only
    have hlen : s.heap.length ∉ s.heap[ptr].children := by
      intro hmem
      have := (hord ptr _ hcell _ hmem).2
      omega
    simp only [hlen, if_false]
    refine ⟨⟨?_, ?_, ?_, ?_, ?_⟩, by simp, ?_, trivial, trivial⟩
    · intro i n hn
      rw [List.getElem?_set] at hn
      split at hn
      · split at hn
        · simp only [Option.some.injEq] at hn
          subst hn
          exact hPch _ _ (hok ptr _ hcell)
        · simp at hn
      · rcases Nat.lt_or_ge i s.heap.length with hi | hi
        · rw [List.getElem?_append_left hi] at hn
          exact hok i n hn
        · rw [List.getElem?_append_right hi] at hn
          cases hk : i - s.heap.length with
          | zero =>
            rw [hk] at hn
            simp only [List.getElem?_cons_zero, Option.some.injEq] at hn
            subst hn
            exact hPnew _ d
          | succ k => rw [hk] at hn; simp at hn
    · intro i n hn x hx
      simp only [List.length_set, List.length_append, List.length_singleton]
      rw [List.getElem?_set] at hn
      split at hn
      · rename_i hpi
        split at hn
        · simp only [Option.some.injEq] at hn
          subst hn
          subst hpi
          simp only [List.mem_append, List.mem_singleton] at hx
          rcases hx with hx | rfl
          · have := hord ptr _ hcell x hx
            omega
          · omega
        · simp at hn
      · rcases Nat.lt_or_ge i s.heap.length with hi | hi
        · rw [List.getElem?_append_left hi] at hn
          have := hord i n hn x hx
          omega
        · rw [List.getElem?_append_right hi] at hn
          cases hk : i - s.heap.length with
          | zero =>
            rw [hk] at hn
            simp only [List.getElem?_cons_zero, Option.some.injEq] at hn
            subst hn
            simp [cancelCtx.new] at hx
          | succ k => rw [hk] at hn; simp at hn
    · have hkids : ∀ a x, x ∈ kids s.heap a → x ∈ kids ((s.heap ++
          [cancelCtx.new (.cancelCtx ptr q) d]).set ptr
          { s.heap[ptr] with children := s.heap[ptr].children ++ [s.heap.length] }) a := by
        intro a x hx
        unfold kids at hx ⊢
        cases han : s.heap[a]? with
        | none => rw [han] at hx; simp at hx
        | some m =>
          rw [han] at hx
          have ha : a < s.heap.length := (List.getElem?_eq_some.1 han).1
          by_cases hpa : ptr = a
          · subst hpa
            rw [List.getElem?_set, if_pos rfl, if_pos (by simp; omega)]
            rw [hcell] at han
            simp only [Option.some.injEq] at han
            subst han
            simp [hx]
          · rw [List.getElem?_set_ne hpa, List.getElem?_append_left ha, han]
            exact hx
      intro j n p r hn hpar
      rw [List.getElem?_set] at hn
      split at hn
      · split at hn
        · simp only [Option.some.injEq] at hn
          subst hn
          rename_i hpj _
          subst hpj
          exact hkids p ptr (hreg ptr _ p r hcell hpar)
        · simp at hn
      · rcases Nat.lt_or_ge j s.heap.length with hj | hj
        · rw [List.getElem?_append_left hj] at hn
          exact hkids p j (hreg j n p r hn hpar)
        · rw [List.getElem?_append_right hj] at hn
          cases hk : j - s.heap.length with
          | zero =>
            rw [hk] at hn
            simp only [List.getElem?_cons_zero, Option.some.injEq] at hn
            subst hn
            simp only [cancelCtx.new, Context.cancelCtx.injEq] at hpar
            obtain ⟨rfl, rfl⟩ := hpar
            have hj2 : j = s.heap.length := by omega
            subst hj2
            unfold kids
            rw [List.getElem?_set]
            simp only [List.length_append, List.length_singleton, if_true]
            rw [if_pos (by omega)]
            simp
          | succ k => rw [hk] at hn; simp at hn
    · intro j n hn x hx
      rw [List.getElem?_set] at hn
      split at hn
      · split at hn
        · simp only [Option.some.injEq] at hn
          subst hn
          rename_i hpj _
          subst hpj
          exact hpb ptr _ hcell x hx
        · simp at hn
      · rcases Nat.lt_or_ge j s.heap.length with hj | hj
        · rw [List.getElem?_append_left hj] at hn
          exact hpb j n hn x hx
        · rw [List.getElem?_append_right hj] at hn
          cases hk : j - s.heap.length with
          | zero =>
            rw [hk] at hn
            simp only [List.getElem?_cons_zero, Option.some.injEq] at hn
            subst hn
            have := hp x hx
            omega
          | succ k => rw [hk] at hn; simp at hn
    · have hkeep : ∀ (x : Nat) (cell : cancelCtx), s.heap[x]? = some cell →
          ∃ cell1, ((s.heap ++ [cancelCtx.new (.cancelCtx ptr q) d]).set ptr
            { s.heap[ptr] with children := s.heap[ptr].children ++ [s.heap.length] })[x]?
              = some cell1 ∧ cell1.parent = cell.parent := by
        intro x cell hx
        have hxl : x < s.heap.length := (List.getElem?_eq_some.1 hx).1
        by_cases hpx : ptr = x
        · subst hpx
          rw [hcell] at hx
          simp only [Option.some.injEq] at hx
          subst hx
          exact ⟨{ s.heap[ptr] with children := s.heap[ptr].children ++ [s.heap.length] },
            by rw [List.getElem?_set, if_pos rfl, if_pos (by simp; omega)], rfl⟩
        · exact ⟨cell, by rw [List.getElem?_set_ne hpx, List.getElem?_append_left hxl, hx],
            rfl⟩
      intro a x hx
      unfold kids at hx
      by_cases hpa : ptr = a
      · subst hpa
        rw [List.getElem?_set, if_pos rfl, if_pos (by simp; omega)] at hx
        simp only [List.mem_append, List.mem_singleton] at hx
        rcases hx with hx | rfl
        · obtain ⟨cell, r, hc, hpar⟩ := hkb ptr x (by unfold kids; rw [hcell]; exact hx)
          obtain ⟨cell1, hc1, hp1⟩ := hkeep x cell hc
          exact ⟨cell1, r, hc1, hp1.trans hpar⟩
        · exact ⟨cancelCtx.new (.cancelCtx ptr q) d, q, by
            rw [List.getElem?_set_ne (by omega)]; simp, rfl⟩
      · rw [List.getElem?_set_ne hpa] at hx
        rcases Nat.lt_or_ge a s.heap.length with ha | ha
        · rw [List.getElem?_append_left ha] at hx
          obtain ⟨cell, r, hc, hpar⟩ := hkb a x hx
          obtain ⟨cell1, hc1, hp1⟩ := hkeep x cell hc
          exact ⟨cell1, r, hc1, hp1.trans hpar⟩
        · rw [List.getElem?_append_right ha] at hx
          cases hk : a - s.heap.length with
          | zero => rw [hk] at hx; simp [cancelCtx.new] at hx
          | succ k => rw [hk] at hx; simp at hx
    · rw [List.getElem?_set_ne (by omega)]
      simp

/-- The heap after allocating a struct for `parent` and running `propagateCancel`. -/
theorem propagate_alloc_inv (s s1 : State) (parent : Context) (d : Option Int)
    (hinv : InvH s.heap)
    (hp : ∀ x ∈ ptrs parent, x < s.heap.length)
    (hr : propagateCancel { s with heap := s.heap ++ [cancelCtx.new parent d] } parent
      s.heap.length = some s1) :
    InvH s1.heap ∧
      s1.heap.length = s.heap.length + 1 ∧
      s1.heap[s.heap.length]? = some (cancelCtx.new parent d) ∧
      s1.timers = s.timers ∧ s1.now = s.now :=
  propagate_alloc_gen cellOK cellOK_new (fun _ _ h => h) s s1 parent d hinv hp hr

theorem err_of_fired (h : List cancelCtx) (hok : HeapOK h) :
    ∀ (p : Context) (ch : chan) (e : Option error), p.Done = some ch → fired h ch = true →
      p.Err h = some e → fixedCause e := by
  intro p
  induction p with
  | nil => intro ch e hd; simp [Context.Done] at hd
  | emptyCtx =>
    intro ch e hd hf
    simp only [Context.Done, Option.some.injEq] at hd
    subst hd
    simp [fired] at hf
  | cancelCtx ptr q _ =>
    intro ch e hd hf he
    simp only [Context.Done, Option.some.injEq] at hd
    subst hd
    simp only [fired] at hf
    cases hn : h[ptr]? with
    | none => simp [hn] at hf
    | some n =>
      simp only [hn] at hf
      simp only [Context.Err, hn, Option.map_some', Option.some.injEq] at he
      subst he
      have hc := hok ptr n hn
      exact hc.2.2 (hc.2.1.1 hf)
  | timerCtx ptr q d _ =>
    intro ch e hd hf he
    simp only [Context.Done, Option.some.injEq] at hd
    subst hd
    simp only [fired] at hf
    cases hn : h[ptr]? with
    | none => simp [hn] at hf
    | some n =>
      simp only [hn] at hf
      simp only [Context.Err, hn, Option.map_some', Option.some.injEq] at he
      subst he
      have hc := hok ptr n hn
      exact hc.2.2 (hc.2.1.1 hf)
  | valCtx q k v ih =>
    intro ch e hd hf he
    simp only [Context.Done] at hd
    simp only [Context.Err] at he
    exact ih ch e hd hf he

theorem inv_of_touched {e : Option error} {h h1 : List cancelCtx}
    (hinv : InvH h) (ht : Touched e h h1) (he : fixedCause e) : InvH h1 :=
  ⟨ht.heapOK he hinv.1, ht.ordered hinv.2.1, ht.registered hinv.2.2.1,
    ht.parentsBelow hinv.2.2.2.1, ht.kidsBuilt hinv.2.2.2.2⟩

theorem WithDeadline_inv (s s1 : State) (parent : Context) (d : Int) (r : Context × Nat)
    (hinv : Inv s) (hp : ∀ x ∈ ptrs parent, x < s.heap.length)
    (hr : WithDeadline s parent d = some (r, s1)) : Inv s1 := by
  unfold WithDeadline at hr
  simp only at hr
  split at hr
  · simp at hr
  · rename_i s2 hprop
    have h2 := propagate_alloc_inv s s2 parent (some d) hinv hp hprop
    split at hr
    · simp at hr
    · rename_i h3 hcan
      simp only [Option.some.injEq, Prod.mk.injEq] at hr
      obtain ⟨_, rfl⟩ := hr
      split at hcan
      · exact inv_of_touched h2.1 (cancel_touched _ _ _ _ _ hcan) (Or.inr rfl)
      · simp only [Option.some.injEq] at hcan
        subst hcan
        exact h2.1

theorem step_inv (s s1 : State) (op : Op) (hinv : Inv s) (hposs : Op.possible s op = true)
    (hstep : step s op = some s1) : Inv s1 := by
  cases op with
  | WithCancel p =>
    simp only [step, Option.map_eq_some', Prod.exists] at hstep
    obtain ⟨r, c, s2, hw, rfl⟩ := hstep
    unfold WithCancel at hw
    split at hw
    · simp at hw
    · simp only at hw
      split at hw
      · simp at hw
      · rename_i s3 hprop
        simp only [Option.some.injEq, Prod.mk.injEq] at hw
        obtain ⟨_, rfl⟩ := hw
        exact (propagate_alloc_inv s s3 p none hinv
          (possible_parent_ptrs_lt s.heap p hposs) hprop).1
  | WithDeadline p d =>
    simp only [step, Option.map_eq_some', Prod.exists] at hstep
    obtain ⟨r, c, s2, hw, rfl⟩ := hstep
    exact WithDeadline_inv s s2 p d (r, c) hinv (possible_parent_ptrs_lt s.heap p hposs) hw
  | WithTimeout p t =>
    simp only [step, Option.map_eq_some', Prod.exists] at hstep
    obtain ⟨r, c, s2, hw, rfl⟩ := hstep
    exact WithDeadline_inv s s2 p _ (r, c) hinv (possible_parent_ptrs_lt s.heap p hposs) hw
  | WithValue p k v =>
    simp only [step, Option.map_eq_some'] at hstep
    obtain ⟨_, _, rfl⟩ := hstep
    exact hinv
  | CancelFunc c =>
    simp only [step, CancelFunc] at hstep
    split at hstep
    · simp at hstep
    · rename_i h1 hcan
      simp only [Option.some.injEq] at hstep
      subst hstep
      exact inv_of_touched hinv (cancel_touched _ _ _ _ _ hcan) (Or.inl rfl)
  | timerFire i =>
    simp only [step, timerFire] at hstep
    split at hstep
    · simp at hstep
    · split at hstep
      · split at hstep
        · simp at hstep
        · rename_i h1 hcan
          simp only [Option.some.injEq] at hstep
          subst hstep
          exact inv_of_touched hinv (cancel_touched _ _ _ _ _ hcan) (Or.inr rfl)
      · simp at hstep
  | monitorParent i =>
    simp only [step, monitorParent] at hstep
    split at hstep
    · simp at hstep
    · split at hstep
      · simp at hstep
      · rename_i ch hdone
        split at hstep
        · rename_i hfired
          split at hstep
          · simp at hstep
          · rename_i e herr
            split at hstep
            · simp at hstep
            · rename_i h1 hcan
              simp only [Option.some.injEq] at hstep
              subst hstep
              exact inv_of_touched hinv (cancel_touched _ _ _ _ _ hcan)
                (err_of_fired s.heap hinv.1 _ ch e hdone hfired herr)
        · simp at hstep
  | monitorChild i =>
    simp only [step, monitorChild] at hstep
    split at hstep
    · simp at hstep
    · split at hstep
      · simp at hstep
      · split at hstep
        · simp only [Option.some.injEq] at hstep
          subst hstep
          exact hinv
        · simp at hstep
  | tick d =>
    simp only [step, Option.some.injEq] at hstep
    subst hstep
    exact hinv

theorem reachable_inv {s : State} (hs : Reachable s) : Inv s := by
  induction hs with
  | init now =>
    refine ⟨?_, ?_, ?_, ?_, ?_⟩
    · intro i n hn; simp [State.init] at hn
    · intro i n hn; simp [State.init] at hn
    · intro i n _ _ hn; simp [State.init] at hn
    · intro i n hn; simp [State.init] at hn
    · intro a x hx; simp [State.init, kids] at hx
  | step op _ hposs hstep ih => exact step_inv _ _ op ih hposs hstep

theorem reachable_of_run :
    ∀ (ops : List Op) (s s1 : State), Reachable s → run s ops = some s1 → Reachable s1 := by
  intro ops
  induction ops with
  | nil =>
    intro s s1 hs hr
    simp only [run, Option.some.injEq] at hr
    subst hr
    exact hs
  | cons op ops ih =>
    intro s s1 hs hr
    simp only [run] at hr
    split at hr
    · rename_i hposs
      split at hr
      · simp at hr
      · rename_i s2 hstep
        exact ih s2 s1 (Reachable.step op hs hposs hstep) hr
    · simp at hr

/-! ## Value lookup: the claims -/

/-- C1 (the code at a failing input): `WithValue(Background(), 1, "a")` returns a value
node, and its `Value(1)` is the key `1`, not the bound value `"a"`; in the chain
root→V1(1,"a")→V2(2,"b")→V3(1,"c"), `V3.Value(1)` is `1`, not `"c"`. -/
theorem C1_valCtx_Value_returns_key :
    WithValue Background (.int 1) (.string "a")
        = some (.valCtx .emptyCtx (.int 1) (.string "a")) ∧
      (Context.valCtx .emptyCtx (.int 1) (.string "a")).Value (.int 1) = some (.int 1) ∧
      (Context.valCtx .emptyCtx (.int 1) (.string "a")).Value (.int 1)
        ≠ some (.string "a") ∧
      precedenceV3.Value (.int 1) = some (.int 1) ∧
      precedenceV3.Value (.int 1) ≠ some (.string "c") := by
  decide

/-- C2 (the code at a failing input): for `p = WithValue(Background(), 1, "a")` and
`V = WithValue(p, 2, "b")`, the lookup `V.Value(1)` goes through the helper `value` and
is `"a"`, while the parent's own method `p.Value(1)` is the key `1`. -/
theorem C2_value_helper_differs_from_method :
    WithValue Background (.int 1) (.string "a")
        = some (.valCtx .emptyCtx (.int 1) (.string "a")) ∧
      WithValue (.valCtx .emptyCtx (.int 1) (.string "a")) (.int 2) (.string "b")
        = some (.valCtx (.valCtx .emptyCtx (.int 1) (.string "a")) (.int 2) (.string "b")) ∧
      (Context.valCtx (.valCtx .emptyCtx (.int 1) (.string "a")) (.int 2)
        (.string "b")).Value (.int 1) = some (.string "a") ∧
      value (.valCtx .emptyCtx (.int 1) (.string "a")) (.int 1) = some (.string "a") ∧
      (Context.valCtx .emptyCtx (.int 1) (.string "a")).Value (.int 1) = some (.int 1) := by
  decide

/-- C3: for a value node `V` whose own key compares unequal to `k`, if the strict
ancestors of `V`, nearest first, are `pre`, then a value node binding a key equal to `k`
to `v2`, then `rest`, and no node of `pre` is a value node with a key equal to `k`
(cancelable and deadline nodes of `pre` are skipped), then `V.Value(k)` returns `v2`. -/
theorem C3_Value_nearest_ancestor (p : Context) (key val k : any)
    (pre rest : List Context) (q : Context) (k2 v2 : any)
    (hown : any.eq key k = some false)
    (hanc : ancestors (.valCtx p key val) = pre ++ Context.valCtx q k2 v2 :: rest)
    (hk : any.eq k2 k = some true)
    (hpre : ∀ x ∈ pre, binds x k = false) :
    (Context.valCtx p key val).Value k = some v2 := by
  simp only [Context.Value, hown]
  exact value_nearest k q k2 v2 rest hk p pre (by simpa [ancestors, chain] using hanc) hpre

/-- C3 at the demo of `src/main.go`: `ctx3.Value(2)` on root→(1,1)→(2,2)→(3,3) is `2`. -/
theorem C3_Value_nearest_ancestor_witness :
    any.eq (.int 3) (.int 2) = some false ∧
      ancestors main_ctx3 = [] ++ main_ctx2 :: [main_ctx1, Background] ∧
      main_ctx3.Value (.int 2) = some (.int 2) :=
  ⟨by decide, by decide,
    C3_Value_nearest_ancestor main_ctx2 (.int 3) (.int 3) (.int 2) [] [main_ctx1, Background]
      main_ctx1 (.int 2) (.int 2) (by decide) (by decide) (by decide) (by simp)⟩

theorem cancel_fresh (h : List cancelCtx) (c : Nat) (n : cancelCtx) (e : Option error)
    (fuel : Nat) (hn : h[c]? = some n) (ho : n.once = false) (hd : n.done = false)
    (hch : n.children = []) : cancel (fuel + 1) h c e = some (h.set c (fire n e)) := by
  have hc : c < h.length := (List.getElem?_eq_some.1 hn).1
  unfold cancel
  simp only [hn, ho, hd, hch, List.foldlM_nil, Option.pure_def, Bool.false_eq_true, if_false]
  simp [List.getElem?_set, hc, fire, ho, hch]

theorem once_of_err (h : List cancelCtx) (hok : HeapOK h) (c : Nat) (e1 : error)
    (hc : errAt h c = some (some e1)) : ∃ n, h[c]? = some n ∧ n.once = true := by
  unfold errAt at hc
  cases hn : h[c]? with
  | none => simp [hn] at hc
  | some n =>
    simp only [hn, Option.map_some', Option.some.injEq] at hc
    have hcell := hok c n hn
    exact ⟨n, rfl, by rw [hcell.1]; exact hcell.2.1.2 (by simp [hc])⟩

/-- C6: in every reachable state, for a node whose `Err()` already is a cause `e1`, a
further `cancel(e2)` with any cause (and any fuel, as in the loop of a parent), the
node's `CancelFunc`, its timer callback and a monitoring goroutine forwarding to it all
leave the heap, hence `Err()` of every node, unchanged. -/
theorem C6_cancel_idempotent (s : State) (hs : Reachable s) (c : Nat) (e1 : error)
    (e2 : Option error) (hc : errAt s.heap c = some (some e1)) :
    (∀ fuel, cancel (fuel + 1) s.heap c e2 = some s.heap) ∧
      cancelCtx.cancel s.heap c e2 = some s.heap ∧
      CancelFunc s c = some s ∧
      (∀ (i : Nat) (d : Int), s.timers[i]? = some (c, d) → d ≤ s.now →
        (timerFire s i).map (fun s1 => s1.heap) = some s.heap) ∧
      (∀ (i : Nat) (parent : Context) (s1 : State), s.goroutines[i]? = some (parent, c) →
        monitorParent s i = some s1 → s1.heap = s.heap) := by
  obtain ⟨n, hn, ho⟩ := once_of_err s.heap (reachable_inv hs).1 c e1 hc
  have hcan : ∀ (e : Option error) (fuel : Nat), cancel (fuel + 1) s.heap c e = some s.heap := by
    intro e fuel
    unfold cancel
    simp [hn, ho]
  refine ⟨hcan e2, hcan e2 _, ?_, ?_, ?_⟩
  · simp [CancelFunc, cancelCtx.cancel, hcan]
  · intro i d hi hd
    simp [timerFire, hi, hd, cancelCtx.cancel, hcan]
  · intro i parent s1 hi hm
    simp only [monitorParent, hi, cancelCtx.cancel, hcan] at hm
    split at hm
    · simp at hm
    · split at hm
      · split at hm
        · simp at hm
        · simp only [Option.some.injEq] at hm
          subst hm
          rfl
      · simp at hm

/-- C6 at the state after `A, cancelA := WithCancel(Background())` and `cancelA()`:
a second cancellation of `A` with `ErrDeadline` changes nothing. -/
theorem C6_cancel_idempotent_witness :
    run (State.init 0) [.WithCancel .emptyCtx, .CancelFunc 0] = some cancelledA ∧
      errAt cancelledA.heap 0 = some (some .ErrCancel) ∧
      cancelCtx.cancel cancelledA.heap 0 (some .ErrDeadline) = some cancelledA.heap ∧
      CancelFunc cancelledA 0 = some cancelledA :=
  ⟨by decide, by decide,
    (C6_cancel_idempotent cancelledA
      (reachable_of_run _ _ _ (Reachable.init 0) (by decide : run (State.init 0)
        [.WithCancel .emptyCtx, .CancelFunc 0] = some cancelledA))
      0 .ErrCancel (some .ErrDeadline) (by decide)).2.1,
    (C6_cancel_idempotent cancelledA
      (reachable_of_run _ _ _ (Reachable.init 0) (by decide : run (State.init 0)
        [.WithCancel .emptyCtx, .CancelFunc 0] = some cancelledA))
      0 .ErrCancel (some .ErrDeadline) (by decide)).2.2.1⟩

/-- C9 (the code at the failing input): with a nil parent `WithCancel` and `WithValue`
panic, but `WithDeadline` and `WithTimeout` return a deadline node whose parent is nil;
the monitoring goroutine started for such a node panics when it runs. -/
theorem C9_WithDeadline_nil_parent_returns (s : State) (d t : Int) (k v : any) :
    WithCancel s .nil = none ∧ WithValue .nil k v = none ∧
      (∃ s1, WithDeadline s .nil d
        = some ((.timerCtx s.heap.length .nil d, s.heap.length), s1)) ∧
      (∃ s1, WithTimeout s .nil t
        = some ((.timerCtx s.heap.length .nil (s.now + t), s.heap.length), s1)) ∧
      (∀ (s1 : State) (i c : Nat), s1.goroutines[i]? = some (.nil, c) →
        monitorParent s1 i = none ∧ monitorChild s1 i = none) := by
  have hwd : ∀ (d : Int), ∃ s1, WithDeadline s .nil d
      = some ((.timerCtx s.heap.length .nil d, s.heap.length), s1) := by
    intro d
    have hcell : (s.heap ++ [cancelCtx.new .nil (some d)])[s.heap.length]?
        = some (cancelCtx.new .nil (some d)) := by simp
    have hcan := cancel_fresh _ s.heap.length _ (some .ErrDeadline)
      (s.heap ++ [cancelCtx.new .nil (some d)]).length hcell rfl rfl rfl
    unfold WithDeadline
    simp only [propagateCancel, cancelCtx.cancel, hcan]
    by_cases hd : d < s.now
    · simp [hd]
    · simp [hd]
  refine ⟨by simp [WithCancel], by simp [WithValue], hwd d, hwd _, ?_⟩
  intro s1 i c hi
  simp [monitorParent, monitorChild, hi, Context.Done]

theorem chain_onceAt (h h1 : List cancelCtx)
    (hcl : ∀ i, ¬ onceAt h i → onceAt h1 i → ∀ x ∈ kids h i, onceAt h1 x) :
    ∀ (path : List Nat) (c : Nat), List.Chain (fun a b => b ∈ kids h a) c path →
      (∀ a ∈ c :: path, ¬ onceAt h a) → onceAt h1 c → ∀ a ∈ c :: path, onceAt h1 a := by
  intro path
  induction path with
  | nil =>
    intro c _ _ hc a ha
    simp only [List.mem_singleton] at ha
    subst ha
    exact hc
  | cons b path ih =>
    intro c hch hno hc a ha
    rcases List.mem_cons.1 ha with rfl | ha
    · exact hc
    · have hcb := List.chain_cons.1 hch
      exact ih b hcb.2 (fun x hx => hno x (List.mem_cons_of_mem _ hx))
        (hcl c (hno c (List.mem_cons_self _ _)) hc b hcb.1) a ha

theorem live_not_once (h : List cancelCtx) (hok : HeapOK h) (a : Nat)
    (ha : errAt h a = some none) :
    ∃ n, h[a]? = some n ∧ n.once = false ∧ n.done = false := by
  unfold errAt at ha
  cases hn : h[a]? with
  | none => simp [hn] at ha
  | some n =>
    simp only [hn, Option.map_some', Option.some.injEq] at ha
    have hcell := hok a n hn
    have hd : n.done = false := by
      cases hdn : n.done with
      | false => rfl
      | true => exact absurd ha (hcell.2.1.1 hdn)
    exact ⟨n, rfl, by rw [hcell.1]; exact hd, hd⟩

/-- On a consistent, ordered heap, `cancel(cause)` on a node returns and records `cause`
on every node of a path through the maps `children` that starts at the node and whose
nodes are all not yet cancelled. -/
theorem cancel_records_on_path (h : List cancelCtx) (hok : HeapOK h) (hord : Ordered h)
    (cause : Option error) (c : Nat) (path : List Nat)
    (hch : List.Chain (fun a b => b ∈ kids h a) c path)
    (hlive : ∀ a ∈ c :: path, errAt h a = some none) :
    ∃ h1, cancelCtx.cancel h c cause = some h1 ∧
      ∀ a ∈ c :: path, doneAt h1 a = some true ∧ errAt h1 a = some cause := by
  obtain ⟨nc, hnc, _, _⟩ := live_not_once h hok c (hlive c (List.mem_cons_self _ _))
  obtain ⟨h1, hcan⟩ := cancelCtx_cancel_succeeds h c cause hok hord
    (List.getElem?_eq_some.1 hnc).1
  have ht := cancel_touched cause _ h c h1 hcan
  have hcl := cancel_closed cause _ h c h1 hcan
  have hno : ∀ a ∈ c :: path, ¬ onceAt h a := by
    intro a ha
    obtain ⟨n, hn, ho, _⟩ := live_not_once h hok a (hlive a ha)
    rintro ⟨m, hm, hmo⟩
    rw [hn] at hm
    simp only [Option.some.injEq] at hm
    subst hm
    simp [ho] at hmo
  have hall := chain_onceAt h h1 hcl.2 path c hch hno hcl.1
  refine ⟨h1, hcan, fun a ha => ?_⟩
  obtain ⟨n, hn, ho, _⟩ := live_not_once h hok a (hlive a ha)
  obtain ⟨m, hm, hmo⟩ := hall a ha
  rcases ht.2 a n hn with hx | ⟨_, _, hx⟩
  · rw [hx] at hm
    simp only [Option.some.injEq] at hm
    subst hm
    simp [ho] at hmo
  · simp [doneAt, errAt, hx, fire]

theorem kids_of_builtOn (h : List cancelCtx) (hreg : Registered h) (a b : Nat)
    (hb : builtOn h a b = true) : b ∈ kids h a := by
  unfold builtOn at hb
  cases hn : h[b]? with
  | none => simp [hn] at hb
  | some n =>
    simp only [hn] at hb
    split at hb
    · rename_i p q hpar _
      simp only [decide_eq_true_eq] at hb
      subst hb
      exact hreg b n p q hn hpar
    · simp at hb

/-- C5 (as stated, refuted): in the program `lateOps`, `B` is a child of `A` and `C` a
child of `B`, and `C` is not cancelled; then `cancel(ErrDeadline)` on `A` (called by the
goroutine monitoring `T` for `A`) records `ErrDeadline` on `A` but leaves `C`, which is
reachable from `A` through the maps `children`, with a nil `Err()` and an open `done`.
And on the chain root→A→B→C, none cancelled, in the schedule `racedChainTail` of
`cancelA()` every call returns and `B` and `C` are left with a nil `Err()`. -/
theorem C5_cancel_skips_late_child :
    (run (State.init 0) lateOps).map (fun s => (kids s.heap 1, kids s.heap 2))
        = some ([2], [3]) ∧
      (run (State.init 0) lateOps).map (fun s => s.heap.map (fun n => n.err))
        = some [some .ErrDeadline, none, some .ErrCancel, none] ∧
      (run (State.init 0) lateOps).map (fun s => s.goroutines[1]?)
        = some (some (.timerCtx 0 .emptyCtx 10, 1)) ∧
      ((run (State.init 0) lateOps).bind
          (fun s => cancelCtx.cancel s.heap 1 (some .ErrDeadline))).map
          (fun h => h.map (fun n => (n.done, n.err)))
        = some [(true, some .ErrDeadline), (true, some .ErrDeadline),
            (true, some .ErrCancel), (false, none)] ∧
      ((run (State.init 0) lateOps).bind (fun s => monitorParent s 1)).map
          (fun s => s.heap.map (fun n => (n.done, n.err)))
        = some [(true, some .ErrDeadline), (true, some .ErrDeadline),
            (true, some .ErrCancel), (false, none)] ∧
      cstep chainConc (.op (.CancelFunc 0)) = some (spawn chainConc 0 (some .ErrCancel)) ∧
      crun (spawn chainConc 0 (some .ErrCancel)) racedChainTail = some racedChainEnd ∧
      atRest racedChainEnd = true ∧
      racedChainEnd.st.heap.map (fun n => (n.done, n.err))
        = [(true, some .ErrCancel), (true, none), (true, none)] :=
  ⟨by decide, by decide, by decide, by decide, by decide, by decide, by decide, by decide,
    by decide⟩

theorem reach_parent (h : List cancelCtx) (hkb : KidsBuilt h) {n m : Nat}
    (hr : reach h n m) (hne : m ≠ n) :
    ∃ (b : Nat) (q : Context) (cm : cancelCtx),
      h[m]? = some cm ∧ cm.parent = .cancelCtx b q ∧ reach h n b := by
  rcases Relation.ReflTransGen.cases_tail hr with heq | ⟨b, hnb, hbm⟩
  · exact absurd heq hne
  · obtain ⟨cm, q, hcm, hpar⟩ := hkb b m hbm
    exact ⟨b, q, cm, hcm, hpar, hnb⟩

/-- C10: in every reachable state, `cancel(cause)` on a cancelable node `n` returns, and
it leaves exactly as it was every struct that is not reachable from `n` through the maps
`children`, every struct on the parent chain of `n` (its parent and all its ancestors),
and every other struct with the same parent as `n` (its siblings). -/
theorem C10_cancel_frame (s : State) (hs : Reachable s) (n : Nat) (cause : Option error)
    (hn : n < s.heap.length) :
    ∃ h1, cancelCtx.cancel s.heap n cause = some h1 ∧
      (∀ m, ¬ reach s.heap n m → h1[m]? = s.heap[m]?) ∧
      (∀ cell, s.heap[n]? = some cell → ∀ a ∈ ptrs cell.parent, h1[a]? = s.heap[a]?) ∧
      (∀ (m : Nat) (cell cm : cancelCtx), s.heap[n]? = some cell → s.heap[m]? = some cm →
        m ≠ n → cm.parent = cell.parent → h1[m]? = s.heap[m]?) := by
  obtain ⟨hok, hord, _, hpb, hkb⟩ := reachable_inv hs
  obtain ⟨h1, hcan⟩ := cancelCtx_cancel_succeeds s.heap n cause hok hord hn
  have hframe := fun m => cancel_frame cause m _ s.heap n h1 hcan
  refine ⟨h1, hcan, hframe, fun cell hcell a ha => ?_, fun m cell cm hcell hcm hne hpar => ?_⟩
  · apply hframe
    intro hr
    have h1 := reach_le hord hr
    have h2 := hpb n cell hcell a ha
    omega
  · apply hframe
    intro hr
    obtain ⟨b, q, cm1, hcm1, hp1, hnb⟩ := reach_parent s.heap hkb hr hne
    rw [hcm] at hcm1
    simp only [Option.some.injEq] at hcm1
    subst hcm1
    have hb : b ∈ ptrs cell.parent := by rw [← hpar, hp1]; simp [ptrs]
    have h1 := reach_le hord hnb
    have h2 := hpb n cell hcell b hb
    omega

/-- C10 at the tree root→A→{B, C}: cancelling `B` leaves its parent `A` and its sibling
`C` exactly as they were. -/
theorem C10_cancel_frame_witness :
    run (State.init 0) [.WithCancel .emptyCtx, .WithCancel (.cancelCtx 0 .emptyCtx),
        .WithCancel (.cancelCtx 0 .emptyCtx)] = some siblingsBC ∧
      ∃ h1, cancelCtx.cancel siblingsBC.heap 1 (some .ErrCancel) = some h1 ∧
        (∀ m, ¬ reach siblingsBC.heap 1 m → h1[m]? = siblingsBC.heap[m]?) ∧
        (∀ cell, siblingsBC.heap[1]? = some cell →
          ∀ a ∈ ptrs cell.parent, h1[a]? = siblingsBC.heap[a]?) ∧
        (∀ (m : Nat) (cell cm : cancelCtx), siblingsBC.heap[1]? = some cell →
          siblingsBC.heap[m]? = some cm → m ≠ 1 → cm.parent = cell.parent →
          h1[m]? = siblingsBC.heap[m]?) :=
  ⟨by decide,
    C10_cancel_frame siblingsBC
      (reachable_of_run _ _ _ (Reachable.init 0) (by decide : run (State.init 0)
        [.WithCancel .emptyCtx, .WithCancel (.cancelCtx 0 .emptyCtx),
          .WithCancel (.cancelCtx 0 .emptyCtx)] = some siblingsBC))
      1 (some .ErrCancel) (by decide)⟩

/-! ## Isolation of values and cancellation: the claims -/

theorem Touched.parent_eq {e : Option error} {h h1 : List cancelCtx} (ht : Touched e h h1)
    (i : Nat) : (h1[i]?).map (fun (n : cancelCtx) => n.parent)
      = (h[i]?).map (fun (n : cancelCtx) => n.parent) := by
  cases hn : h[i]? with
  | none =>
    have : h1[i]? = none := by
      rw [List.getElem?_eq_none_iff] at hn ⊢
      rw [ht.1]
      exact hn
    rw [this]
  | some n =>
    rcases ht.2 i n hn with hx | ⟨_, _, hx⟩
    · rw [hx]
    · rw [hx]; rfl

theorem valueH_congr (h h1 : List cancelCtx)
    (hpar : ∀ (i : Nat), (h1[i]?).map (fun (n : cancelCtx) => n.parent)
      = (h[i]?).map (fun (n : cancelCtx) => n.parent))
    (k : any) : ∀ (fuel : Nat) (m : Context), valueH h1 fuel m k = valueH h fuel m k := by
  intro fuel
  induction fuel with
  | zero => intro m; rfl
  | succ fuel ih =>
    intro m
    have hcell : ∀ (ptr : Nat),
        (match h1[ptr]? with
          | none => none
          | some n => valueH h1 fuel n.parent k) =
        (match h[ptr]? with
          | none => none
          | some n => valueH h fuel n.parent k) := by
      intro ptr
      have hp := hpar ptr
      cases hn : h[ptr]? with
      | none =>
        cases hn1 : h1[ptr]? with
        | none => rfl
        | some n1 => rw [hn, hn1] at hp; simp at hp
      | some n =>
        cases hn1 : h1[ptr]? with
        | none => rw [hn, hn1] at hp; simp at hp
        | some n1 =>
          rw [hn, hn1] at hp
          simp only [Option.map_some', Option.some.injEq] at hp
          simp only [hp, ih]
    cases m with
    | nil => rfl
    | emptyCtx => rfl
    | cancelCtx ptr p => simp only [valueH]; exact hcell ptr
    | timerCtx ptr p d => simp only [valueH]; exact hcell ptr
    | valCtx p key v => simp only [valueH, ih]

theorem ValueH_congr (h h1 : List cancelCtx)
    (hpar : ∀ (i : Nat), (h1[i]?).map (fun (n : cancelCtx) => n.parent)
      = (h[i]?).map (fun (n : cancelCtx) => n.parent))
    (k : any) : ∀ (fuel : Nat) (m : Context), ValueH h1 fuel m k = ValueH h fuel m k := by
  intro fuel
  induction fuel with
  | zero => intro m; rfl
  | succ fuel ih =>
    intro m
    have hcell : ∀ (ptr : Nat),
        (match h1[ptr]? with
          | none => none
          | some n => ValueH h1 fuel n.parent k) =
        (match h[ptr]? with
          | none => none
          | some n => ValueH h fuel n.parent k) := by
      intro ptr
      have hp := hpar ptr
      cases hn : h[ptr]? with
      | none =>
        cases hn1 : h1[ptr]? with
        | none => rfl
        | some n1 => rw [hn, hn1] at hp; simp at hp
      | some n =>
        cases hn1 : h1[ptr]? with
        | none => rw [hn, hn1] at hp; simp at hp
        | some n1 =>
          rw [hn, hn1] at hp
          simp only [Option.map_some', Option.some.injEq] at hp
          simp only [hp, ih]
    cases m with
    | nil => rfl
    | emptyCtx => rfl
    | cancelCtx ptr p => simp only [ValueH]; exact hcell ptr
    | timerCtx ptr p d => simp only [ValueH]; exact hcell ptr
    | valCtx p key v => simp only [ValueH, valueH_congr h h1 hpar k fuel]

theorem valueH_of_issued (h : List cancelCtx) (k : any) :
    ∀ (m : Context), (m = .nil ∨ issued h m = true) → ∀ (fuel : Nat), depth m ≤ fuel →
      valueH h fuel m k = value m k := by
  intro m
  induction m with
  | nil => intro _ fuel _; cases fuel <;> rfl
  | emptyCtx =>
    intro _ fuel hf
    cases fuel with
    | zero => simp [depth] at hf
    | succ fuel => rfl
  | cancelCtx ptr p ih =>
    intro hi fuel hf
    rcases hi with hi | hi
    · cases hi
    · cases fuel with
      | zero => simp [depth] at hf
      | succ fuel =>
        simp only [issued, Bool.and_eq_true] at hi
        cases hn : h[ptr]? with
        | none => simp [hn] at hi
        | some n =>
          simp only [hn, decide_eq_true_eq] at hi
          simp only [valueH, value, hn, hi.1.1]
          exact ih (Or.inr hi.2) fuel (by simp only [depth] at hf; omega)
  | timerCtx ptr p d ih =>
    intro hi fuel hf
    rcases hi with hi | hi
    · cases hi
    · cases fuel with
      | zero => simp [depth] at hf
      | succ fuel =>
        simp only [issued, Bool.and_eq_true, Bool.or_eq_true, decide_eq_true_eq] at hi
        cases hn : h[ptr]? with
        | none => simp [hn] at hi
        | some n =>
          simp only [hn, decide_eq_true_eq] at hi
          simp only [valueH, value, hn, hi.1.1]
          exact ih hi.2 fuel (by simp only [depth] at hf; omega)
  | valCtx p key v ih =>
    intro hi fuel hf
    rcases hi with hi | hi
    · cases hi
    · cases fuel with
      | zero => simp [depth] at hf
      | succ fuel =>
        simp only [issued] at hi
        simp only [valueH, value]
        rw [ih (Or.inr hi) fuel (by simp only [depth] at hf; omega)]

theorem ValueH_of_issued (h : List cancelCtx) (k : any) :
    ∀ (m : Context), (m = .nil ∨ issued h m = true) → ∀ (fuel : Nat), depth m ≤ fuel →
      ValueH h fuel m k = m.Value k := by
  intro m
  induction m with
  | nil => intro _ fuel _; cases fuel <;> rfl
  | emptyCtx =>
    intro _ fuel hf
    cases fuel with
    | zero => simp [depth] at hf
    | succ fuel => rfl
  | cancelCtx ptr p ih =>
    intro hi fuel hf
    rcases hi with hi | hi
    · cases hi
    · cases fuel with
      | zero => simp [depth] at hf
      | succ fuel =>
        simp only [issued, Bool.and_eq_true] at hi
        cases hn : h[ptr]? with
        | none => simp [hn] at hi
        | some n =>
          simp only [hn, decide_eq_true_eq] at hi
          simp only [ValueH, Context.Value, hn, hi.1.1]
          exact ih (Or.inr hi.2) fuel (by simp only [depth] at hf; omega)
  | timerCtx ptr p d ih =>
    intro hi fuel hf
    rcases hi with hi | hi
    · cases hi
    · cases fuel with
      | zero => simp [depth] at hf
      | succ fuel =>
        simp only [issued, Bool.and_eq_true, Bool.or_eq_true, decide_eq_true_eq] at hi
        cases hn : h[ptr]? with
        | none => simp [hn] at hi
        | some n =>
          simp only [hn, decide_eq_true_eq] at hi
          simp only [ValueH, Context.Value, hn, hi.1.1]
          exact ih hi.2 fuel (by simp only [depth] at hf; omega)
  | valCtx p key v _ =>
    intro hi fuel hf
    rcases hi with hi | hi
    · cases hi
    · cases fuel with
      | zero => simp [depth] at hf
      | succ fuel =>
        simp only [issued] at hi
        simp only [ValueH, Context.Value]
        rw [valueH_of_issued h k p (Or.inr hi) fuel (by simp only [depth] at hf; omega)]

theorem issued_congr (h h1 : List cancelCtx)
    (hpd : ∀ (i : Nat), (h1[i]?).map (fun (n : cancelCtx) => (n.parent, n.deadline))
      = (h[i]?).map (fun (n : cancelCtx) => (n.parent, n.deadline))) :
    ∀ (m : Context), issued h1 m = issued h m := by
  have hcell : ∀ (ptr : Nat) (p : Context) (d : Option Int),
      (match h1[ptr]? with
        | some n => decide (n.parent = p ∧ n.deadline = d)
        | none => false) =
      (match h[ptr]? with
        | some n => decide (n.parent = p ∧ n.deadline = d)
        | none => false) := by
    intro ptr p d
    have hp := hpd ptr
    cases hn : h[ptr]? with
    | none =>
      cases hn1 : h1[ptr]? with
      | none => rfl
      | some n1 => rw [hn, hn1] at hp; simp at hp
    | some n =>
      cases hn1 : h1[ptr]? with
      | none => rw [hn, hn1] at hp; simp at hp
      | some n1 =>
        rw [hn, hn1] at hp
        simp only [Option.map_some', Option.some.injEq, Prod.mk.injEq] at hp
        simp only [hp.1, hp.2]
  intro m
  induction m with
  | nil => rfl
  | emptyCtx => rfl
  | cancelCtx ptr p ih => simp only [issued, ih, hcell ptr p none]
  | timerCtx ptr p d ih => simp only [issued, ih, hcell ptr p (some d)]
  | valCtx p k v ih => simp only [issued, ih]

theorem Touched.parent_deadline_eq {e : Option error} {h h1 : List cancelCtx}
    (ht : Touched e h h1) (i : Nat) :
    (h1[i]?).map (fun (n : cancelCtx) => (n.parent, n.deadline))
      = (h[i]?).map (fun (n : cancelCtx) => (n.parent, n.deadline)) := by
  cases hn : h[i]? with
  | none =>
    have : h1[i]? = none := by
      rw [List.getElem?_eq_none_iff] at hn ⊢
      rw [ht.1]
      exact hn
    rw [this]
  | some n =>
    rcases ht.2 i n hn with hx | ⟨_, _, hx⟩
    · rw [hx]
    · rw [hx]; rfl

/-- C11: a call of `cancel` on any node with any cause that turns the heap `h` into `h1`
leaves the result of `m.Value(k)`, computed by walking the structs of the heap, the same
for every context `m`, every key `k` and every bound on the walk; a context returned by
a constructor is still one afterwards, and its lookup is `m.Value(k)` before and after. -/
theorem C11_Value_unchanged_by_cancel (h h1 : List cancelCtx) (c : Nat)
    (cause : Option error) (fuel : Nat) (hc : cancel fuel h c cause = some h1)
    (m : Context) (k : any) :
    (∀ n, ValueH h1 n m k = ValueH h n m k) ∧
      (issued h m = true →
        issued h1 m = true ∧ ValueH h (depth m) m k = m.Value k ∧
          ValueH h1 (depth m) m k = m.Value k) := by
  have ht := cancel_touched cause fuel h c h1 hc
  have hV := fun n => ValueH_congr h h1 ht.parent_eq k n m
  refine ⟨hV, fun hi => ⟨?_, ?_, ?_⟩⟩
  · rw [issued_congr h h1 ht.parent_deadline_eq]
    exact hi
  · exact ValueH_of_issued h k m (Or.inr hi) _ (Nat.le_refl _)
  · rw [hV]
    exact ValueH_of_issued h k m (Or.inr hi) _ (Nat.le_refl _)

/-- C11 at root→A(cancelable)→B(value: "uid"→42): the lookup `B.Value("uid")` is the same
before and after `A.cancel(ErrCancel)`. -/
theorem C11_Value_unchanged_by_cancel_witness :
    cancel 2 onlyA.heap 0 (some .ErrCancel) = some cancelledA.heap ∧
      issued onlyA.heap scenarioB = true ∧
      (∀ n, ValueH cancelledA.heap n scenarioB (.string "uid")
        = ValueH onlyA.heap n scenarioB (.string "uid")) ∧
      (issued onlyA.heap scenarioB = true →
        issued cancelledA.heap scenarioB = true ∧
          ValueH onlyA.heap (depth scenarioB) scenarioB (.string "uid")
            = scenarioB.Value (.string "uid") ∧
          ValueH cancelledA.heap (depth scenarioB) scenarioB (.string "uid")
            = scenarioB.Value (.string "uid")) :=
  ⟨by decide, by decide,
    (C11_Value_unchanged_by_cancel onlyA.heap cancelledA.heap 0 (some .ErrCancel) 2
      (by decide) scenarioB (.string "uid")).1,
    (C11_Value_unchanged_by_cancel onlyA.heap cancelledA.heap 0 (some .ErrCancel) 2
      (by decide) scenarioB (.string "uid")).2⟩

/-- C12: for every non-nil parent `p`, `WithValue(p, k, v)` returns a node `V` whose
`Err()`, `Done()` and `Deadline()` are those of `p` in every heap; the construction
leaves the state as it is; and when `p` is a cancelable node not yet cancelled, after its
`CancelFunc` is called `V.Err()` is `ErrCancel`. -/
theorem C12_valCtx_transparent (p : Context) (k v : any) (hp : p ≠ .nil) :
    ∃ V, WithValue p k v = some V ∧
      (∀ (h : List cancelCtx), V.Err h = p.Err h) ∧ V.Done = p.Done ∧
      V.Deadline = p.Deadline ∧
      (∀ (s : State), step s (.WithValue p k v) = some s) ∧
      (∀ (s : State), Reachable s → ∀ (a : Nat) (q : Context), p = .cancelCtx a q →
        errAt s.heap a = some none →
        ∃ s1, CancelFunc s a = some s1 ∧ V.Err s1.heap = some (some .ErrCancel)) := by
  refine ⟨.valCtx p k v, by simp [WithValue, hp], fun h => rfl, rfl, rfl,
    fun s => by simp [step, WithValue, hp], ?_⟩
  intro s hs a q hpa hlive
  subst hpa
  have hinv := reachable_inv hs
  obtain ⟨h1, hcan, hall⟩ := cancel_records_on_path s.heap hinv.1 hinv.2.1
    (some .ErrCancel) a [] List.Chain.nil
    (fun x hx => by simp only [List.mem_singleton] at hx; subst hx; exact hlive)
  refine ⟨{ s with heap := h1 }, by simp [CancelFunc, hcan], ?_⟩
  have := (hall a (List.mem_cons_self _ _)).2
  simpa [Context.Err, errAt] using this

/-- C12 at root→A(cancelable)→B(value: "uid"→42): `B` has the `Err()`, `Done()` and
`Deadline()` of `A`, and after `cancelA()` its `Err()` is `ErrCancel`. -/
theorem C12_valCtx_transparent_witness :
    Context.cancelCtx 0 .emptyCtx ≠ .nil ∧
      run (State.init 0) [.WithCancel .emptyCtx] = some onlyA ∧
      errAt onlyA.heap 0 = some none ∧
      ∃ V, WithValue (.cancelCtx 0 .emptyCtx) (.string "uid") (.int 42) = some V ∧
        (∀ (h : List cancelCtx), V.Err h = (Context.cancelCtx 0 .emptyCtx).Err h) ∧
        V.Done = (Context.cancelCtx 0 .emptyCtx).Done ∧
        V.Deadline = (Context.cancelCtx 0 .emptyCtx).Deadline ∧
        (∀ (s : State), step s (.WithValue (.cancelCtx 0 .emptyCtx) (.string "uid") (.int 42))
          = some s) ∧
        (∀ (s : State), Reachable s → ∀ (a : Nat) (q : Context),
          Context.cancelCtx 0 .emptyCtx = .cancelCtx a q → errAt s.heap a = some none →
          ∃ s1, CancelFunc s a = some s1 ∧ V.Err s1.heap = some (some .ErrCancel)) :=
  ⟨by decide, by decide, by decide,
    C12_valCtx_transparent (.cancelCtx 0 .emptyCtx) (.string "uid") (.int 42) (by decide)⟩

/-- C13: the contexts returned by `Background()` and `TODO()` have, in every heap (hence
in every reachable state), a nil `Err()`, a `Deadline()` with `ok = false`, the nil
channel as `Done()`, which is never ready, and `Value(k)` nil for every key; a goroutine
monitoring a root never takes the branch of the parent. -/
theorem C13_root_stable (s : State) (k : any) :
    (Background.Err s.heap = some none ∧ Background.Deadline = some (0, false) ∧
      Background.Done = some .nil ∧ Background.Value k = some .nil) ∧
    (TODO.Err s.heap = some none ∧ TODO.Deadline = some (0, false) ∧
      TODO.Done = some .nil ∧ TODO.Value k = some .nil) ∧
    fired s.heap .nil = false ∧
    (∀ (i c : Nat), s.goroutines[i]? = some (Background, c) → monitorParent s i = none) :=
  ⟨⟨rfl, rfl, rfl, rfl⟩, ⟨rfl, rfl, rfl, rfl⟩, rfl, fun i c hi => by
    simp [monitorParent, hi, Background, Context.Done, fired]⟩

/-! ## Registration, timers and the monitoring goroutine: the claims -/

theorem propagateCancel_cancelCtx (s : State) (p : Nat) (q : Context) (dl : Option Int)
    (n : cancelCtx) (hn : s.heap[p]? = some n) (hnot : s.heap.length ∉ n.children) :
    propagateCancel { s with heap := s.heap ++ [cancelCtx.new (.cancelCtx p q) dl] }
        (.cancelCtx p q) s.heap.length
      = some ⟨(s.heap ++ [cancelCtx.new (.cancelCtx p q) dl]).set p
          { n with children := n.children ++ [s.heap.length] },
        s.goroutines ++ [(.cancelCtx p q, s.heap.length)], s.timers, s.now⟩ := by
  have hp : p < s.heap.length := (List.getElem?_eq_some.1 hn).1
  simp [propagateCancel, addChild, List.getElem?_append_left hp, hn, hnot]

/-- C14 (as stated, refuted): after `A, cancelA := WithCancel(Background())` and
`cancelA()`, the call `WithCancel(A)` returns a child that is a key of `A.children` and
is not cancelled: its `done` is open and its `Err()` is nil. -/
theorem C14_late_child_not_cancelled_at_registration :
    run (State.init 0) [.WithCancel .emptyCtx, .CancelFunc 0] = some cancelledA ∧
      errAt cancelledA.heap 0 = some (some .ErrCancel) ∧
      (WithCancel cancelledA (.cancelCtx 0 .emptyCtx)).map (fun r => r.1)
        = some (.cancelCtx 1 (.cancelCtx 0 .emptyCtx), 1) ∧
      (WithCancel cancelledA (.cancelCtx 0 .emptyCtx)).map (fun r => kids r.2.heap 0)
        = some [1] ∧
      (WithCancel cancelledA (.cancelCtx 0 .emptyCtx)).map
          (fun r => (doneAt r.2.heap 1, errAt r.2.heap 1))
        = some (some false, some none) :=
  ⟨by decide, by decide, by decide, by decide, by decide⟩

/-- C15 (the code at the failing input): `propagateCancel` on a `*timerCtx` parent leaves
the heap as it is and only starts the goroutine; in the program `deadlineParentOps` the
child `B` built by `WithCancel(T)` on the deadline node `T` is not a key of `T.children`,
and after the timer of `T` has fired and `T.cancel(ErrDeadline)` has returned, `T` is
cancelled and `B` is not. -/
theorem C15_deadline_parent_not_registered :
    (∀ (s : State) (ptr child : Nat) (q : Context) (d : Int),
      propagateCancel s (.timerCtx ptr q d) child
        = some { s with goroutines := s.goroutines ++ [(.timerCtx ptr q d, child)] }) ∧
    (run (State.init 0) [.WithDeadline .emptyCtx 10,
        .WithCancel (.timerCtx 0 .emptyCtx 10)]).map (fun s => kids s.heap 0) = some [] ∧
    (run (State.init 0) deadlineParentOps).map (fun s => kids s.heap 0) = some [] ∧
    (run (State.init 0) deadlineParentOps).map
        (fun s => s.heap.map (fun n => (n.done, n.err)))
      = some [(true, some .ErrDeadline), (false, none)] :=
  ⟨fun _ _ _ _ _ => rfl, by decide, by decide, by decide⟩

/-- C16 (as stated, refuted): after `T, cancelT := WithDeadline(Background(), 10)` at time
0 and `cancelT()`, the node is cancelled with `ErrCancel` and its timer is still pending;
and at time 5, `WithDeadline(Background(), 4)` cancels the node at construction and
creates its timer all the same. -/
theorem C16_timer_left_armed :
    (run (State.init 0) stoppedEarlyOps).map (fun s => (errAt s.heap 0, s.timers))
        = some (some (some .ErrCancel), [(0, 10)]) ∧
      (WithDeadline (State.init 5) .emptyCtx 4).map
          (fun r => (errAt r.2.heap 0, r.2.timers))
        = some (some (some .ErrDeadline), [(0, 4)]) :=
  ⟨by decide, by decide⟩

/-- C16 (amended): in every reachable state, no cancellation removes a pending timer (a
`CancelFunc` and a forwarding goroutine leave the timers as they are), and when the
pending timer of a node that is already cancelled comes due and fires, the callback
returns and leaves the heap, hence every `done` and every `Err()`, unchanged. -/
theorem C16_stale_timer_is_harmless (s : State) (hs : Reachable s) (i c : Nat) (d : Int)
    (e : error) (ht : s.timers[i]? = some (c, d)) (he : errAt s.heap c = some (some e))
    (hd : d ≤ s.now) :
    (∃ s1, timerFire s i = some s1 ∧ s1.heap = s.heap ∧
      s1.timers = s.timers.eraseIdx i) ∧
    (∀ (c2 : Nat) (s1 : State), CancelFunc s c2 = some s1 → s1.timers = s.timers) ∧
    (∀ (j : Nat) (s1 : State), monitorParent s j = some s1 → s1.timers = s.timers) := by
  obtain ⟨n, hn, ho⟩ := once_of_err s.heap (reachable_inv hs).1 c e he
  have hcan : cancel (s.heap.length + 1) s.heap c (some .ErrDeadline) = some s.heap := by
    unfold cancel
    simp [hn, ho]
  refine ⟨⟨{ s with timers := s.timers.eraseIdx i }, by
    simp [timerFire, ht, hd, cancelCtx.cancel, hcan], rfl, rfl⟩, ?_, ?_⟩
  · intro c2 s1 hc
    simp only [CancelFunc] at hc
    split at hc
    · simp at hc
    · simp only [Option.some.injEq] at hc
      subst hc
      rfl
  · intro j s1 hm
    simp only [monitorParent] at hm
    split at hm
    · simp at hm
    · split at hm
      · simp at hm
      · split at hm
        · split at hm
          · simp at hm
          · split at hm
            · simp at hm
            · simp only [Option.some.injEq] at hm
              subst hm
              rfl
        · simp at hm

/-- C16 (amended) at `T` cancelled by `cancelT()` before its deadline 10: once the clock
reaches 10 the pending timer fires and changes nothing in the heap. -/
theorem C16_stale_timer_is_harmless_witness :
    (run (State.init 0) (stoppedEarlyOps ++ [.tick 10])).map (fun s => s.timers[0]?)
        = some (some (0, 10)) ∧
      (run (State.init 0) (stoppedEarlyOps ++ [.tick 10])).map (fun s => errAt s.heap 0)
        = some (some (some .ErrCancel)) ∧
      (run (State.init 0) (stoppedEarlyOps ++ [.tick 10])).map
          (fun s => (timerFire s 0).map (fun s1 => (decide (s1.heap = s.heap), s1.timers)))
        = some (some (true, [])) :=
  ⟨by decide, by decide, by
    have hrun : run (State.init 0) (stoppedEarlyOps ++ [.tick 10])
        = some ⟨[⟨.emptyCtx, true, true, [], some .ErrCancel, some 10⟩],
            [(.emptyCtx, 0)], [(0, 10)], 10⟩ := by decide
    obtain ⟨s1, hfire, hheap, htim⟩ :=
      (C16_stale_timer_is_harmless _ (reachable_of_run _ _ _ (Reachable.init 0) hrun) 0 0 10
        .ErrCancel (by decide) (by decide) (by decide)).1
    rw [hrun]
    simp only [Option.map_some', hfire, hheap, htim]
    decide⟩

/-! ## The statements of `cancel`: the claims -/

/-- The call `cancel(err)` is `once.Do` around the statements of `cancelBody`. -/
theorem cancel_eq_cancelBody (fuel : Nat) (h : List cancelCtx) (c : Nat)
    (err : Option error) (n : cancelCtx) (hn : h[c]? = some n) :
    cancel (fuel + 1) h c err = if n.once then some h else cancelBody fuel h c err := by
  have hc : c < h.length := (List.getElem?_eq_some.1 hn).1
  unfold cancel
  simp only [hn]
  by_cases ho : n.once = true
  · simp [ho]
  · rw [if_neg ho, if_neg ho]
    by_cases hd : n.done = true
    · simp [cancelBody, closeDone, hn, hd]
    · rw [if_neg hd]
      simp only [cancelBody, closeDone, hn, hd, storeErr, rangeChildren, markOnce,
        Option.some_bind, List.getElem?_set, hc, List.length_set, if_true, List.set_set,
        Bool.false_eq_true, if_false]
      cases hf : List.foldlM (fun h1 child => cancel fuel h1 child err)
          (h.set c { n with done := true, err := err }) n.children with
      | none => rfl
      | some h2 =>
        simp only [Option.some_bind]

/-- C17 (the code at the failing input): during `cancelA()` on the uncancelled node `A`,
the statement `close(c.done)` yields a state in which `A.done` is closed while `Err()`
of `A` is still nil, and `c.err = err` comes only after it. In the interleaving
`racedCancel` the goroutine monitoring for `B` runs in that state: it reads a nil
`Err()` and calls `B.cancel(nil)`, so at the end `A` has `ErrCancel` while `B` has its
`done` closed and a nil `Err()` for good. -/
theorem C17_done_closed_before_err_stored :
    (doneAt monitoredLive.heap 0, errAt monitoredLive.heap 0) = (some false, some none) ∧
      (closeDone monitoredLive.heap 0).map (fun h => (doneAt h 0, errAt h 0))
        = some (some true, some none) ∧
      ((closeDone monitoredLive.heap 0).bind
          (fun h => storeErr h 0 (some .ErrCancel))).map (fun h => (doneAt h 0, errAt h 0))
        = some (some true, some (some .ErrCancel)) ∧
      cancel 2 monitoredLive.heap 0 (some .ErrCancel)
        = cancelBody 1 monitoredLive.heap 0 (some .ErrCancel) ∧
      racedCancel.map (fun h => h.map (fun n => (n.once, n.done, n.err)))
        = some [(true, true, some .ErrCancel), (true, true, none)] :=
  ⟨by decide, by decide, by decide, by decide, by decide⟩

/-! ## The invariant of a running program -/

theorem sameShape_inv {h h1 : List cancelCtx} (hs : SameShape h h1) {i : Nat}
    {n1 : cancelCtx} (h1n : h1[i]? = some n1) :
    ∃ n, h[i]? = some n ∧ n1.parent = n.parent ∧ n1.children = n.children ∧
      n1.deadline = n.deadline := by
  have hi : i < h.length := by
    have := (List.getElem?_eq_some.1 h1n).1
    rw [hs.1] at this
    exact this
  obtain ⟨m, hm, hp, hc, hd⟩ := hs.2 i h[i] (List.getElem?_eq_getElem hi)
  rw [hm] at h1n
  simp only [Option.some.injEq] at h1n
  subst h1n
  exact ⟨h[i], List.getElem?_eq_getElem hi, hp, hc, hd⟩

theorem sameShape_kids_eq {h h1 : List cancelCtx} (hs : SameShape h h1) (a : Nat) :
    kids h1 a = kids h a := by
  unfold kids
  cases hn : h[a]? with
  | none =>
    have : h1[a]? = none := by
      rw [List.getElem?_eq_none_iff] at hn ⊢
      rw [hs.1]
      exact hn
    rw [this]
  | some n =>
    obtain ⟨n1, hn1, _, hc, _⟩ := hs.2 a n hn
    rw [hn1]
    exact hc

theorem SameShape.structure_kept {h h1 : List cancelCtx} (hs : SameShape h h1)
    (hst : Ordered h ∧ Registered h ∧ ParentsBelow h ∧ KidsBuilt h) :
    Ordered h1 ∧ Registered h1 ∧ ParentsBelow h1 ∧ KidsBuilt h1 := by
  obtain ⟨hord, hreg, hpb, hkb⟩ := hst
  refine ⟨?_, ?_, ?_, ?_⟩
  · intro i n1 h1n x hx
    obtain ⟨n, hn, _, hc, _⟩ := sameShape_inv hs h1n
    rw [hs.1]
    exact hord i n hn x (hc ▸ hx)
  · intro j n1 p q h1n hp
    obtain ⟨n, hn, hpar, _, _⟩ := sameShape_inv hs h1n
    rw [sameShape_kids_eq hs]
    exact hreg j n p q hn (hpar ▸ hp)
  · intro j n1 h1n x hx
    obtain ⟨n, hn, hpar, _, _⟩ := sameShape_inv hs h1n
    exact hpb j n hn x (hpar ▸ hx)
  · intro a x hx
    rw [sameShape_kids_eq hs] at hx
    obtain ⟨cell, q, hcell, hpar⟩ := hkb a x hx
    obtain ⟨n1, hn1, hp1, _, _⟩ := hs.2 x cell hcell
    exact ⟨n1, q, hn1, hp1.trans hpar⟩

theorem sameShape_set (h : List cancelCtx) (c : Nat) (n n1 : cancelCtx)
    (hn : h[c]? = some n) (hp : n1.parent = n.parent) (hc : n1.children = n.children)
    (hd : n1.deadline = n.deadline) : SameShape h (h.set c n1) := by
  refine ⟨by simp, fun i m hm => ?_⟩
  by_cases hci : c = i
  · subst hci
    rw [hn] at hm
    simp only [Option.some.injEq] at hm
    subst hm
    exact ⟨n1, by rw [List.getElem?_set, if_pos rfl,
      if_pos (List.getElem?_eq_some.1 hn).1], hp, hc, hd⟩
  · exact ⟨m, by rw [List.getElem?_set_ne hci]; exact hm, rfl, rfl, rfl⟩

theorem inThreads_set_new {ths : List (List Frame)} {t : Nat} {old new : List Frame}
    (ht : ths[t]? = some old) {g : Frame} (hg : g ∈ new) : inThreads (ths.set t new) g :=
  ⟨new, List.mem_set _ _ (List.getElem?_eq_some.1 ht).1 _, hg⟩

theorem inThreads_of_set {ths : List (List Frame)} {t : Nat} {new : List Frame}
    {g : Frame} (hg : inThreads (ths.set t new) g) : g ∈ new ∨ inThreads ths g := by
  obtain ⟨l, hl, hgl⟩ := hg
  rcases List.mem_or_eq_of_mem_set hl with hl | rfl
  · exact Or.inr ⟨l, hl, hgl⟩
  · exact Or.inl hgl

theorem inThreads_set_keep {ths : List (List Frame)} {t : Nat} {old new : List Frame}
    (ht : ths[t]? = some old) {g : Frame} (hg : inThreads ths g) :
    g ∈ old ∨ inThreads (ths.set t new) g := by
  obtain ⟨l, hl, hgl⟩ := hg
  obtain ⟨j, hj⟩ := List.mem_iff_getElem?.1 hl
  by_cases htj : t = j
  · subst htj
    rw [ht] at hj
    simp only [Option.some.injEq] at hj
    subst hj
    exact Or.inl hgl
  · exact Or.inr ⟨l, List.getElem?_mem (by rw [List.getElem?_set_ne htj]; exact hj), hgl⟩

theorem inThreads_append {ths : List (List Frame)} {f g : Frame} :
    inThreads (ths ++ [[f]]) g ↔ inThreads ths g ∨ g = f := by
  constructor
  · rintro ⟨l, hl, hgl⟩
    rcases List.mem_append.1 hl with hl | hl
    · exact Or.inl ⟨l, hl, hgl⟩
    · simp only [List.mem_singleton] at hl
      subst hl
      simp only [List.mem_singleton] at hgl
      exact Or.inr hgl
  · rintro (⟨l, hl, hgl⟩ | rfl)
    · exact ⟨l, List.mem_append_left _ hl, hgl⟩
    · exact ⟨[g], by simp, by simp⟩

theorem doneAt_set (h : List cancelCtx) (c : Nat) (n n1 : cancelCtx) (hn : h[c]? = some n)
    (i : Nat) : doneAt (h.set c n1) i = if c = i then some n1.done else doneAt h i := by
  unfold doneAt
  by_cases hci : c = i
  · subst hci
    rw [List.getElem?_set, if_pos rfl, if_pos (List.getElem?_eq_some.1 hn).1, if_pos rfl]
    rfl
  · rw [List.getElem?_set_ne hci, if_neg hci]

theorem onceFlag_set (h : List cancelCtx) (c : Nat) (n n1 : cancelCtx)
    (hn : h[c]? = some n) (i : Nat) :
    onceFlag (h.set c n1) i = if c = i then some n1.once else onceFlag h i := by
  unfold onceFlag
  by_cases hci : c = i
  · subst hci
    rw [List.getElem?_set, if_pos rfl, if_pos (List.getElem?_eq_some.1 hn).1, if_pos rfl]
    rfl
  · rw [List.getElem?_set_ne hci, if_neg hci]

theorem cells_set (P : cancelCtx → Prop) (h : List cancelCtx) (c : Nat) (n1 : cancelCtx)
    (hP : ∀ (i : Nat) (n : cancelCtx), h[i]? = some n → P n) (hn1 : P n1) :
    ∀ (i : Nat) (n : cancelCtx), (h.set c n1)[i]? = some n → P n := by
  intro i n hn
  by_cases hci : c = i
  · subst hci
    rw [List.getElem?_set, if_pos rfl] at hn
    split at hn
    · simp only [Option.some.injEq] at hn
      subst hn
      exact hn1
    · simp at hn
  · rw [List.getElem?_set_ne hci] at hn
    exact hP i n hn

/-- How the two invariants on the calls in progress are kept when the thread `t`
replaces its stack `old` by `new` and the heap `h` becomes `h1`. -/
theorem threads_update_inv (h h1 : List cancelCtx) (ths : List (List Frame)) (t : Nat)
    (old new : List Frame) (ht : ths[t]? = some old)
    (hdone : ∀ (i : Nat), doneAt h i = some true → doneAt h1 i = some true)
    (hnewframes : ∀ g ∈ new, g.pc.afterClose = true → doneAt h1 g.node = some true)
    (hcovold : ∀ g ∈ old, g.pc.afterClose = true → onceFlag h1 g.node = some false →
      ∃ g1 ∈ new, g1.node = g.node ∧ g1.pc.afterClose = true)
    (hnewdone : ∀ (i : Nat), doneAt h1 i = some true → onceFlag h1 i = some false →
      (doneAt h i = some true ∧ onceFlag h i = some false) ∨
        ∃ g1 ∈ new, g1.node = i ∧ g1.pc.afterClose = true)
    (hfc : FramesClosed h ths) (hcov : Covered h ths) :
    FramesClosed h1 (ths.set t new) ∧ Covered h1 (ths.set t new) := by
  refine ⟨fun g hg hac => ?_, fun i hd ho => ?_⟩
  · rcases inThreads_of_set hg with hnew | hold
    · exact hnewframes g hnew hac
    · exact hdone _ (hfc g hold hac)
  · rcases hnewdone i hd ho with ⟨hd0, ho0⟩ | ⟨g1, hg1, hnode, hac⟩
    · obtain ⟨g, hg, hnode, hac⟩ := hcov i hd0 ho0
      rcases @inThreads_set_keep ths t old new ht g hg with hold | hkeep
      · obtain ⟨g1, hg1, hnode1, hac1⟩ := hcovold g hold hac (by rw [hnode]; exact ho)
        exact ⟨g1, inThreads_set_new ht hg1, hnode1.trans hnode, hac1⟩
      · exact ⟨g, hkeep, hnode, hac⟩
    · exact ⟨g1, inThreads_set_new ht hg1, hnode, hac⟩

theorem stepThread_inv (cs cs1 : Conc) (t : Nat) (hinv : CInv cs)
    (hs : stepThread cs t = some cs1) : CInv cs1 := by
  obtain ⟨⟨hcell, hst⟩, hfc, hcov⟩ := hinv
  unfold stepThread at hs
  split at hs
  · simp at hs
  · simp at hs
  · rename_i f rest hth
    have hfmem : inThreads cs.threads f := ⟨f :: rest, List.getElem?_mem hth, by simp⟩
    have hrest : ∀ g ∈ rest, inThreads cs.threads g := fun g hg =>
      ⟨f :: rest, List.getElem?_mem hth, List.mem_cons_of_mem _ hg⟩
    split at hs
    · simp at hs
    · rename_i n hn
      have hdn : doneAt cs.st.heap f.node = some n.done := by simp [doneAt, hn]
      have hon : onceFlag cs.st.heap f.node = some n.once := by simp [onceFlag, hn]
      split at hs
      · -- at `once.Do`
        rename_i hpc
        have hnac : f.pc.afterClose = false := by rw [hpc]; rfl
        split at hs
        · simp only [Option.some.injEq] at hs
          subst hs
          refine ⟨⟨hcell, hst⟩, threads_update_inv _ _ _ t (f :: rest) rest hth
            (fun _ hd => hd) (fun g hg hac => hfc g (hrest g hg) hac) ?_
            (fun i hd ho => Or.inl ⟨hd, ho⟩) hfc hcov⟩
          intro g hg hac _
          rcases List.mem_cons.1 hg with rfl | hg
          · rw [hnac] at hac; cases hac
          · exact ⟨g, hg, rfl, hac⟩
        · split at hs
          · simp at hs
          · simp only [Option.some.injEq] at hs
            subst hs
            refine ⟨⟨hcell, hst⟩, threads_update_inv _ _ _ t (f :: rest)
              ({ f with pc := .close } :: rest) hth (fun _ hd => hd) ?_ ?_
              (fun i hd ho => Or.inl ⟨hd, ho⟩) hfc hcov⟩
            · intro g hg hac
              rcases List.mem_cons.1 hg with rfl | hg
              · cases hac
              · exact hfc g (hrest g hg) hac
            · intro g hg hac _
              rcases List.mem_cons.1 hg with rfl | hg
              · rw [hnac] at hac; cases hac
              · exact ⟨g, List.mem_cons_of_mem _ hg, rfl, hac⟩
      · -- `close(c.done)`
        rename_i hpc
        have hnac : f.pc.afterClose = false := by rw [hpc]; rfl
        split at hs
        · simp at hs
        · rename_i hnd
          simp only [Option.some.injEq] at hs
          subst hs
          have hshape := sameShape_set cs.st.heap f.node n { n with done := true } hn
            rfl rfl rfl
          refine ⟨⟨cells_set CellC _ _ _ hcell ⟨fun _ => rfl, fun _ => rfl⟩,
            hshape.structure_kept hst⟩, threads_update_inv _ _ _ t (f :: rest)
              ({ f with pc := .store } :: rest) hth ?_ ?_ ?_ ?_ hfc hcov⟩
          · intro i hd
            rw [doneAt_set _ _ n _ hn]
            split
            · rfl
            · exact hd
          · intro g hg hac
            rw [doneAt_set _ _ n _ hn]
            rcases List.mem_cons.1 hg with rfl | hg
            · simp
            · split
              · rfl
              · exact hfc g (hrest g hg) hac
          · intro g hg hac _
            rcases List.mem_cons.1 hg with rfl | hg
            · rw [hnac] at hac; cases hac
            · exact ⟨g, List.mem_cons_of_mem _ hg, rfl, hac⟩
          · intro i hd ho
            rw [doneAt_set _ _ n _ hn] at hd
            rw [onceFlag_set _ _ n _ hn] at ho
            by_cases hci : f.node = i
            · exact Or.inr ⟨{ f with pc := .store }, by simp, hci, rfl⟩
            · rw [if_neg hci] at hd ho
              exact Or.inl ⟨hd, ho⟩
      · -- `c.err = err`
        rename_i hpc
        have hfd : n.done = true := by
          have := hfc f hfmem (by rw [hpc]; rfl)
          rw [hdn] at this
          exact Option.some.inj this
        simp only [Option.some.injEq] at hs
        subst hs
        have hshape := sameShape_set cs.st.heap f.node n { n with err := f.err } hn
          rfl rfl rfl
        refine ⟨⟨cells_set CellC _ _ _ hcell ⟨(hcell _ n hn).1, fun _ => hfd⟩,
          hshape.structure_kept hst⟩, threads_update_inv _ _ _ t (f :: rest)
            ({ f with pc := .loop n.children } :: rest) hth ?_ ?_ ?_ ?_ hfc hcov⟩
        · intro i hd
          rw [doneAt_set _ _ n _ hn]
          split
          · rename_i hci
            subst hci
            rw [hdn] at hd
            exact hd
          · exact hd
        · intro g hg hac
          rw [doneAt_set _ _ n _ hn]
          rcases List.mem_cons.1 hg with rfl | hg
          · simp [hfd]
          · split
            · rename_i hci
              have := hfc g (hrest g hg) hac
              rw [← hci, hdn] at this
              exact this
            · exact hfc g (hrest g hg) hac
        · intro g hg hac _
          rcases List.mem_cons.1 hg with rfl | hg
          · exact ⟨{ g with pc := .loop n.children }, by simp, rfl, rfl⟩
          · exact ⟨g, List.mem_cons_of_mem _ hg, rfl, hac⟩
        · intro i hd ho
          rw [doneAt_set _ _ n _ hn] at hd
          rw [onceFlag_set _ _ n _ hn] at ho
          by_cases hci : f.node = i
          · exact Or.inr ⟨{ f with pc := .loop n.children }, by simp, hci, rfl⟩
          · rw [if_neg hci] at hd ho
            exact Or.inl ⟨hd, ho⟩
      · -- the end of the loop and of `once.Do`
        rename_i hpc
        have hfd : n.done = true := by
          have := hfc f hfmem (by rw [hpc]; rfl)
          rw [hdn] at this
          exact Option.some.inj this
        simp only [Option.some.injEq] at hs
        subst hs
        have hshape := sameShape_set cs.st.heap f.node n { n with once := true } hn
          rfl rfl rfl
        refine ⟨⟨cells_set CellC _ _ _ hcell ⟨fun _ => hfd, (hcell _ n hn).2⟩,
          hshape.structure_kept hst⟩, threads_update_inv _ _ _ t (f :: rest) rest hth
            ?_ ?_ ?_ ?_ hfc hcov⟩
        · intro i hd
          rw [doneAt_set _ _ n _ hn]
          split
          · rename_i hci
            subst hci
            rw [hdn] at hd
            exact hd
          · exact hd
        · intro g hg hac
          rw [doneAt_set _ _ n _ hn]
          split
          · rename_i hci
            have := hfc g (hrest g hg) hac
            rw [← hci, hdn] at this
            exact this
          · exact hfc g (hrest g hg) hac
        · intro g hg hac ho
          rcases List.mem_cons.1 hg with rfl | hg
          · rw [onceFlag_set _ _ n _ hn, if_pos rfl] at ho
            simp at ho
          · exact ⟨g, hg, rfl, hac⟩
        · intro i hd ho
          rw [doneAt_set _ _ n _ hn] at hd
          rw [onceFlag_set _ _ n _ hn] at ho
          by_cases hci : f.node = i
          · rw [if_pos hci] at ho
            simp at ho
          · rw [if_neg hci] at hd ho
            exact Or.inl ⟨hd, ho⟩
      · -- a call `child.cancel(err)` of the loop
        rename_i x xs hpc
        simp only [Option.some.injEq] at hs
        subst hs
        refine ⟨⟨hcell, hst⟩, threads_update_inv _ _ _ t (f :: rest)
          (⟨x, f.err, .enter⟩ :: { f with pc := .loop xs } :: rest) hth (fun _ hd => hd)
          ?_ ?_ (fun i hd ho => Or.inl ⟨hd, ho⟩) hfc hcov⟩
        · intro g hg hac
          rcases List.mem_cons.1 hg with rfl | hg
          · cases hac
          · rcases List.mem_cons.1 hg with rfl | hg
            · exact hfc f hfmem (by rw [hpc]; rfl)
            · exact hfc g (hrest g hg) hac
        · intro g hg hac _
          rcases List.mem_cons.1 hg with rfl | hg
          · exact ⟨{ g with pc := .loop xs }, by simp, rfl, rfl⟩
          · exact ⟨g, by simp [hg], rfl, hac⟩

theorem propagate_flags (s s1 : State) (parent : Context) (child : Nat)
    (hr : propagateCancel s parent child = some s1) :
    (∀ (i : Nat), doneAt s1.heap i = doneAt s.heap i) ∧
      (∀ (i : Nat), onceFlag s1.heap i = onceFlag s.heap i) ∧
      (∀ (i : Nat), errAt s1.heap i = errAt s.heap i) ∧
      s1.goroutines = s.goroutines ++ [(parent, child)] ∧ s1.timers = s.timers ∧
      s1.now = s.now := by
  have hplain : ∀ (s2 : State), s2.heap = s.heap →
      s2.goroutines = s.goroutines ++ [(parent, child)] → s2.timers = s.timers →
      s2.now = s.now →
      (∀ (i : Nat), doneAt s2.heap i = doneAt s.heap i) ∧
      (∀ (i : Nat), onceFlag s2.heap i = onceFlag s.heap i) ∧
      (∀ (i : Nat), errAt s2.heap i = errAt s.heap i) ∧
      s2.goroutines = s.goroutines ++ [(parent, child)] ∧ s2.timers = s.timers ∧
      s2.now = s.now := by
    intro s2 h2 hg ht hn
    rw [h2]
    exact ⟨fun _ => rfl, fun _ => rfl, fun _ => rfl, hg, ht, hn⟩
  unfold propagateCancel at hr
  cases parent with
  | cancelCtx p q =>
    simp only at hr
    unfold addChild at hr
    cases hn : s.heap[p]? with
    | none => rw [hn] at hr; simp at hr
    | some n =>
      rw [hn] at hr
      simp only [Option.some.injEq] at hr
      subst hr
      refine ⟨fun i => ?_, fun i => ?_, fun i => ?_, rfl, rfl, rfl⟩
      · rw [doneAt_set _ _ n _ hn]
        split
        · rename_i hpi
          subst hpi
          simp [doneAt, hn]
        · rfl
      · rw [onceFlag_set _ _ n _ hn]
        split
        · rename_i hpi
          subst hpi
          simp [onceFlag, hn]
        · rfl
      · unfold errAt
        by_cases hpi : p = i
        · subst hpi
          rw [List.getElem?_set, if_pos rfl, if_pos (List.getElem?_eq_some.1 hn).1, hn]
          rfl
        · rw [List.getElem?_set_ne hpi]
  | nil => simp only [Option.some.injEq] at hr; exact hplain s1 (by rw [← hr]) (by rw [← hr]) (by rw [← hr]) (by rw [← hr])
  | emptyCtx => simp only [Option.some.injEq] at hr; exact hplain s1 (by rw [← hr]) (by rw [← hr]) (by rw [← hr]) (by rw [← hr])
  | timerCtx _ _ _ => simp only [Option.some.injEq] at hr; exact hplain s1 (by rw [← hr]) (by rw [← hr]) (by rw [← hr]) (by rw [← hr])
  | valCtx _ _ _ => simp only [Option.some.injEq] at hr; exact hplain s1 (by rw [← hr]) (by rw [← hr]) (by rw [← hr]) (by rw [← hr])

theorem doneAt_append_new (h : List cancelCtx) (parent : Context) (d : Option Int) (i : Nat) :
    doneAt (h ++ [cancelCtx.new parent d]) i = some true ↔ doneAt h i = some true := by
  unfold doneAt
  rcases Nat.lt_trichotomy i h.length with hlt | heq | hgt
  · rw [List.getElem?_append_left hlt]
  · subst heq
    rw [List.getElem?_append_right (Nat.le_refl _), List.getElem?_eq_none (Nat.le_refl _)]
    simp [cancelCtx.new]
  · rw [List.getElem?_eq_none (by simp; omega), List.getElem?_eq_none (by omega)]

theorem onceFlag_append_new (h : List cancelCtx) (n : cancelCtx) (i : Nat)
    (hd : doneAt h i = some true) : onceFlag (h ++ [n]) i = onceFlag h i := by
  unfold onceFlag
  have hlt : i < h.length := by
    unfold doneAt at hd
    cases hi : h[i]? with
    | none => rw [hi] at hd; simp at hd
    | some m => exact (List.getElem?_eq_some.1 hi).1
  rw [List.getElem?_append_left hlt]

/-- The invariants on the calls in progress are kept by an event that leaves the flags
`done` and `once` of the closed structs as they are and starts at most new calls. -/
theorem frames_mono (h h1 : List cancelCtx) (ths ths1 : List (List Frame))
    (hd : ∀ (i : Nat), doneAt h1 i = some true ↔ doneAt h i = some true)
    (ho : ∀ (i : Nat), doneAt h i = some true → onceFlag h1 i = onceFlag h i)
    (hsub : ∀ g, inThreads ths g → inThreads ths1 g)
    (hnew : ∀ g, inThreads ths1 g → g.pc.afterClose = true → inThreads ths g)
    (hfc : FramesClosed h ths) (hcov : Covered h ths) :
    FramesClosed h1 ths1 ∧ Covered h1 ths1 := by
  refine ⟨fun g hg hac => (hd _).2 (hfc g (hnew g hg hac) hac), fun i hdi hoi => ?_⟩
  have hd0 := (hd i).1 hdi
  rw [ho i hd0] at hoi
  obtain ⟨g, hg, hnode, hac⟩ := hcov i hd0 hoi
  exact ⟨g, hsub g hg, hnode, hac⟩

theorem CInv_spawn (cs : Conc) (c : Nat) (e : Option error) (hinv : CInv cs) :
    CInv (spawn cs c e) := by
  obtain ⟨hst, hfc, hcov⟩ := hinv
  refine ⟨hst, frames_mono cs.st.heap cs.st.heap cs.threads _ (fun _ => Iff.rfl)
    (fun _ _ => rfl) (fun g hg => inThreads_append.2 (Or.inl hg)) ?_ hfc hcov⟩
  intro g hg hac
  rcases inThreads_append.1 hg with hg | rfl
  · exact hg
  · cases hac

theorem CInv_congr (cs cs1 : Conc) (hh : cs1.st.heap = cs.st.heap)
    (ht : cs1.threads = cs.threads) (hinv : CInv cs) : CInv cs1 := by
  unfold CInv at hinv ⊢
  rw [hh, ht]
  exact hinv

theorem CellC_new (parent : Context) (d : Option Int) : CellC (cancelCtx.new parent d) := by
  constructor <;> intro h <;> simp [cancelCtx.new] at h

theorem alloc_CInv (cs : Conc) (s1 : State) (parent : Context) (d : Option Int)
    (hinv : CInv cs) (hp : ∀ x ∈ ptrs parent, x < cs.st.heap.length)
    (hr : propagateCancel { cs.st with heap := cs.st.heap ++ [cancelCtx.new parent d] } parent
      cs.st.heap.length = some s1) : CInv ⟨s1, cs.threads⟩ := by
  obtain ⟨hst, hfc, hcov⟩ := hinv
  have hgen := propagate_alloc_gen CellC CellC_new (fun _ _ h => h) cs.st s1 parent d hst hp hr
  obtain ⟨hdn, hon, _⟩ := propagate_flags _ s1 parent _ hr
  refine ⟨hgen.1, frames_mono cs.st.heap s1.heap cs.threads cs.threads ?_ ?_
    (fun _ hg => hg) (fun _ hg _ => hg) hfc hcov⟩
  · intro i
    rw [hdn i]
    exact doneAt_append_new _ _ _ i
  · intro i hd
    rw [hon i]
    exact onceFlag_append_new _ _ i hd

theorem mem_pick (xs : List Nat) (i x b : Nat) (hx : xs[i]? = some x) (hb : b ∈ xs) :
    b ∈ x :: xs.eraseIdx i := by
  induction xs generalizing i with
  | nil => cases hb
  | cons y ys ih =>
    cases i with
    | zero =>
      simp only [List.getElem?_cons_zero, Option.some.injEq] at hx
      subst hx
      simpa using hb
    | succ j =>
      simp only [List.getElem?_cons_succ] at hx
      rcases List.mem_cons.1 hb with rfl | hb
      · simp
      · have := ih j hx hb
        rcases List.mem_cons.1 this with rfl | h2
        · simp
        · simp [h2]

/-- What the choice of the next key changes: the keys still to visit of one call in its
loop are reordered. -/
theorem pickNext_shape (cs cs1 : Conc) (t i : Nat) (hs : pickNext cs t i = some cs1) :
    ∃ (f : Frame) (rest : List Frame) (xs : List Nat) (x : Nat),
      cs.threads[t]? = some (f :: rest) ∧ f.pc = .loop xs ∧ xs[i]? = some x ∧
      cs1.st = cs.st ∧
      cs1.threads = cs.threads.set t (⟨f.node, f.err, .loop (x :: xs.eraseIdx i)⟩ :: rest) := by
  unfold pickNext at hs
  split at hs
  · rename_i f rest hth
    split at hs
    · rename_i xs hpc
      split at hs
      · rename_i x hx
        simp only [Option.some.injEq] at hs
        subst hs
        exact ⟨f, rest, xs, x, hth, hpc, hx, rfl, rfl⟩
      · simp at hs
    · simp at hs
  · simp at hs

theorem pickNext_inv (cs cs1 : Conc) (t i : Nat) (hinv : CInv cs)
    (hs : pickNext cs t i = some cs1) : CInv cs1 := by
  obtain ⟨f, rest, xs, x, hth, hpc, _, hst, hths⟩ := pickNext_shape cs cs1 t i hs
  obtain ⟨hstr, hfc, hcov⟩ := hinv
  have hfmem : inThreads cs.threads f := ⟨f :: rest, List.getElem?_mem hth, by simp⟩
  have hrest : ∀ g ∈ rest, inThreads cs.threads g := fun g hg =>
    ⟨f :: rest, List.getElem?_mem hth, List.mem_cons_of_mem _ hg⟩
  unfold CInv
  rw [hst, hths]
  refine ⟨hstr, threads_update_inv _ _ _ t (f :: rest) _ hth (fun _ hd => hd) ?_ ?_
    (fun i hd ho => Or.inl ⟨hd, ho⟩) hfc hcov⟩
  · intro g hg hac
    rcases List.mem_cons.1 hg with rfl | hg
    · exact hfc f hfmem (by rw [hpc]; rfl)
    · exact hfc g (hrest g hg) hac
  · intro g hg hac _
    rcases List.mem_cons.1 hg with rfl | hg
    · exact ⟨⟨g.node, g.err, .loop (x :: xs.eraseIdx i)⟩, by simp, rfl, rfl⟩
    · exact ⟨g, List.mem_cons_of_mem _ hg, rfl, hac⟩

theorem cstep_inv (cs cs1 : Conc) (e : Ev) (hinv : CInv cs) (hp : e.possible cs = true)
    (hs : cstep cs e = some cs1) : CInv cs1 := by
  cases e with
  | stmt t => exact stepThread_inv cs cs1 t hinv hs
  | pick t i => exact pickNext_inv cs cs1 t i hinv hs
  | op o =>
    cases o with
    | WithCancel p =>
      simp only [cstep] at hs
      split at hs
      · simp at hs
      · unfold WithCancel at hs
        split at hs
        · simp at hs
        · cases hr : propagateCancel
              { cs.st with heap := cs.st.heap ++ [cancelCtx.new p none] } p
              cs.st.heap.length with
          | none => simp [hr] at hs
          | some s1 =>
            simp only [hr, Option.map_some', Option.some.injEq] at hs
            subst hs
            exact alloc_CInv cs s1 p none hinv (possible_parent_ptrs_lt _ p hp) hr
    | WithDeadline p d =>
      simp only [cstep] at hs
      split at hs
      · simp at hs
      · unfold WithDeadlineC at hs
        cases hr : propagateCancel
            { cs.st with heap := cs.st.heap ++ [cancelCtx.new p (some d)] } p
            cs.st.heap.length with
        | none => simp [hr] at hs
        | some s1 =>
          simp only [hr, Option.map_some', Option.some.injEq] at hs
          have hbase : CInv ⟨{ s1 with timers := s1.timers ++ [(cs.st.heap.length, d)] },
              cs.threads⟩ :=
            CInv_congr ⟨s1, cs.threads⟩ _ rfl rfl
              (alloc_CInv cs s1 p (some d) hinv (possible_parent_ptrs_lt _ p hp) hr)
          split at hs
          · subst hs
            exact CInv_spawn _ _ _ hbase
          · subst hs
            exact hbase
    | WithTimeout p t =>
      simp only [cstep] at hs
      split at hs
      · simp at hs
      · unfold WithDeadlineC at hs
        cases hr : propagateCancel
            { cs.st with heap := cs.st.heap ++ [cancelCtx.new p (some (cs.st.now + t))] } p
            cs.st.heap.length with
        | none => simp [hr] at hs
        | some s1 =>
          simp only [hr, Option.map_some', Option.some.injEq] at hs
          have hbase : CInv ⟨{ s1 with timers :=
              s1.timers ++ [(cs.st.heap.length, cs.st.now + t)] }, cs.threads⟩ :=
            CInv_congr ⟨s1, cs.threads⟩ _ rfl rfl
              (alloc_CInv cs s1 p _ hinv (possible_parent_ptrs_lt _ p hp) hr)
          split at hs
          · subst hs
            exact CInv_spawn _ _ _ hbase
          · subst hs
            exact hbase
    | WithValue p k v =>
      simp only [cstep] at hs
      cases hv : WithValue p k v with
      | none => simp [hv] at hs
      | some r =>
        simp only [hv, Option.map_some', Option.some.injEq] at hs
        subst hs
        exact hinv
    | CancelFunc c =>
      simp only [cstep] at hs
      split at hs
      · simp only [Option.some.injEq] at hs
        subst hs
        exact CInv_spawn _ _ _ hinv
      · simp at hs
    | timerFire i =>
      simp only [cstep] at hs
      split at hs
      · simp at hs
      · split at hs
        · simp only [Option.some.injEq] at hs
          subst hs
          exact CInv_spawn _ _ _ (CInv_congr cs _ rfl rfl hinv)
        · simp at hs
    | monitorParent i =>
      simp only [cstep] at hs
      split at hs
      · simp at hs
      · split at hs
        · simp at hs
        · split at hs
          · split at hs
            · simp at hs
            · simp only [Option.some.injEq] at hs
              subst hs
              exact CInv_spawn _ _ _ (CInv_congr cs _ rfl rfl hinv)
          · simp at hs
    | monitorChild i =>
      simp only [cstep] at hs
      cases hm : monitorChild cs.st i with
      | none => simp [hm] at hs
      | some s1 =>
        simp only [hm, Option.map_some', Option.some.injEq] at hs
        subst hs
        refine CInv_congr cs _ ?_ rfl hinv
        unfold monitorChild at hm
        split at hm
        · simp at hm
        · split at hm
          · simp at hm
          · split at hm
            · simp only [Option.some.injEq] at hm
              subst hm
              rfl
            · simp at hm
    | tick d =>
      simp only [cstep, Option.some.injEq] at hs
      subst hs
      exact CInv_congr cs _ rfl rfl hinv

theorem CInv_init (now : Int) : CInv (Conc.init now) := by
  refine ⟨⟨?_, ?_, ?_, ?_, ?_⟩, ?_, ?_⟩
  · intro i n hn; simp [Conc.init, State.init] at hn
  · intro i n hn; simp [Conc.init, State.init] at hn
  · intro i n _ _ hn; simp [Conc.init, State.init] at hn
  · intro i n hn; simp [Conc.init, State.init] at hn
  · intro a x hx; simp [Conc.init, State.init, kids] at hx
  · rintro g ⟨t, ht, _⟩ _; simp [Conc.init] at ht
  · intro i hd; simp [Conc.init, State.init, doneAt] at hd

theorem creachable_inv (cs : Conc) (hr : CReachable cs) : CInv cs := by
  induction hr with
  | init now => exact CInv_init now
  | step ev _ hp hs ih => exact cstep_inv _ _ ev ih hp hs

/-- When no call of `cancel` is in progress, the `once` of every struct has run exactly
when its `done` is closed. -/
theorem once_eq_done_at_rest (cs : Conc) (hinv : CInv cs) (hrest : atRest cs = true) :
    ∀ (i : Nat) (n : cancelCtx), cs.st.heap[i]? = some n → n.once = n.done := by
  intro i n hn
  obtain ⟨⟨hcell, _⟩, _, hcov⟩ := hinv
  cases hd : n.done with
  | false =>
    cases ho : n.once with
    | false => rfl
    | true => rw [(hcell i n hn).1 ho] at hd; cases hd
  | true =>
    cases ho : n.once with
    | true => rfl
    | false =>
      obtain ⟨g, ⟨t, ht, hgt⟩, _, _⟩ := hcov i (by simp [doneAt, hn, hd])
        (by simp [onceFlag, hn, ho])
      unfold atRest at hrest
      rw [List.all_eq_true] at hrest
      have := hrest t ht
      cases t with
      | nil => cases hgt
      | cons _ _ => simp at this

/-! ## A call of `cancel` that runs with no other event in between -/

theorem runsTo_refl (cs : Conc) (t : Nat) : RunsTo cs t cs := ⟨0, rfl⟩

theorem runsTo_head {cs cs1 cs2 : Conc} {t : Nat} (h1 : stepThread cs t = some cs1)
    (h2 : RunsTo cs1 t cs2) : RunsTo cs t cs2 := by
  obtain ⟨k, hk⟩ := h2
  refine ⟨k + 1, ?_⟩
  rw [List.replicate_succ]
  simp only [crun, Ev.possible, cstep, h1, if_true]
  exact hk

theorem runsTo_trans {cs cs1 cs2 : Conc} {t : Nat} (h1 : RunsTo cs t cs1)
    (h2 : RunsTo cs1 t cs2) : RunsTo cs t cs2 := by
  obtain ⟨k, hk⟩ := h1
  induction k generalizing cs with
  | zero =>
    simp only [List.replicate_zero, crun, Option.some.injEq] at hk
    subst hk
    exact h2
  | succ k ih =>
    rw [List.replicate_succ] at hk
    simp only [crun, Ev.possible, cstep, if_true] at hk
    cases hs : stepThread cs t with
    | none => rw [hs] at hk; simp at hk
    | some cs3 =>
      rw [hs] at hk
      exact runsTo_head hs (ih hk)

theorem ordered_set (h : List cancelCtx) (c : Nat) (n n1 : cancelCtx) (hn : h[c]? = some n)
    (hc : n1.children = n.children) (hord : Ordered h) : Ordered (h.set c n1) := by
  intro i m hm x hx
  rw [List.length_set]
  by_cases hci : c = i
  · subst hci
    rw [List.getElem?_set, if_pos rfl, if_pos (List.getElem?_eq_some.1 hn).1] at hm
    simp only [Option.some.injEq] at hm
    subst hm
    rw [hc] at hx
    exact hord c n hn x hx
  · rw [List.getElem?_set_ne hci] at hm
    exact hord i m hm x hx

theorem threads_set_facts (ths : List (List Frame)) (t : Nat) (old new : List Frame)
    (ht : ths[t]? = some old)
    (hothers : ∀ (t1 : Nat) (stk : List Frame), ths[t1]? = some stk → t1 ≠ t → stk = []) :
    (ths.set t new)[t]? = some new ∧
      ∀ (t1 : Nat) (stk : List Frame), (ths.set t new)[t1]? = some stk → t1 ≠ t →
        stk = [] := by
  refine ⟨?_, fun t1 stk hs hne => ?_⟩
  · rw [List.getElem?_set, if_pos rfl, if_pos (List.getElem?_eq_some.1 ht).1]
  · rw [List.getElem?_set_ne (Ne.symm hne)] at hs
    exact hothers t1 stk hs hne

theorem not_busy_alone (ths : List (List Frame)) (t c : Nat) (e : Option error)
    (rest : List Frame) (ht : ths[t]? = some (⟨c, e, .enter⟩ :: rest))
    (hlt : ∀ f ∈ rest, f.node < c)
    (hothers : ∀ (t1 : Nat) (stk : List Frame), ths[t1]? = some stk → t1 ≠ t → stk = []) :
    busy ths c = false := by
  unfold busy
  rw [Bool.eq_false_iff]
  intro hb
  rw [List.any_eq_true] at hb
  obtain ⟨stk, hstk, hb⟩ := hb
  rw [List.any_eq_true] at hb
  obtain ⟨f, hf, hb⟩ := hb
  simp only [Bool.and_eq_true, decide_eq_true_eq] at hb
  obtain ⟨t1, ht1⟩ := List.mem_iff_getElem?.1 hstk
  by_cases h1 : t1 = t
  · subst h1
    rw [ht] at ht1
    simp only [Option.some.injEq] at ht1
    subst ht1
    rcases List.mem_cons.1 hf with rfl | hf
    · simp [PC.inBody] at hb
    · have := hlt f hf
      omega
  · rw [hothers t1 stk ht1 h1] at hf
    cases hf

/-- The loop `for child := range c.children { child.cancel(err) }` of a call that runs
alone does what the fold of `cancel` over the children does. -/
theorem thread_loop (e : Option error) (fuel : Nat) (g : List (Context × Nat))
    (tm : List (Nat × Int)) (now : Int) (t c : Nat) (rest : List Frame)
    (hlt : ∀ f ∈ rest, f.node < c)
    (ih : ∀ (h : List cancelCtx) (x : Nat) (h1 : List cancelCtx),
      cancel fuel h x e = some h1 → Ordered h →
      ∀ (ths : List (List Frame)) (rest1 : List Frame),
        ths[t]? = some (⟨x, e, .enter⟩ :: rest1) → (∀ f ∈ rest1, f.node < x) →
        (∀ (t1 : Nat) (stk : List Frame), ths[t1]? = some stk → t1 ≠ t → stk = []) →
        ∃ ths1, RunsTo ⟨⟨h, g, tm, now⟩, ths⟩ t ⟨⟨h1, g, tm, now⟩, ths1⟩ ∧
          ths1[t]? = some rest1 ∧
          ∀ (t1 : Nat) (stk : List Frame), ths1[t1]? = some stk → t1 ≠ t → stk = []) :
    ∀ (xs : List Nat) (hA hB : List cancelCtx),
      xs.foldlM (fun h1 child => cancel fuel h1 child e) hA = some hB → Ordered hA →
      c < hA.length → (∀ x ∈ xs, c < x) →
      ∀ (ths : List (List Frame)), ths[t]? = some (⟨c, e, .loop xs⟩ :: rest) →
        (∀ (t1 : Nat) (stk : List Frame), ths[t1]? = some stk → t1 ≠ t → stk = []) →
        ∃ ths1, RunsTo ⟨⟨hA, g, tm, now⟩, ths⟩ t ⟨⟨hB, g, tm, now⟩, ths1⟩ ∧
          ths1[t]? = some (⟨c, e, .loop []⟩ :: rest) ∧
          ∀ (t1 : Nat) (stk : List Frame), ths1[t1]? = some stk → t1 ≠ t → stk = [] := by
  intro xs
  induction xs with
  | nil =>
    intro hA hB hf _ _ _ ths hth hothers
    simp only [List.foldlM_nil, Option.pure_def, Option.some.injEq] at hf
    subst hf
    exact ⟨ths, runsTo_refl _ _, hth, hothers⟩
  | cons x xs ihx =>
    intro hA hB hf hord hc hkids ths hth hothers
    simp only [List.foldlM_cons, Option.bind_eq_bind] at hf
    cases hx : cancel fuel hA x e with
    | none => rw [hx] at hf; simp at hf
    | some hM =>
      rw [hx] at hf
      simp only [Option.some_bind] at hf
      have htouch := cancel_touched e fuel hA x hM hx
      obtain ⟨hset, hoth1⟩ := threads_set_facts ths t _
        (⟨x, e, .enter⟩ :: ⟨c, e, .loop xs⟩ :: rest) hth hothers
      have hstep : stepThread ⟨⟨hA, g, tm, now⟩, ths⟩ t
          = some ⟨⟨hA, g, tm, now⟩,
              ths.set t (⟨x, e, .enter⟩ :: ⟨c, e, .loop xs⟩ :: rest)⟩ := by
        simp only [stepThread, hth, List.getElem?_eq_getElem hc]
      obtain ⟨ths2, hrun2, hth2, hoth2⟩ := ih hA x hM hx hord _ (⟨c, e, .loop xs⟩ :: rest)
        hset (by
          intro f hf
          rcases List.mem_cons.1 hf with rfl | hf
          · exact hkids x (List.mem_cons_self _ _)
          · exact Nat.lt_trans (hlt f hf) (hkids x (List.mem_cons_self _ _))) hoth1
      obtain ⟨ths3, hrun3, hth3, hoth3⟩ := ihx hM hB hf (htouch.ordered hord)
        (by rw [htouch.1]; exact hc) (fun y hy => hkids y (List.mem_cons_of_mem _ hy))
        ths2 hth2 hoth2
      exact ⟨ths3, runsTo_head hstep (runsTo_trans hrun2 hrun3), hth3, hoth3⟩

/-- A call `c.cancel(e)` that runs alone takes the heap to the heap that `cancel` computes
and returns. -/
theorem thread_cancel (e : Option error) (g : List (Context × Nat)) (tm : List (Nat × Int))
    (now : Int) (t : Nat) :
    ∀ (fuel : Nat) (h : List cancelCtx) (c : Nat) (h1 : List cancelCtx),
      cancel fuel h c e = some h1 → Ordered h →
      ∀ (ths : List (List Frame)) (rest : List Frame),
        ths[t]? = some (⟨c, e, .enter⟩ :: rest) → (∀ f ∈ rest, f.node < c) →
        (∀ (t1 : Nat) (stk : List Frame), ths[t1]? = some stk → t1 ≠ t → stk = []) →
        ∃ ths1, RunsTo ⟨⟨h, g, tm, now⟩, ths⟩ t ⟨⟨h1, g, tm, now⟩, ths1⟩ ∧
          ths1[t]? = some rest ∧
          ∀ (t1 : Nat) (stk : List Frame), ths1[t1]? = some stk → t1 ≠ t → stk = [] := by
  intro fuel
  induction fuel with
  | zero => intro h c h1 hr; simp [cancel] at hr
  | succ fuel ih =>
    intro h c h1 hr hord ths rest hth hlt hothers
    unfold cancel at hr
    cases hn : h[c]? with
    | none => rw [hn] at hr; simp at hr
    | some n =>
      rw [hn] at hr
      simp only at hr
      have hc : c < h.length := (List.getElem?_eq_some.1 hn).1
      by_cases ho : n.once = true
      · rw [if_pos ho] at hr
        simp only [Option.some.injEq] at hr
        subst hr
        obtain ⟨hset, hoth1⟩ := threads_set_facts ths t _ rest hth hothers
        have hstep : stepThread ⟨⟨h, g, tm, now⟩, ths⟩ t
            = some ⟨⟨h, g, tm, now⟩, ths.set t rest⟩ := by
          simp only [stepThread, hth, hn, ho, if_true]
        exact ⟨_, runsTo_head hstep (runsTo_refl _ _), hset, hoth1⟩
      · rw [if_neg ho] at hr
        by_cases hd : n.done = true
        · rw [if_pos hd] at hr; simp at hr
        · rw [if_neg hd] at hr
          cases hf : n.children.foldlM (fun h1 child => cancel fuel h1 child e)
              (h.set c { n with done := true, err := e }) with
          | none => rw [hf] at hr; simp at hr
          | some h2 =>
            rw [hf] at hr
            simp only at hr
            cases hn2 : h2[c]? with
            | none => rw [hn2] at hr; simp at hr
            | some n2 =>
              rw [hn2] at hr
              simp only [Option.some.injEq] at hr
              subst hr
              -- `once.Do` runs the body
              obtain ⟨hset1, hoth1⟩ := threads_set_facts ths t _
                (⟨c, e, .close⟩ :: rest) hth hothers
              have hstep1 : stepThread ⟨⟨h, g, tm, now⟩, ths⟩ t
                  = some ⟨⟨h, g, tm, now⟩, ths.set t (⟨c, e, .close⟩ :: rest)⟩ := by
                simp only [stepThread, hth, hn, ho, not_busy_alone ths t c e rest hth hlt hothers,
                  Bool.false_eq_true, if_false]
              -- `close(c.done)`
              obtain ⟨hset2, hoth2⟩ := threads_set_facts _ t _
                (⟨c, e, .store⟩ :: rest) hset1 hoth1
              have hstep2 : stepThread
                  ⟨⟨h, g, tm, now⟩, ths.set t (⟨c, e, .close⟩ :: rest)⟩ t
                  = some ⟨⟨h.set c { n with done := true }, g, tm, now⟩,
                      (ths.set t (⟨c, e, .close⟩ :: rest)).set t
                        (⟨c, e, .store⟩ :: rest)⟩ := by
                simp only [stepThread, hset1, hn, hd, Bool.false_eq_true, if_false]
              -- `c.err = err`
              have hn1 : (h.set c { n with done := true })[c]? = some { n with done := true } := by
                rw [List.getElem?_set, if_pos rfl, if_pos hc]
              obtain ⟨hset3, hoth3⟩ := threads_set_facts _ t _
                (⟨c, e, .loop n.children⟩ :: rest) hset2 hoth2
              have hstep3 : stepThread
                  ⟨⟨h.set c { n with done := true }, g, tm, now⟩,
                    (ths.set t (⟨c, e, .close⟩ :: rest)).set t
                      (⟨c, e, .store⟩ :: rest)⟩ t
                  = some ⟨⟨h.set c { n with done := true, err := e }, g, tm, now⟩,
                      ((ths.set t (⟨c, e, .close⟩ :: rest)).set t
                        (⟨c, e, .store⟩ :: rest)).set t
                          (⟨c, e, .loop n.children⟩ :: rest)⟩ := by
                simp only [stepThread, hset2, hn1]
                simp only [List.set_set]
              -- the loop
              have hord1 : Ordered (h.set c { n with done := true, err := e }) :=
                ordered_set h c n _ hn rfl hord
              obtain ⟨ths4, hrun4, hth4, hoth4⟩ := thread_loop e fuel g tm now t c rest hlt
                (fun h x h1 hx hordx ths rest1 => ih h x h1 hx hordx ths rest1)
                n.children _ h2 hf hord1 (by rw [List.length_set]; exact hc)
                (fun x hx => (hord c n hn x hx).1) _ hset3 hoth3
              -- the end of the body
              obtain ⟨hset5, hoth5⟩ := threads_set_facts ths4 t _ rest hth4 hoth4
              have hstep5 : stepThread ⟨⟨h2, g, tm, now⟩, ths4⟩ t
                  = some ⟨⟨h2.set c { n2 with once := true }, g, tm, now⟩,
                      ths4.set t rest⟩ := by
                simp only [stepThread, hth4, hn2]
              exact ⟨_, runsTo_head hstep1 (runsTo_head hstep2 (runsTo_head hstep3
                (runsTo_trans hrun4 (runsTo_head hstep5 (runsTo_refl _ _))))), hset5, hoth5⟩

theorem creachable_of_crun :
    ∀ (evs : List Ev) (cs cs1 : Conc), CReachable cs → crun cs evs = some cs1 →
      CReachable cs1 := by
  intro evs
  induction evs with
  | nil =>
    intro cs cs1 hs hr
    simp only [crun, Option.some.injEq] at hr
    subst hr
    exact hs
  | cons ev evs ih =>
    intro cs cs1 hs hr
    simp only [crun] at hr
    split at hr
    · rename_i hposs
      split at hr
      · simp at hr
      · rename_i cs2 hstep
        exact ih cs2 cs1 (CReachable.step ev hs hposs hstep) hr
    · simp at hr

/-- On an ordered heap in which `once` has run exactly on the structs whose `done` is
closed, `cancel(cause)` on a node returns and records `cause` on every node of a path
through the maps `children` that starts at the node and whose nodes all have `done`
open. -/
theorem cancel_records_on_open_path (h : List cancelCtx)
    (hod : ∀ (i : Nat) (n : cancelCtx), h[i]? = some n → n.once = n.done) (hord : Ordered h)
    (cause : Option error) (c : Nat) (path : List Nat)
    (hch : List.Chain (fun a b => b ∈ kids h a) c path)
    (hlive : ∀ a ∈ c :: path, doneAt h a = some false) :
    ∃ h1, cancelCtx.cancel h c cause = some h1 ∧
      ∀ a ∈ c :: path, doneAt h1 a = some true ∧ errAt h1 a = some cause := by
  have hlive1 : ∀ a ∈ c :: path, ∃ n, h[a]? = some n ∧ n.once = false ∧ n.done = false := by
    intro a ha
    have hd := hlive a ha
    unfold doneAt at hd
    cases hn : h[a]? with
    | none => rw [hn] at hd; simp at hd
    | some n =>
      rw [hn] at hd
      simp only [Option.map_some', Option.some.injEq] at hd
      exact ⟨n, rfl, by rw [hod a n hn]; exact hd, hd⟩
  obtain ⟨nc, hnc, _, _⟩ := hlive1 c (List.mem_cons_self _ _)
  obtain ⟨h1, hcan⟩ := cancel_succeeds cause (h.length + 1) h c hord
    (fun i n hn _ => hod i n hn) (List.getElem?_eq_some.1 hnc).1 (by omega)
  have ht := cancel_touched cause _ h c h1 hcan
  have hcl := cancel_closed cause _ h c h1 hcan
  have hno : ∀ a ∈ c :: path, ¬ onceAt h a := by
    intro a ha
    obtain ⟨n, hn, ho, _⟩ := hlive1 a ha
    rintro ⟨m, hm, hmo⟩
    rw [hn] at hm
    simp only [Option.some.injEq] at hm
    subst hm
    simp [ho] at hmo
  have hall := chain_onceAt h h1 hcl.2 path c hch hno hcl.1
  refine ⟨h1, hcan, fun a ha => ?_⟩
  obtain ⟨n, hn, ho, _⟩ := hlive1 a ha
  obtain ⟨m, hm, hmo⟩ := hall a ha
  rcases ht.2 a n hn with hx | ⟨_, _, hx⟩
  · rw [hx] at hm
    simp only [Option.some.injEq] at hm
    subst hm
    simp [ho] at hmo
  · simp [doneAt, errAt, hx, fire]

/-- From a state of the running program in which no call of `cancel` is in progress, a
call `c.cancel(e)` that runs with no other event in between returns, and the heap it
leaves is the heap that `cancelCtx.cancel` computes. -/
theorem cancel_alone (cs : Conc) (hinv : CInv cs) (hrest : atRest cs = true) (c : Nat)
    (e : Option error) (h1 : List cancelCtx)
    (hcan : cancelCtx.cancel cs.st.heap c e = some h1) :
    ∃ cs1, RunsTo (spawn cs c e) cs.threads.length cs1 ∧ cs1.st.heap = h1 ∧
      atRest cs1 = true := by
  obtain ⟨⟨h, g, tm, now⟩, ths⟩ := cs
  have hempty : ∀ stk ∈ ths, stk = [] := by
    intro stk hstk
    unfold atRest at hrest
    rw [List.all_eq_true] at hrest
    have := hrest stk hstk
    cases stk with
    | nil => rfl
    | cons _ _ => simp at this
  obtain ⟨ths1, hrun, hth1, hoth1⟩ := thread_cancel e g tm now ths.length _ h c h1 hcan
    hinv.1.2.1 (ths ++ [[⟨c, e, .enter⟩]]) []
    (by rw [List.getElem?_append_right (Nat.le_refl _)]; simp)
    (fun f hf => by cases hf)
    (by
      intro t1 stk hs hne
      rcases Nat.lt_or_ge t1 ths.length with hlt | hge
      · rw [List.getElem?_append_left hlt] at hs
        exact hempty stk (List.getElem?_mem hs)
      · rw [List.getElem?_eq_none (by simp; omega)] at hs
        cases hs)
  refine ⟨_, hrun, rfl, ?_⟩
  unfold atRest
  rw [List.all_eq_true]
  intro stk hstk
  obtain ⟨t1, ht1⟩ := List.mem_iff_getElem?.1 hstk
  by_cases h1t : t1 = ths.length
  · subst h1t
    rw [hth1] at ht1
    simp only [Option.some.injEq] at ht1
    subst ht1
    rfl
  · rw [hoth1 t1 stk ht1 h1t]
    rfl

/-! ## Propagation under every schedule -/

theorem stackOK_heap (h h1 : List cancelCtx) (a b : Nat)
    (ho : onceFlag h b = some true → onceFlag h1 b = some true) :
    ∀ (l : List Frame) (above : Option Nat), stackOK h a b above l → stackOK h1 a b above l := by
  intro l
  induction l with
  | nil => intro _ _; trivial
  | cons f rest ih =>
    intro above hs
    refine ⟨fun hfa xs hpc => ?_, ih _ hs.2⟩
    rcases hs.1 hfa xs hpc with hx | hx | hx
    · exact Or.inl hx
    · exact Or.inr (Or.inl (ho hx))
    · exact Or.inr (Or.inr hx)

theorem stackOK_above (h : List cancelCtx) (a b : Nat) (above above1 : Option Nat)
    (hab : above = some b → onceFlag h b = some true ∨ above1 = some b) (l : List Frame)
    (hs : stackOK h a b above l) : stackOK h a b above1 l := by
  cases l with
  | nil => trivial
  | cons f rest =>
    refine ⟨fun hfa xs hpc => ?_, hs.2⟩
    rcases hs.1 hfa xs hpc with hx | hx | hx
    · exact Or.inl hx
    · exact Or.inr (Or.inl hx)
    · rcases hab hx with hy | hy
      · exact Or.inr (Or.inl hy)
      · exact Or.inr (Or.inr hy)

theorem stackOK_of_no_loop (h : List cancelCtx) (a b : Nat) :
    ∀ (l : List Frame) (above : Option Nat),
      (∀ f ∈ l, f.node = a → ∀ (xs : List Nat), f.pc ≠ .loop xs) → stackOK h a b above l := by
  intro l
  induction l with
  | nil => intro _ _; trivial
  | cons f rest ih =>
    intro above hl
    exact ⟨fun hfa xs hpc => absurd hpc (hl f (List.mem_cons_self _ _) hfa xs),
      ih _ (fun g hg => hl g (List.mem_cons_of_mem _ hg))⟩

/-- The link holds in a state in which `done` of the parent is still open. -/
theorem link_init (cs : Conc) (hinv : CInv cs) (a b : Nat) (hk : b ∈ kids cs.st.heap a)
    (hd : doneAt cs.st.heap a = some false) : Link a b cs := by
  obtain ⟨⟨hcell, _⟩, hfc, _⟩ := hinv
  refine ⟨hk, fun ho => ?_, fun stk hstk => stackOK_of_no_loop _ a b stk none ?_⟩
  · exfalso
    unfold doneAt at hd
    unfold onceFlag at ho
    cases hn : cs.st.heap[a]? with
    | none => rw [hn] at hd; simp at hd
    | some n =>
      rw [hn] at hd ho
      simp only [Option.map_some', Option.some.injEq] at hd ho
      rw [(hcell a n hn).1 ho] at hd
      cases hd
  · intro f hf hfa xs hpc
    have := hfc f ⟨stk, hstk, hf⟩ (by rw [hpc]; rfl)
    rw [hfa, hd] at this
    cases this

/-- The link is kept by an event that keeps the children, does not reset `once` and
starts at most new calls. -/
theorem link_mono (a b : Nat) (cs cs1 : Conc)
    (hk : b ∈ kids cs.st.heap a → b ∈ kids cs1.st.heap a)
    (ho : ∀ (i : Nat), onceFlag cs1.st.heap i = some true ↔ onceFlag cs.st.heap i = some true)
    (hth : ∀ stk ∈ cs1.threads, stk ∈ cs.threads ∨ ∃ f, stk = [f] ∧ f.pc = .enter)
    (hl : Link a b cs) : Link a b cs1 := by
  obtain ⟨h1, h2, h3⟩ := hl
  refine ⟨hk h1, fun hx => (ho b).2 (h2 ((ho a).1 hx)), fun stk hstk => ?_⟩
  rcases hth stk hstk with hold | ⟨f, rfl, hpc⟩
  · exact stackOK_heap _ _ a b (ho b).2 stk none (h3 stk hold)
  · exact ⟨fun _ xs hx => by rw [hpc] at hx; exact PC.noConfusion hx, trivial⟩

theorem link_spawn (a b : Nat) (cs : Conc) (c : Nat) (e : Option error) (hl : Link a b cs) :
    Link a b (spawn cs c e) := by
  refine link_mono a b cs _ (fun hk => hk) (fun _ => Iff.rfl) ?_ hl
  intro stk hstk
  rcases List.mem_append.1 hstk with hs | hs
  · exact Or.inl hs
  · simp only [List.mem_singleton] at hs
    exact Or.inr ⟨_, hs, rfl⟩

theorem link_congr (a b : Nat) (cs cs1 : Conc) (hh : cs1.st.heap = cs.st.heap)
    (ht : cs1.threads = cs.threads) (hl : Link a b cs) : Link a b cs1 := by
  unfold Link at hl ⊢
  rw [hh, ht]
  exact hl

theorem onceFlag_append_new_iff (h : List cancelCtx) (parent : Context) (d : Option Int)
    (i : Nat) :
    onceFlag (h ++ [cancelCtx.new parent d]) i = some true ↔ onceFlag h i = some true := by
  unfold onceFlag
  rcases Nat.lt_trichotomy i h.length with hlt | heq | hgt
  · rw [List.getElem?_append_left hlt]
  · subst heq
    rw [List.getElem?_append_right (Nat.le_refl _), List.getElem?_eq_none (Nat.le_refl _)]
    simp [cancelCtx.new]
  · rw [List.getElem?_eq_none (by simp; omega), List.getElem?_eq_none (by omega)]

theorem kids_append (h : List cancelCtx) (n : cancelCtx) (a b : Nat) (hk : b ∈ kids h a) :
    b ∈ kids (h ++ [n]) a := by
  unfold kids at hk ⊢
  cases hn : h[a]? with
  | none => rw [hn] at hk; cases hk
  | some m =>
    rw [List.getElem?_append_left (List.getElem?_eq_some.1 hn).1, hn]
    rw [hn] at hk
    exact hk

theorem propagate_kids_mono (s s1 : State) (parent : Context) (child : Nat)
    (hr : propagateCancel s parent child = some s1) (a b : Nat) (hk : b ∈ kids s.heap a) :
    b ∈ kids s1.heap a := by
  unfold propagateCancel at hr
  cases parent with
  | cancelCtx p q =>
    simp only at hr
    unfold addChild at hr
    cases hn : s.heap[p]? with
    | none => rw [hn] at hr; simp at hr
    | some n =>
      rw [hn] at hr
      simp only [Option.some.injEq] at hr
      subst hr
      unfold kids at hk ⊢
      by_cases hpa : p = a
      · subst hpa
        rw [hn] at hk
        rw [List.getElem?_set, if_pos rfl, if_pos (List.getElem?_eq_some.1 hn).1]
        simp only
        split
        · exact hk
        · exact List.mem_append_left _ hk
      · rw [List.getElem?_set_ne hpa]
        exact hk
  | nil => simp only [Option.some.injEq] at hr; subst hr; exact hk
  | emptyCtx => simp only [Option.some.injEq] at hr; subst hr; exact hk
  | timerCtx _ _ _ => simp only [Option.some.injEq] at hr; subst hr; exact hk
  | valCtx _ _ _ => simp only [Option.some.injEq] at hr; subst hr; exact hk

theorem alloc_link (a b : Nat) (cs : Conc) (s1 : State) (parent : Context) (d : Option Int)
    (hr : propagateCancel { cs.st with heap := cs.st.heap ++ [cancelCtx.new parent d] } parent
      cs.st.heap.length = some s1) (hl : Link a b cs) : Link a b ⟨s1, cs.threads⟩ := by
  obtain ⟨_, hon, _⟩ := propagate_flags _ s1 parent _ hr
  refine link_mono a b cs _ (fun hk => propagate_kids_mono _ s1 parent _ hr a b
    (kids_append _ _ a b hk)) ?_ (fun _ hs => Or.inl hs) hl
  intro i
  show onceFlag s1.heap i = some true ↔ _
  rw [hon i]
  exact onceFlag_append_new_iff _ _ _ i

theorem link_update (a b : Nat) (cs cs1 : Conc) (t : Nat) (old new : List Frame)
    (ht : cs.threads[t]? = some old) (hths : cs1.threads = cs.threads.set t new)
    (hk : b ∈ kids cs.st.heap a → b ∈ kids cs1.st.heap a)
    (hob : onceFlag cs.st.heap b = some true → onceFlag cs1.st.heap b = some true)
    (hoa : stackOK cs.st.heap a b none old → onceFlag cs1.st.heap a = some true →
      onceFlag cs.st.heap a = some true ∨ onceFlag cs1.st.heap b = some true)
    (hnew : stackOK cs.st.heap a b none old → stackOK cs1.st.heap a b none new)
    (hl : Link a b cs) : Link a b cs1 := by
  obtain ⟨h1, h2, h3⟩ := hl
  have hold := h3 old (List.getElem?_mem ht)
  refine ⟨hk h1, fun hx => ?_, fun stk hstk => ?_⟩
  · rcases hoa hold hx with hy | hy
    · exact hob (h2 hy)
    · exact hy
  · rw [hths] at hstk
    rcases List.mem_or_eq_of_mem_set hstk with hs | rfl
    · exact stackOK_heap _ _ a b hob stk none (h3 stk hs)
    · exact hnew hold

theorem stepThread_link (a b : Nat) (cs cs1 : Conc) (t : Nat) (hl : Link a b cs)
    (hs : stepThread cs t = some cs1) : Link a b cs1 := by
  unfold stepThread at hs
  split at hs
  · simp at hs
  · simp at hs
  · rename_i f rest hth
    split at hs
    · simp at hs
    · rename_i n hn
      have hon : onceFlag cs.st.heap f.node = some n.once := by simp [onceFlag, hn]
      split at hs
      · -- at `once.Do`
        rename_i hpc
        split at hs
        · rename_i honce
          simp only [Option.some.injEq] at hs
          subst hs
          refine link_update a b cs _ t (f :: rest) rest hth rfl (fun hk => hk)
            (fun ho => ho) (fun _ ho => Or.inl ho) ?_ hl
          intro hold
          refine stackOK_above _ a b (some f.node) none (fun hab => Or.inl ?_) rest hold.2
          simp only [Option.some.injEq] at hab
          rw [← hab, hon, honce]
        · split at hs
          · simp at hs
          · simp only [Option.some.injEq] at hs
            subst hs
            refine link_update a b cs _ t (f :: rest) ({ f with pc := .close } :: rest) hth
              rfl (fun hk => hk) (fun ho => ho) (fun _ ho => Or.inl ho) ?_ hl
            intro hold
            exact ⟨fun _ xs hx => PC.noConfusion hx, hold.2⟩
      · -- `close(c.done)`
        split at hs
        · simp at hs
        · simp only [Option.some.injEq] at hs
          subst hs
          have hof : ∀ (i : Nat), onceFlag (cs.st.heap.set f.node { n with done := true }) i
              = onceFlag cs.st.heap i := by
            intro i
            rw [onceFlag_set _ _ n _ hn]
            split
            · rename_i hfi
              rw [← hfi, hon]
            · rfl
          refine link_update a b cs _ t (f :: rest) ({ f with pc := .store } :: rest) hth
            rfl ?_ (fun ho => by rw [hof]; exact ho) (fun _ ho => Or.inl (by rw [← hof]; exact ho))
            ?_ hl
          · intro hk
            show b ∈ kids (cs.st.heap.set f.node { n with done := true }) a
            rw [kids_set _ _ n { n with done := true } hn rfl]
            exact hk
          · intro hold
            exact ⟨fun _ xs hx => PC.noConfusion hx,
              stackOK_heap _ _ a b (fun ho => by rw [hof]; exact ho) rest _ hold.2⟩
      · -- `c.err = err`
        simp only [Option.some.injEq] at hs
        subst hs
        have hof : ∀ (i : Nat), onceFlag (cs.st.heap.set f.node { n with err := f.err }) i
            = onceFlag cs.st.heap i := by
          intro i
          rw [onceFlag_set _ _ n _ hn]
          split
          · rename_i hfi
            rw [← hfi, hon]
          · rfl
        refine link_update a b cs _ t (f :: rest) ({ f with pc := .loop n.children } :: rest)
          hth rfl ?_ (fun ho => by rw [hof]; exact ho)
          (fun _ ho => Or.inl (by rw [← hof]; exact ho)) ?_ hl
        · intro hk
          show b ∈ kids (cs.st.heap.set f.node { n with err := f.err }) a
          rw [kids_set _ _ n { n with err := f.err } hn rfl]
          exact hk
        · intro hold
          refine ⟨fun hfa xs hx => Or.inl ?_,
            stackOK_heap _ _ a b (fun ho => by rw [hof]; exact ho) rest _ hold.2⟩
          have hxs : n.children = xs := by
            simp only [PC.loop.injEq] at hx
            exact hx
          have hk := hl.1
          unfold kids at hk
          have hfa1 : f.node = a := hfa
          rw [← hfa1, hn] at hk
          rw [← hxs]
          exact hk
      · -- the end of the loop and of `once.Do`
        rename_i hpc
        simp only [Option.some.injEq] at hs
        subst hs
        have hof : ∀ (i : Nat), onceFlag (cs.st.heap.set f.node { n with once := true }) i
            = if f.node = i then some true else onceFlag cs.st.heap i := by
          intro i
          rw [onceFlag_set _ _ n _ hn]
        have hmono : ∀ (i : Nat), onceFlag cs.st.heap i = some true →
            onceFlag (cs.st.heap.set f.node { n with once := true }) i = some true := by
          intro i ho
          rw [hof]
          split
          · rfl
          · exact ho
        refine link_update a b cs _ t (f :: rest) rest hth rfl ?_ (hmono b) ?_ ?_ hl
        · intro hk
          show b ∈ kids (cs.st.heap.set f.node { n with once := true }) a
          rw [kids_set _ _ n { n with once := true } hn rfl]
          exact hk
        · intro hold ho
          by_cases hfa : f.node = a
          · rcases hold.1 hfa [] hpc with hx | hx | hx
            · cases hx
            · exact Or.inr (hmono b hx)
            · cases hx
          · left
            have := hof a
            rw [if_neg hfa] at this
            rw [← this]
            exact ho
        · intro hold
          refine stackOK_above _ a b (some f.node) none (fun hab => Or.inl ?_) rest
            (stackOK_heap _ _ a b (hmono b) rest _ hold.2)
          simp only [Option.some.injEq] at hab
          show onceFlag (cs.st.heap.set f.node { n with once := true }) b = some true
          rw [hof, if_pos hab]
      · -- a call `child.cancel(err)` of the loop
        rename_i x xs hpc
        simp only [Option.some.injEq] at hs
        subst hs
        refine link_update a b cs _ t (f :: rest)
          (⟨x, f.err, .enter⟩ :: { f with pc := .loop xs } :: rest) hth rfl (fun hk => hk)
          (fun ho => ho) (fun _ ho => Or.inl ho) ?_ hl
        intro hold
        refine ⟨fun _ ys hy => PC.noConfusion hy, fun hfa ys hy => ?_, hold.2⟩
        have hys : xs = ys := by
          simp only [PC.loop.injEq] at hy
          exact hy
        subst hys
        rcases hold.1 hfa (x :: xs) hpc with hx | hx | hx
        · rcases List.mem_cons.1 hx with rfl | hx
          · exact Or.inr (Or.inr rfl)
          · exact Or.inl hx
        · exact Or.inr (Or.inl hx)
        · cases hx

theorem pickNext_link (a b : Nat) (cs cs1 : Conc) (t i : Nat) (hl : Link a b cs)
    (hs : pickNext cs t i = some cs1) : Link a b cs1 := by
  obtain ⟨f, rest, xs, x, hth, hpc, hx, hst, hths⟩ := pickNext_shape cs cs1 t i hs
  refine link_update a b cs cs1 t (f :: rest) _ hth hths (fun hk => by rw [hst]; exact hk)
    (fun ho => by rw [hst]; exact ho) (fun _ ho => Or.inl (by rw [← hst]; exact ho)) ?_ hl
  intro hold
  rw [hst]
  refine ⟨fun hfa ys hy => ?_, hold.2⟩
  have hys : x :: xs.eraseIdx i = ys := by
    simp only [PC.loop.injEq] at hy
    exact hy
  subst hys
  rcases hold.1 hfa xs hpc with hb | hb | hb
  · exact Or.inl (mem_pick xs i x b hx hb)
  · exact Or.inr (Or.inl hb)
  · cases hb

theorem cstep_link (a b : Nat) (cs cs1 : Conc) (ev : Ev) (hl : Link a b cs)
    (hs : cstep cs ev = some cs1) : Link a b cs1 := by
  cases ev with
  | stmt t => exact stepThread_link a b cs cs1 t hl hs
  | pick t i => exact pickNext_link a b cs cs1 t i hl hs
  | op o =>
    cases o with
    | WithCancel p =>
      simp only [cstep] at hs
      split at hs
      · simp at hs
      · unfold WithCancel at hs
        split at hs
        · simp at hs
        · cases hr : propagateCancel
              { cs.st with heap := cs.st.heap ++ [cancelCtx.new p none] } p
              cs.st.heap.length with
          | none => simp [hr] at hs
          | some s1 =>
            simp only [hr, Option.map_some', Option.some.injEq] at hs
            subst hs
            exact alloc_link a b cs s1 p none hr hl
    | WithDeadline p d =>
      simp only [cstep] at hs
      split at hs
      · simp at hs
      · unfold WithDeadlineC at hs
        cases hr : propagateCancel
            { cs.st with heap := cs.st.heap ++ [cancelCtx.new p (some d)] } p
            cs.st.heap.length with
        | none => simp [hr] at hs
        | some s1 =>
          simp only [hr, Option.map_some', Option.some.injEq] at hs
          have hbase : Link a b ⟨{ s1 with timers := s1.timers ++ [(cs.st.heap.length, d)] },
              cs.threads⟩ :=
            link_congr a b ⟨s1, cs.threads⟩ _ rfl rfl (alloc_link a b cs s1 p (some d) hr hl)
          split at hs
          · subst hs
            exact link_spawn a b _ _ _ hbase
          · subst hs
            exact hbase
    | WithTimeout p t =>
      simp only [cstep] at hs
      split at hs
      · simp at hs
      · unfold WithDeadlineC at hs
        cases hr : propagateCancel
            { cs.st with heap := cs.st.heap ++ [cancelCtx.new p (some (cs.st.now + t))] } p
            cs.st.heap.length with
        | none => simp [hr] at hs
        | some s1 =>
          simp only [hr, Option.map_some', Option.some.injEq] at hs
          have hbase : Link a b ⟨{ s1 with timers :=
              s1.timers ++ [(cs.st.heap.length, cs.st.now + t)] }, cs.threads⟩ :=
            link_congr a b ⟨s1, cs.threads⟩ _ rfl rfl (alloc_link a b cs s1 p _ hr hl)
          split at hs
          · subst hs
            exact link_spawn a b _ _ _ hbase
          · subst hs
            exact hbase
    | WithValue p k v =>
      simp only [cstep] at hs
      cases hv : WithValue p k v with
      | none => simp [hv] at hs
      | some r =>
        simp only [hv, Option.map_some', Option.some.injEq] at hs
        subst hs
        exact hl
    | CancelFunc c =>
      simp only [cstep] at hs
      split at hs
      · simp only [Option.some.injEq] at hs
        subst hs
        exact link_spawn a b _ _ _ hl
      · simp at hs
    | timerFire i =>
      simp only [cstep] at hs
      split at hs
      · simp at hs
      · split at hs
        · simp only [Option.some.injEq] at hs
          subst hs
          exact link_spawn a b _ _ _ (link_congr a b cs _ rfl rfl hl)
        · simp at hs
    | monitorParent i =>
      simp only [cstep] at hs
      split at hs
      · simp at hs
      · split at hs
        · simp at hs
        · split at hs
          · split at hs
            · simp at hs
            · simp only [Option.some.injEq] at hs
              subst hs
              exact link_spawn a b _ _ _ (link_congr a b cs _ rfl rfl hl)
          · simp at hs
    | monitorChild i =>
      simp only [cstep] at hs
      cases hm : monitorChild cs.st i with
      | none => simp [hm] at hs
      | some s1 =>
        simp only [hm, Option.map_some', Option.some.injEq] at hs
        subst hs
        refine link_congr a b cs _ ?_ rfl hl
        unfold monitorChild at hm
        split at hm
        · simp at hm
        · split at hm
          · simp at hm
          · split at hm
            · simp only [Option.some.injEq] at hm
              subst hm
              rfl
            · simp at hm
    | tick d =>
      simp only [cstep, Option.some.injEq] at hs
      subst hs
      exact link_congr a b cs _ rfl rfl hl

theorem link_of_crun (a b : Nat) :
    ∀ (evs : List Ev) (cs cs1 : Conc), Link a b cs → crun cs evs = some cs1 →
      Link a b cs1 := by
  intro evs
  induction evs with
  | nil =>
    intro cs cs1 hl hr
    simp only [crun, Option.some.injEq] at hr
    subst hr
    exact hl
  | cons ev evs ih =>
    intro cs cs1 hl hr
    simp only [crun] at hr
    split at hr
    · split at hr
      · simp at hr
      · rename_i cs2 hstep
        exact ih cs2 cs1 (cstep_link a b cs cs2 ev hl hstep) hr
    · simp at hr

/-- Under every schedule: when `once` has run on the first node of a path through the
maps `children` whose nodes all had `done` open in an earlier state, it has run on every
node of the path. -/
theorem once_along_path (cs cs1 : Conc) (hinv : CInv cs) (evs : List Ev)
    (hrun : crun cs evs = some cs1) :
    ∀ (path : List Nat) (c : Nat), List.Chain (fun a b => b ∈ kids cs.st.heap a) c path →
      (∀ a ∈ c :: path, doneAt cs.st.heap a = some false) →
      onceFlag cs1.st.heap c = some true →
      ∀ a ∈ c :: path, onceFlag cs1.st.heap a = some true := by
  intro path
  induction path with
  | nil =>
    intro c _ _ hc a ha
    simp only [List.mem_singleton] at ha
    subst ha
    exact hc
  | cons b path ih =>
    intro c hch hlive hc a ha
    rcases List.mem_cons.1 ha with rfl | ha
    · exact hc
    · have hcb := List.chain_cons.1 hch
      have hl := link_of_crun c b evs cs cs1
        (link_init cs hinv c b hcb.1 (hlive c (List.mem_cons_self _ _))) hrun
      exact ih b hcb.2 (fun x hx => hlive x (List.mem_cons_of_mem _ hx)) (hl.2.1 hc) a ha

/-! ## What one event can change -/

/-- What one statement of a thread can change. -/
theorem stepThread_shape (cs cs1 : Conc) (t : Nat) (hs : stepThread cs t = some cs1) :
    ∃ (f : Frame) (rest : List Frame) (n : cancelCtx) (new : List Frame),
      cs.threads[t]? = some (f :: rest) ∧ cs.st.heap[f.node]? = some n ∧
      cs1.threads = cs.threads.set t new ∧
      (f.pc.inBody = false → cs1.st = cs.st) ∧
      (∀ (i : Nat), i ≠ f.node → cs1.st.heap[i]? = cs.st.heap[i]?) ∧
      (∀ (i : Nat), onceFlag cs.st.heap i = some true →
        onceFlag cs1.st.heap i = some true) ∧
      ((new = rest ∧ onceFlag cs1.st.heap f.node = some true) ∨
        (∃ pc1, new = ⟨f.node, f.err, pc1⟩ :: rest ∧
          (pc1.inBody = true → f.pc.inBody = true ∨ n.once = false)) ∨
        (∃ x pc1, new = ⟨x, f.err, .enter⟩ :: ⟨f.node, f.err, pc1⟩ :: rest ∧
          f.pc.inBody = true)) := by
  unfold stepThread at hs
  split at hs
  · simp at hs
  · simp at hs
  · rename_i f rest hth
    split at hs
    · simp at hs
    · rename_i n hn
      have hon : onceFlag cs.st.heap f.node = some n.once := by simp [onceFlag, hn]
      have hne : ∀ (m : cancelCtx) (i : Nat), i ≠ f.node →
          (cs.st.heap.set f.node m)[i]? = cs.st.heap[i]? :=
        fun m i hi => List.getElem?_set_ne (Ne.symm hi)
      have hmono : ∀ (m : cancelCtx), (n.once = true → m.once = true) → ∀ (i : Nat),
          onceFlag cs.st.heap i = some true →
          onceFlag (cs.st.heap.set f.node m) i = some true := by
        intro m hm i ho
        rw [onceFlag_set _ _ n _ hn]
        split
        · rename_i hfi
          rw [← hfi, hon] at ho
          rw [hm (Option.some.inj ho)]
        · exact ho
      split at hs
      · rename_i hpc
        split at hs
        · rename_i honce
          simp only [Option.some.injEq] at hs
          subst hs
          exact ⟨f, rest, n, rest, hth, hn, rfl, fun _ => rfl, fun _ _ => rfl,
            fun _ ho => ho, Or.inl ⟨rfl, by rw [hon, honce]⟩⟩
        · rename_i honce
          split at hs
          · simp at hs
          · simp only [Option.some.injEq] at hs
            subst hs
            exact ⟨f, rest, n, _, hth, hn, rfl, fun _ => rfl, fun _ _ => rfl,
              fun _ ho => ho, Or.inr (Or.inl ⟨.close, rfl, fun _ => Or.inr (by
                cases ho : n.once with
                | false => rfl
                | true => exact absurd ho honce)⟩)⟩
      · rename_i hpc
        split at hs
        · simp at hs
        · simp only [Option.some.injEq] at hs
          subst hs
          exact ⟨f, rest, n, _, hth, hn, rfl, (fun hb => by rw [hpc] at hb; cases hb),
            hne _, hmono _ (fun ho => ho),
            Or.inr (Or.inl ⟨.store, rfl, fun _ => Or.inl (by rw [hpc]; rfl)⟩)⟩
      · rename_i hpc
        simp only [Option.some.injEq] at hs
        subst hs
        exact ⟨f, rest, n, _, hth, hn, rfl, (fun hb => by rw [hpc] at hb; cases hb),
          hne _, hmono _ (fun ho => ho),
          Or.inr (Or.inl ⟨.loop n.children, rfl, fun _ => Or.inl (by rw [hpc]; rfl)⟩)⟩
      · rename_i hpc
        simp only [Option.some.injEq] at hs
        subst hs
        refine ⟨f, rest, n, rest, hth, hn, rfl, (fun hb => by rw [hpc] at hb; cases hb),
          hne _, hmono _ (fun _ => rfl), Or.inl ⟨rfl, ?_⟩⟩
        show onceFlag (cs.st.heap.set f.node { n with once := true }) f.node = some true
        rw [onceFlag_set _ _ n _ hn, if_pos rfl]
      · rename_i x xs hpc
        simp only [Option.some.injEq] at hs
        subst hs
        exact ⟨f, rest, n, _, hth, hn, rfl, (fun hb => by simp [hpc, PC.inBody] at hb),
          fun _ _ => rfl, fun _ ho => ho,
          Or.inr (Or.inr ⟨x, .loop xs, rfl, by simp [hpc, PC.inBody]⟩)⟩

/-- What an operation of the program or of the runtime can change: the flags and the
cause of the structs that exist stay as they are, the maps `children` only grow, and at
most a new call of `cancel` starts. -/
theorem cstep_op_shape (cs cs1 : Conc) (o : Op) (hs : cstep cs (.op o) = some cs1) :
    (∀ (i : Nat), i < cs.st.heap.length →
      onceFlag cs1.st.heap i = onceFlag cs.st.heap i ∧
      doneAt cs1.st.heap i = doneAt cs.st.heap i ∧ errAt cs1.st.heap i = errAt cs.st.heap i) ∧
    (∀ (a b : Nat), b ∈ kids cs.st.heap a → b ∈ kids cs1.st.heap a) ∧
    (cs1.threads = cs.threads ∨ ∃ c e, cs1.threads = cs.threads ++ [[⟨c, e, .enter⟩]]) := by
  have hsame : ∀ (cs2 : Conc), cs2.st.heap = cs.st.heap →
      (cs2.threads = cs.threads ∨ ∃ c e, cs2.threads = cs.threads ++ [[⟨c, e, .enter⟩]]) →
      (∀ (i : Nat), i < cs.st.heap.length →
        onceFlag cs2.st.heap i = onceFlag cs.st.heap i ∧
        doneAt cs2.st.heap i = doneAt cs.st.heap i ∧
        errAt cs2.st.heap i = errAt cs.st.heap i) ∧
      (∀ (a b : Nat), b ∈ kids cs.st.heap a → b ∈ kids cs2.st.heap a) ∧
      (cs2.threads = cs.threads ∨
        ∃ c e, cs2.threads = cs.threads ++ [[⟨c, e, .enter⟩]]) := by
    intro cs2 hh ht
    rw [hh]
    exact ⟨fun _ _ => ⟨rfl, rfl, rfl⟩, fun _ _ hk => hk, ht⟩
  have halloc : ∀ (s1 : State) (parent : Context) (d : Option Int),
      propagateCancel { cs.st with heap := cs.st.heap ++ [cancelCtx.new parent d] } parent
        cs.st.heap.length = some s1 →
      (∀ (i : Nat), i < cs.st.heap.length →
        onceFlag s1.heap i = onceFlag cs.st.heap i ∧
        doneAt s1.heap i = doneAt cs.st.heap i ∧ errAt s1.heap i = errAt cs.st.heap i) ∧
      (∀ (a b : Nat), b ∈ kids cs.st.heap a → b ∈ kids s1.heap a) := by
    intro s1 parent d hr
    obtain ⟨hdn, hon, her, _⟩ := propagate_flags _ s1 parent _ hr
    refine ⟨fun i hi => ⟨?_, ?_, ?_⟩, fun a b hk =>
      propagate_kids_mono _ s1 parent _ hr a b (kids_append _ _ a b hk)⟩
    · rw [hon i]
      show onceFlag (cs.st.heap ++ _) i = _
      unfold onceFlag
      rw [List.getElem?_append_left hi]
    · rw [hdn i]
      show doneAt (cs.st.heap ++ _) i = _
      unfold doneAt
      rw [List.getElem?_append_left hi]
    · rw [her i]
      show errAt (cs.st.heap ++ _) i = _
      unfold errAt
      rw [List.getElem?_append_left hi]
  cases o with
  | WithCancel p =>
    simp only [cstep] at hs
    split at hs
    · simp at hs
    · unfold WithCancel at hs
      split at hs
      · simp at hs
      · cases hr : propagateCancel
            { cs.st with heap := cs.st.heap ++ [cancelCtx.new p none] } p
            cs.st.heap.length with
        | none => simp [hr] at hs
        | some s1 =>
          simp only [hr, Option.map_some', Option.some.injEq] at hs
          subst hs
          exact ⟨(halloc s1 p none hr).1, (halloc s1 p none hr).2, Or.inl rfl⟩
  | WithDeadline p d =>
    simp only [cstep] at hs
    split at hs
    · simp at hs
    · unfold WithDeadlineC at hs
      cases hr : propagateCancel
          { cs.st with heap := cs.st.heap ++ [cancelCtx.new p (some d)] } p
          cs.st.heap.length with
      | none => simp [hr] at hs
      | some s1 =>
        simp only [hr, Option.map_some', Option.some.injEq] at hs
        split at hs
        · subst hs
          exact ⟨(halloc s1 p _ hr).1, (halloc s1 p _ hr).2, Or.inr ⟨_, _, rfl⟩⟩
        · subst hs
          exact ⟨(halloc s1 p _ hr).1, (halloc s1 p _ hr).2, Or.inl rfl⟩
  | WithTimeout p t =>
    simp only [cstep] at hs
    split at hs
    · simp at hs
    · unfold WithDeadlineC at hs
      cases hr : propagateCancel
          { cs.st with heap := cs.st.heap ++ [cancelCtx.new p (some (cs.st.now + t))] } p
          cs.st.heap.length with
      | none => simp [hr] at hs
      | some s1 =>
        simp only [hr, Option.map_some', Option.some.injEq] at hs
        split at hs
        · subst hs
          exact ⟨(halloc s1 p _ hr).1, (halloc s1 p _ hr).2, Or.inr ⟨_, _, rfl⟩⟩
        · subst hs
          exact ⟨(halloc s1 p _ hr).1, (halloc s1 p _ hr).2, Or.inl rfl⟩
  | WithValue p k v =>
    simp only [cstep] at hs
    cases hv : WithValue p k v with
    | none => simp [hv] at hs
    | some r =>
      simp only [hv, Option.map_some', Option.some.injEq] at hs
      subst hs
      exact hsame cs rfl (Or.inl rfl)
  | CancelFunc c =>
    simp only [cstep] at hs
    split at hs
    · simp only [Option.some.injEq] at hs
      subst hs
      exact hsame _ rfl (Or.inr ⟨_, _, rfl⟩)
    · simp at hs
  | timerFire i =>
    simp only [cstep] at hs
    split at hs
    · simp at hs
    · split at hs
      · simp only [Option.some.injEq] at hs
        subst hs
        exact hsame _ rfl (Or.inr ⟨_, _, rfl⟩)
      · simp at hs
  | monitorParent i =>
    simp only [cstep] at hs
    split at hs
    · simp at hs
    · split at hs
      · simp at hs
      · split at hs
        · split at hs
          · simp at hs
          · simp only [Option.some.injEq] at hs
            subst hs
            exact hsame _ rfl (Or.inr ⟨_, _, rfl⟩)
        · simp at hs
  | monitorChild i =>
    simp only [cstep] at hs
    cases hm : monitorChild cs.st i with
    | none => simp [hm] at hs
    | some s1 =>
      simp only [hm, Option.map_some', Option.some.injEq] at hs
      subst hs
      refine hsame _ ?_ (Or.inl rfl)
      unfold monitorChild at hm
      split at hm
      · simp at hm
      · split at hm
        · simp at hm
        · split at hm
          · simp only [Option.some.injEq] at hm
            subst hm
            rfl
          · simp at hm
  | tick d =>
    simp only [cstep, Option.some.injEq] at hs
    subst hs
    exact hsame _ rfl (Or.inl rfl)

theorem busy_eq_false_iff (ths : List (List Frame)) (c : Nat) :
    busy ths c = false ↔ ∀ g, inThreads ths g → g.node = c → g.pc.inBody = false := by
  unfold busy
  constructor
  · intro hb g hg hgc
    obtain ⟨stk, hstk, hgs⟩ := hg
    cases hib : g.pc.inBody with
    | false => rfl
    | true =>
      exfalso
      rw [Bool.eq_false_iff] at hb
      apply hb
      rw [List.any_eq_true]
      refine ⟨stk, hstk, ?_⟩
      rw [List.any_eq_true]
      exact ⟨g, hgs, by simp [hgc, hib]⟩
  · intro hall
    rw [Bool.eq_false_iff]
    intro hb
    rw [List.any_eq_true] at hb
    obtain ⟨stk, hstk, hb⟩ := hb
    rw [List.any_eq_true] at hb
    obtain ⟨g, hgs, hb⟩ := hb
    simp only [Bool.and_eq_true, decide_eq_true_eq] at hb
    rw [hall g ⟨stk, hstk, hgs⟩ hb.1] at hb
    exact Bool.false_ne_true hb.2

theorem called_spawn (cs : Conc) (c : Nat) (e : Option error) :
    Called cs.threads.length c (spawn cs c e) := by
  refine ⟨[⟨c, e, .enter⟩], ?_, (fun h => by cases h), fun f hf => ?_⟩
  · show (cs.threads ++ [[⟨c, e, .enter⟩]])[cs.threads.length]? = _
    rw [List.getElem?_append_right (Nat.le_refl _)]
    simp
  · simp only [List.getLast?_singleton, Option.some.injEq] at hf
    rw [← hf]

theorem called_step (t c : Nat) (cs cs1 : Conc) (ev : Ev) (hc : Called t c cs)
    (hs : cstep cs ev = some cs1) : Called t c cs1 := by
  obtain ⟨stk, hstk, hempty, hlast⟩ := hc
  have hlen : ∀ {h : List cancelCtx} {i : Nat}, onceFlag h i = some true → i < h.length := by
    intro h i ho
    unfold onceFlag at ho
    cases hn : h[i]? with
    | none => rw [hn] at ho; simp at ho
    | some n => exact (List.getElem?_eq_some.1 hn).1
  cases ev with
  | op o =>
    obtain ⟨hflags, _, hths⟩ := cstep_op_shape cs cs1 o hs
    refine ⟨stk, ?_, fun h => ?_, hlast⟩
    · rcases hths with hths | ⟨x, e, hths⟩
      · rw [hths]; exact hstk
      · rw [hths, List.getElem?_append_left (List.getElem?_eq_some.1 hstk).1]
        exact hstk
    · have ho := hempty h
      rw [(hflags c (hlen ho)).1]
      exact ho
  | stmt t1 =>
    obtain ⟨f, rest, n, new, hth, _, hths, _, _, hmono, hcases⟩ :=
      stepThread_shape cs cs1 t1 hs
    by_cases h1 : t1 = t
    · subst h1
      rw [hth] at hstk
      simp only [Option.some.injEq] at hstk
      subst hstk
      have hset : cs1.threads[t1]? = some new := by
        rw [hths, List.getElem?_set, if_pos rfl, if_pos (List.getElem?_eq_some.1 hth).1]
      refine ⟨new, hset, ?_⟩
      rcases hcases with ⟨rfl, honce⟩ | ⟨pc1, rfl, _⟩ | ⟨x, pc1, rfl, _⟩
      · refine ⟨fun h => ?_, fun g hg => ?_⟩
        · subst h
          rw [← hlast f (by simp)]
          exact honce
        · cases new with
          | nil => simp at hg
          | cons r rs => exact hlast g (by rw [List.getLast?_cons_cons]; exact hg)
      · refine ⟨(fun h => by cases h), fun g hg => ?_⟩
        cases rest with
        | nil =>
          simp only [List.getLast?_singleton, Option.some.injEq] at hg
          rw [← hg]
          exact hlast f (by simp)
        | cons r rs =>
          rw [List.getLast?_cons_cons] at hg
          exact hlast g (by rw [List.getLast?_cons_cons]; exact hg)
      · refine ⟨(fun h => by cases h), fun g hg => ?_⟩
        rw [List.getLast?_cons_cons] at hg
        cases rest with
        | nil =>
          simp only [List.getLast?_singleton, Option.some.injEq] at hg
          rw [← hg]
          exact hlast f (by simp)
        | cons r rs =>
          rw [List.getLast?_cons_cons] at hg
          exact hlast g (by rw [List.getLast?_cons_cons]; exact hg)
    · refine ⟨stk, ?_, fun h => hmono c (hempty h), hlast⟩
      rw [hths, List.getElem?_set_ne h1]
      exact hstk
  | pick t1 i =>
    obtain ⟨f, rest, xs, x, hth, _, _, hst, hths⟩ := pickNext_shape cs cs1 t1 i hs
    by_cases h1 : t1 = t
    · subst h1
      rw [hth] at hstk
      simp only [Option.some.injEq] at hstk
      subst hstk
      refine ⟨_, by rw [hths, List.getElem?_set, if_pos rfl,
        if_pos (List.getElem?_eq_some.1 hth).1], (fun h => by cases h), fun g hg => ?_⟩
      cases rest with
      | nil =>
        simp only [List.getLast?_singleton, Option.some.injEq] at hg
        rw [← hg]
        exact hlast f (by simp)
      | cons r rs =>
        rw [List.getLast?_cons_cons] at hg
        exact hlast g (by rw [List.getLast?_cons_cons]; exact hg)
    · refine ⟨stk, ?_, fun h => by rw [hst]; exact hempty h, hlast⟩
      rw [hths, List.getElem?_set_ne h1]
      exact hstk

theorem called_of_crun (t c : Nat) :
    ∀ (evs : List Ev) (cs cs1 : Conc), Called t c cs → crun cs evs = some cs1 →
      Called t c cs1 := by
  intro evs
  induction evs with
  | nil =>
    intro cs cs1 hl hr
    simp only [crun, Option.some.injEq] at hr
    subst hr
    exact hl
  | cons ev evs ih =>
    intro cs cs1 hl hr
    simp only [crun] at hr
    split at hr
    · split at hr
      · simp at hr
      · rename_i cs2 hstep
        exact ih cs2 cs1 (called_step t c cs cs2 ev hl hstep) hr
    · simp at hr

theorem settled_step (p : Nat) (e : Option error) (cs cs1 : Conc) (ev : Ev)
    (hc : Settled p e cs) (hs : cstep cs ev = some cs1) : Settled p e cs1 := by
  obtain ⟨ho, hd, he, hb⟩ := hc
  have hplen : p < cs.st.heap.length := by
    unfold onceFlag at ho
    cases hn : cs.st.heap[p]? with
    | none => rw [hn] at ho; simp at ho
    | some n => exact (List.getElem?_eq_some.1 hn).1
  rw [busy_eq_false_iff] at hb
  cases ev with
  | op o =>
    obtain ⟨hflags, _, hths⟩ := cstep_op_shape cs cs1 o hs
    obtain ⟨h1, h2, h3⟩ := hflags p hplen
    refine ⟨by rw [h1]; exact ho, by rw [h2]; exact hd, by rw [h3]; exact he, ?_⟩
    rw [busy_eq_false_iff]
    intro g hg hgp
    rcases hths with hths | ⟨x, e1, hths⟩
    · rw [hths] at hg
      exact hb g hg hgp
    · rw [hths] at hg
      rcases inThreads_append.1 hg with hg | rfl
      · exact hb g hg hgp
      · rfl
  | stmt t =>
    obtain ⟨f, rest, n, new, hth, hn, hths, hsame, hne, _, hcases⟩ :=
      stepThread_shape cs cs1 t hs
    have hfin : inThreads cs.threads f := ⟨f :: rest, List.getElem?_mem hth, by simp⟩
    have hrest : ∀ g ∈ rest, inThreads cs.threads g := fun g hg =>
      ⟨f :: rest, List.getElem?_mem hth, List.mem_cons_of_mem _ hg⟩
    have hcell : cs1.st.heap[p]? = cs.st.heap[p]? := by
      by_cases hfp : f.node = p
      · rw [hsame (hb f hfin hfp)]
      · exact hne p (Ne.symm hfp)
    refine ⟨by unfold onceFlag at ho ⊢; rw [hcell]; exact ho,
      by unfold doneAt at hd ⊢; rw [hcell]; exact hd,
      by unfold errAt at he ⊢; rw [hcell]; exact he, ?_⟩
    rw [busy_eq_false_iff]
    intro g hg hgp
    rw [hths] at hg
    rcases inThreads_of_set hg with hnew | hold
    · have honce : f.node = p → n.once = true := by
        intro hfp
        unfold onceFlag at ho
        rw [← hfp, hn] at ho
        simpa using ho
      rcases hcases with ⟨rfl, _⟩ | ⟨pc1, rfl, hpc1⟩ | ⟨x, pc1, rfl, hfb⟩
      · exact hb g (hrest g hnew) hgp
      · rcases List.mem_cons.1 hnew with rfl | hnew
        · cases hib : pc1.inBody with
          | false => rfl
          | true =>
            exfalso
            rcases hpc1 hib with h1 | h1
            · rw [hb f hfin hgp] at h1
              cases h1
            · rw [honce hgp] at h1
              cases h1
        · exact hb g (hrest g hnew) hgp
      · rcases List.mem_cons.1 hnew with rfl | hnew
        · rfl
        · rcases List.mem_cons.1 hnew with rfl | hnew
          · exfalso
            rw [hb f hfin hgp] at hfb
            cases hfb
          · exact hb g (hrest g hnew) hgp
    · exact hb g hold hgp
  | pick t i =>
    obtain ⟨f, rest, xs, x, hth, hpc, _, hst, hths⟩ := pickNext_shape cs cs1 t i hs
    have hfin : inThreads cs.threads f := ⟨f :: rest, List.getElem?_mem hth, by simp⟩
    have hrest : ∀ g ∈ rest, inThreads cs.threads g := fun g hg =>
      ⟨f :: rest, List.getElem?_mem hth, List.mem_cons_of_mem _ hg⟩
    refine ⟨by rw [hst]; exact ho, by rw [hst]; exact hd, by rw [hst]; exact he, ?_⟩
    rw [busy_eq_false_iff]
    intro g hg hgp
    rw [hths] at hg
    rcases inThreads_of_set hg with hnew | hold
    · rcases List.mem_cons.1 hnew with rfl | hnew
      · exfalso
        have := hb f hfin hgp
        rw [hpc] at this
        simp [PC.inBody] at this
      · exact hb g (hrest g hnew) hgp
    · exact hb g hold hgp

theorem settled_of_crun (p : Nat) (e : Option error) :
    ∀ (evs : List Ev) (cs cs1 : Conc), Settled p e cs → crun cs evs = some cs1 →
      Settled p e cs1 := by
  intro evs
  induction evs with
  | nil =>
    intro cs cs1 hl hr
    simp only [crun, Option.some.injEq] at hr
    subst hr
    exact hl
  | cons ev evs ih =>
    intro cs cs1 hl hr
    simp only [crun] at hr
    split at hr
    · split at hr
      · simp at hr
      · rename_i cs2 hstep
        exact ih cs2 cs1 (settled_step p e cs cs2 ev hl hstep) hr
    · simp at hr

/-! ## Late registration in a running program -/

theorem locked_false_of_busy (ths : List (List Frame)) (c : Nat) (hb : busy ths c = false) :
    locked ths c = false := by
  rw [busy_eq_false_iff] at hb
  unfold locked
  rw [Bool.eq_false_iff]
  intro hl
  rw [List.any_eq_true] at hl
  obtain ⟨stk, hstk, hl⟩ := hl
  rw [List.any_eq_true] at hl
  obtain ⟨g, hgs, hl⟩ := hl
  simp only [Bool.and_eq_true, decide_eq_true_eq] at hl
  have hib := hb g ⟨stk, hstk, hgs⟩ hl.1
  cases hpc : g.pc with
  | enter => rw [hpc] at hl; simp [PC.holdsMu] at hl
  | close => rw [hpc] at hl; simp [PC.holdsMu] at hl
  | store => rw [hpc] at hl; simp [PC.holdsMu] at hl
  | loop xs => rw [hpc] at hib; simp [PC.inBody] at hib

/-- The monitoring goroutine of a child of a struct whose `cancel` is over: whenever it
runs, `parent.Done()` is closed and it calls `child.cancel(e)` with the cause `e` that the
parent holds. -/
theorem monitor_forwards (cs : Conc) (p : Nat) (q : Context) (e : Option error)
    (child i : Nat) (hset : Settled p e cs)
    (hg : cs.st.goroutines[i]? = some (.cancelCtx p q, child)) :
    cstep cs (.op (.monitorParent i))
      = some (spawn { cs with st := { cs.st with goroutines := cs.st.goroutines.eraseIdx i } }
          child e) := by
  obtain ⟨_, hd, he, _⟩ := hset
  unfold doneAt at hd
  unfold errAt at he
  cases hn : cs.st.heap[p]? with
  | none => rw [hn] at hd; simp at hd
  | some n =>
    rw [hn] at hd he
    simp only [Option.map_some', Option.some.injEq] at hd he
    simp only [cstep, hg, Context.Done, fired, hn, hd, if_true, Context.Err, Option.map_some',
      he]

/-- While `done` of the child is open, its monitoring goroutine cannot take the case
`<-child.Done()`. -/
theorem monitor_waits (cs : Conc) (parent : Context) (child i : Nat)
    (hg : cs.st.goroutines[i]? = some (parent, child))
    (hd : doneAt cs.st.heap child = some false) :
    cstep cs (.op (.monitorChild i)) = none := by
  unfold doneAt at hd
  cases hn : cs.st.heap[child]? with
  | none => rw [hn] at hd; simp at hd
  | some n =>
    rw [hn] at hd
    simp only [Option.map_some', Option.some.injEq] at hd
    simp only [cstep, monitorChild, hg, fired, hn, hd]
    cases parent.Done <;> simp

/-- The state of a running program after a child was allocated and registered with the
`cancelCtx` at `p` whose `cancel` is over with cause `e`. -/
theorem late_child (cs : Conc) (hinv : CInv cs) (p : Nat) (q : Context) (e : Option error)
    (hiss : issued cs.st.heap (.cancelCtx p q) = true) (hset : Settled p e cs)
    (dl : Option Int) (tm : List (Nat × Int)) (n : cancelCtx)
    (hn : cs.st.heap[p]? = some n) (cs1 : Conc)
    (hcs1 : cs1 = ⟨⟨(cs.st.heap ++ [cancelCtx.new (.cancelCtx p q) dl]).set p
          { n with children := n.children ++ [cs.st.heap.length] },
        cs.st.goroutines ++ [(.cancelCtx p q, cs.st.heap.length)], tm, cs.st.now⟩,
      cs.threads⟩) :
    cs.st.heap.length ∈ kids cs1.st.heap p ∧
      doneAt cs1.st.heap cs.st.heap.length = some false ∧
      errAt cs1.st.heap cs.st.heap.length = some none ∧
      (∀ (evs : List Ev) (cs2 : Conc) (i : Nat), crun cs1 evs = some cs2 →
        cs2.st.goroutines[i]? = some (.cancelCtx p q, cs.st.heap.length) →
        cstep cs2 (.op (.monitorParent i))
          = some (spawn
              { cs2 with st := { cs2.st with goroutines := cs2.st.goroutines.eraseIdx i } }
              cs.st.heap.length e) ∧
        (doneAt cs2.st.heap cs.st.heap.length = some false →
          cstep cs2 (.op (.monitorChild i)) = none)) ∧
      (atRest cs = true →
        ∃ cs2 cs3, cstep cs1 (.op (.monitorParent cs.st.goroutines.length)) = some cs2 ∧
          RunsTo cs2 cs.threads.length cs3 ∧ atRest cs3 = true ∧
          doneAt cs3.st.heap cs.st.heap.length = some true ∧
          errAt cs3.st.heap cs.st.heap.length = some e) := by
  have hp : p < cs.st.heap.length := (List.getElem?_eq_some.1 hn).1
  have hnot : cs.st.heap.length ∉ n.children := by
    intro hmem
    have := (hinv.1.2.1 p n hn _ hmem).2
    omega
  have hr := propagateCancel_cancelCtx cs.st p q dl n hn hnot
  have hinv0 := alloc_CInv cs _ (.cancelCtx p q) dl hinv
    (issued_ptrs_lt _ _ hiss) hr
  have hinv1 : CInv cs1 := by
    rw [hcs1]
    exact CInv_congr _ _ rfl rfl hinv0
  have hcellp : cs1.st.heap[p]? =
      some { n with children := n.children ++ [cs.st.heap.length] } := by
    rw [hcs1]
    show ((cs.st.heap ++ _).set p _)[p]? = _
    rw [List.getElem?_set, if_pos rfl, if_pos (by simp; omega)]
  have hcellc : cs1.st.heap[cs.st.heap.length]? =
      some (cancelCtx.new (.cancelCtx p q) dl) := by
    rw [hcs1]
    show ((cs.st.heap ++ _).set p _)[cs.st.heap.length]? = _
    rw [List.getElem?_set_ne (by omega), List.getElem?_append_right (Nat.le_refl _)]
    simp
  have hset1 : Settled p e cs1 := by
    obtain ⟨ho, hd, he, hb⟩ := hset
    unfold onceFlag at ho
    unfold doneAt at hd
    unfold errAt at he
    rw [hn] at ho hd he
    simp only [Option.map_some', Option.some.injEq] at ho hd he
    refine ⟨by simp [onceFlag, hcellp, ho], by simp [doneAt, hcellp, hd],
      by simp [errAt, hcellp, he], ?_⟩
    rw [hcs1]
    exact hb
  have hdc : doneAt cs1.st.heap cs.st.heap.length = some false := by
    simp [doneAt, hcellc, cancelCtx.new]
  have hmon : ∀ (evs : List Ev) (cs2 : Conc) (i : Nat), crun cs1 evs = some cs2 →
      cs2.st.goroutines[i]? = some (.cancelCtx p q, cs.st.heap.length) →
      cstep cs2 (.op (.monitorParent i))
        = some (spawn
            { cs2 with st := { cs2.st with goroutines := cs2.st.goroutines.eraseIdx i } }
            cs.st.heap.length e) ∧
      (doneAt cs2.st.heap cs.st.heap.length = some false →
        cstep cs2 (.op (.monitorChild i)) = none) :=
    fun evs cs2 i hrun hg =>
      ⟨monitor_forwards cs2 p q e _ i (settled_of_crun p e evs cs1 cs2 hset1 hrun) hg,
        monitor_waits cs2 (.cancelCtx p q) _ i hg⟩
  refine ⟨by simp [kids, hcellp], hdc, by simp [errAt, hcellc, cancelCtx.new], hmon,
    fun hrest => ?_⟩
  have hg : cs1.st.goroutines[cs.st.goroutines.length]? =
      some (.cancelCtx p q, cs.st.heap.length) := by
    rw [hcs1]
    show (cs.st.goroutines ++ _)[cs.st.goroutines.length]? = _
    rw [List.getElem?_append_right (Nat.le_refl _)]
    simp
  have hth1 : cs1.threads = cs.threads := by rw [hcs1]
  have hrest1 : atRest ⟨⟨cs1.st.heap, cs1.st.goroutines.eraseIdx cs.st.goroutines.length,
      cs1.st.timers, cs1.st.now⟩, cs1.threads⟩ = true := by
    unfold atRest at hrest ⊢
    show cs1.threads.all _ = true
    rw [hth1]
    exact hrest
  have hinv2 : CInv ⟨⟨cs1.st.heap, cs1.st.goroutines.eraseIdx cs.st.goroutines.length,
      cs1.st.timers, cs1.st.now⟩, cs1.threads⟩ :=
    CInv_congr cs1 _ rfl rfl hinv1
  obtain ⟨h1, hcan, hrec⟩ := cancel_records_on_open_path cs1.st.heap
    (once_eq_done_at_rest _ hinv2 hrest1) hinv1.1.2.1 e cs.st.heap.length []
    List.Chain.nil (fun a ha => by
      simp only [List.mem_singleton] at ha
      subst ha
      exact hdc)
  obtain ⟨cs3, hrun3, hheap3, hrest3⟩ := cancel_alone _ hinv2 hrest1 cs.st.heap.length e h1
    hcan
  refine ⟨_, cs3, (hmon [] cs1 _ rfl hg).1, ?_, hrest3, ?_, ?_⟩
  · have : cs.threads.length = cs1.threads.length := by rw [hth1]
    rw [this]
    exact hrun3
  · rw [hheap3]
    exact (hrec _ (List.mem_cons_self _ _)).1
  · rw [hheap3]
    exact (hrec _ (List.mem_cons_self _ _)).2

/-- C14 (amended): in a running program, for every cancelable parent whose `cancel` is
over with recorded cause `e`, `WithCancel` on it, and `WithDeadline` on it with a
deadline not yet passed, return; the registration adds the child to the children of
the parent, does not cancel it and starts no call of `cancel`; in every state that any
schedule leads to afterwards, the monitoring goroutine started by the registration, as
long as it has not run, can take the case `<-parent.Done()` and then calls
`child.cancel(e)`, and cannot take the case `<-child.Done()` while `done` of the child
is open; and when no call of `cancel` is in progress and that goroutine and its call
run next with no other event in between, the child ends with `done` closed and `Err()`
equal to `e`. -/
theorem C14_late_child_registered_then_monitored (cs : Conc) (hcs : CReachable cs) (p : Nat)
    (q : Context) (e : Option error) (hp : issued cs.st.heap (.cancelCtx p q) = true)
    (hset : Settled p e cs) :
    (∃ cs1, cstep cs (.op (.WithCancel (.cancelCtx p q))) = some cs1 ∧
      cs1.threads = cs.threads ∧
      cs.st.heap.length ∈ kids cs1.st.heap p ∧
      doneAt cs1.st.heap cs.st.heap.length = some false ∧
      errAt cs1.st.heap cs.st.heap.length = some none ∧
      (∀ (evs : List Ev) (cs2 : Conc) (i : Nat), crun cs1 evs = some cs2 →
        cs2.st.goroutines[i]? = some (.cancelCtx p q, cs.st.heap.length) →
        cstep cs2 (.op (.monitorParent i))
          = some (spawn
              { cs2 with st := { cs2.st with goroutines := cs2.st.goroutines.eraseIdx i } }
              cs.st.heap.length e) ∧
        (doneAt cs2.st.heap cs.st.heap.length = some false →
          cstep cs2 (.op (.monitorChild i)) = none)) ∧
      (atRest cs = true →
        ∃ cs2 cs3, cstep cs1 (.op (.monitorParent cs.st.goroutines.length)) = some cs2 ∧
          RunsTo cs2 cs.threads.length cs3 ∧ atRest cs3 = true ∧
          doneAt cs3.st.heap cs.st.heap.length = some true ∧
          errAt cs3.st.heap cs.st.heap.length = some e)) ∧
    (∀ (d : Int), cs.st.now ≤ d →
      ∃ cs1, cstep cs (.op (.WithDeadline (.cancelCtx p q) d)) = some cs1 ∧
        cs1.threads = cs.threads ∧
        cs.st.heap.length ∈ kids cs1.st.heap p ∧
        doneAt cs1.st.heap cs.st.heap.length = some false ∧
        errAt cs1.st.heap cs.st.heap.length = some none ∧
        (∀ (evs : List Ev) (cs2 : Conc) (i : Nat), crun cs1 evs = some cs2 →
          cs2.st.goroutines[i]? = some (.cancelCtx p q, cs.st.heap.length) →
          cstep cs2 (.op (.monitorParent i))
            = some (spawn
                { cs2 with st := { cs2.st with goroutines := cs2.st.goroutines.eraseIdx i } }
                cs.st.heap.length e) ∧
          (doneAt cs2.st.heap cs.st.heap.length = some false →
            cstep cs2 (.op (.monitorChild i)) = none)) ∧
        (atRest cs = true →
          ∃ cs2 cs3, cstep cs1 (.op (.monitorParent cs.st.goroutines.length)) = some cs2 ∧
            RunsTo cs2 cs.threads.length cs3 ∧ atRest cs3 = true ∧
            doneAt cs3.st.heap cs.st.heap.length = some true ∧
            errAt cs3.st.heap cs.st.heap.length = some e)) := by
  have hinv := creachable_inv cs hcs
  have hlock : parentLocked cs.threads (.cancelCtx p q) = false :=
    locked_false_of_busy cs.threads p hset.2.2.2
  have hpl : ∀ x ∈ ptrs (.cancelCtx p q), x < cs.st.heap.length := issued_ptrs_lt _ _ hp
  cases hn : cs.st.heap[p]? with
  | none =>
    have := hset.1
    unfold onceFlag at this
    rw [hn] at this
    simp at this
  | some n =>
    have hplt : p < cs.st.heap.length := (List.getElem?_eq_some.1 hn).1
    have hnot : cs.st.heap.length ∉ n.children := by
      intro hmem
      have := (hinv.1.2.1 p n hn _ hmem).2
      omega
    refine ⟨?_, fun d hd => ?_⟩
    · have hr := propagateCancel_cancelCtx cs.st p q none n hn hnot
      have hstep : cstep cs (.op (.WithCancel (.cancelCtx p q)))
          = some ⟨⟨(cs.st.heap ++ [cancelCtx.new (.cancelCtx p q) none]).set p
                { n with children := n.children ++ [cs.st.heap.length] },
              cs.st.goroutines ++ [(.cancelCtx p q, cs.st.heap.length)], cs.st.timers,
              cs.st.now⟩, cs.threads⟩ := by
        simp only [cstep, hlock, Bool.false_eq_true, if_false, WithCancel, hr]
        simp
      obtain ⟨h1, h2, h3, h4, h5⟩ := late_child cs hinv p q e hp hset none cs.st.timers n hn
        _ rfl
      exact ⟨_, hstep, rfl, h1, h2, h3, h4, h5⟩
    · have hr := propagateCancel_cancelCtx cs.st p q (some d) n hn hnot
      have hstep : cstep cs (.op (.WithDeadline (.cancelCtx p q) d))
          = some ⟨⟨(cs.st.heap ++ [cancelCtx.new (.cancelCtx p q) (some d)]).set p
                { n with children := n.children ++ [cs.st.heap.length] },
              cs.st.goroutines ++ [(.cancelCtx p q, cs.st.heap.length)],
              cs.st.timers ++ [(cs.st.heap.length, d)], cs.st.now⟩, cs.threads⟩ := by
        simp only [cstep, hlock, Bool.false_eq_true, if_false, WithDeadlineC, hr]
        simp [Int.not_lt.2 hd]
      obtain ⟨h1, h2, h3, h4, h5⟩ := late_child cs hinv p q e hp hset (some d)
        (cs.st.timers ++ [(cs.st.heap.length, d)]) n hn _ rfl
      exact ⟨_, hstep, rfl, h1, h2, h3, h4, h5⟩

theorem cinv_of_crun :
    ∀ (evs : List Ev) (cs cs1 : Conc), CInv cs → crun cs evs = some cs1 → CInv cs1 := by
  intro evs
  induction evs with
  | nil =>
    intro cs cs1 hl hr
    simp only [crun, Option.some.injEq] at hr
    subst hr
    exact hl
  | cons ev evs ih =>
    intro cs cs1 hl hr
    simp only [crun] at hr
    split at hr
    · rename_i hposs
      split at hr
      · simp at hr
      · rename_i cs2 hstep
        exact ih cs2 cs1 (cstep_inv cs cs2 ev hl hposs hstep) hr
    · simp at hr

/-- A call `c.cancel(cause)` that starts in a state of the running program in which the
nodes of a path through the maps `children` from `c` all have `done` open: under every
schedule, when the call has returned every node of the path has `done` closed; and from a
state in which no call of `cancel` is in progress, the call run with no other event in
between returns and leaves every node of the path with `done` closed and `err` equal to
`cause`. -/
theorem cancel_on_open_path (cs : Conc) (hinv : CInv cs) (cause : Option error) (c : Nat)
    (path : List Nat) (hch : List.Chain (fun a b => b ∈ kids cs.st.heap a) c path)
    (hlive : ∀ a ∈ c :: path, doneAt cs.st.heap a = some false) :
    (∀ (evs : List Ev) (cs1 : Conc), crun (spawn cs c cause) evs = some cs1 →
      cs1.threads[cs.threads.length]? = some [] →
      ∀ a ∈ c :: path, doneAt cs1.st.heap a = some true) ∧
    (atRest cs = true →
      ∃ cs1, RunsTo (spawn cs c cause) cs.threads.length cs1 ∧ atRest cs1 = true ∧
        ∀ a ∈ c :: path,
          doneAt cs1.st.heap a = some true ∧ errAt cs1.st.heap a = some cause) := by
  refine ⟨fun evs cs1 hrun hret a ha => ?_, fun hrest => ?_⟩
  · have hinv0 := CInv_spawn cs c cause hinv
    obtain ⟨stk, hstk, hempty, _⟩ :=
      called_of_crun cs.threads.length c evs _ cs1 (called_spawn cs c cause) hrun
    rw [hret] at hstk
    simp only [Option.some.injEq] at hstk
    have honce := once_along_path (spawn cs c cause) cs1 hinv0 evs hrun path c hch hlive
      (hempty hstk.symm) a ha
    have hinv1 := cinv_of_crun evs _ cs1 hinv0 hrun
    unfold onceFlag at honce
    unfold doneAt
    cases hn : cs1.st.heap[a]? with
    | none => rw [hn] at honce; simp at honce
    | some n =>
      rw [hn] at honce
      simp only [Option.map_some', Option.some.injEq] at honce ⊢
      exact (hinv1.1.1 a n hn).1 honce
  · obtain ⟨h1, hcan, hrec⟩ := cancel_records_on_open_path cs.st.heap
      (once_eq_done_at_rest cs hinv hrest) hinv.1.2.1 cause c path hch hlive
    obtain ⟨cs1, hrun, hheap, hrest1⟩ := cancel_alone cs hinv hrest c cause h1 hcan
    refine ⟨cs1, hrun, hrest1, fun a ha => ?_⟩
    rw [hheap]
    exact hrec a ha

/-- C5 (amended): in a running program, for every chain `a1, …` in which each node was
built by `WithCancel` on its predecessor and none has `done` closed, the `CancelFunc` of
`a1` starts the call `a1.cancel(ErrCancel)`; under every schedule, when that call has
returned every node of the chain has `done` closed; and when no call of `cancel` is in
progress and the call runs with no other event in between, it returns and every node of
the chain has `Err()` equal to `ErrCancel`. In general the same holds for
`cancel(cause)` on a node and every node on a path through the maps `children` whose
nodes all have `done` open: `done` closed under every schedule, `err` equal to `cause`
when the call runs alone. -/
theorem C5_cancel_reaches_open_path (cs : Conc) (hcs : CReachable cs) :
    (∀ (a1 : Nat) (rest : List Nat),
        List.Chain (fun a b => builtOn cs.st.heap a b = true) a1 rest →
        (∀ a ∈ a1 :: rest, doneAt cs.st.heap a = some false) →
        cstep cs (.op (.CancelFunc a1)) = some (spawn cs a1 (some .ErrCancel)) ∧
        (∀ (evs : List Ev) (cs1 : Conc),
          crun (spawn cs a1 (some .ErrCancel)) evs = some cs1 →
          cs1.threads[cs.threads.length]? = some [] →
          ∀ a ∈ a1 :: rest, doneAt cs1.st.heap a = some true) ∧
        (atRest cs = true →
          ∃ cs1, RunsTo (spawn cs a1 (some .ErrCancel)) cs.threads.length cs1 ∧
            atRest cs1 = true ∧
            ∀ a ∈ a1 :: rest, doneAt cs1.st.heap a = some true ∧
              errAt cs1.st.heap a = some (some .ErrCancel))) ∧
      (∀ (cause : Option error) (c : Nat) (path : List Nat),
        List.Chain (fun a b => b ∈ kids cs.st.heap a) c path →
        (∀ a ∈ c :: path, doneAt cs.st.heap a = some false) →
        (∀ (evs : List Ev) (cs1 : Conc), crun (spawn cs c cause) evs = some cs1 →
          cs1.threads[cs.threads.length]? = some [] →
          ∀ a ∈ c :: path, doneAt cs1.st.heap a = some true) ∧
        (atRest cs = true →
          ∃ cs1, RunsTo (spawn cs c cause) cs.threads.length cs1 ∧ atRest cs1 = true ∧
            ∀ a ∈ c :: path,
              doneAt cs1.st.heap a = some true ∧ errAt cs1.st.heap a = some cause)) := by
  have hinv := creachable_inv cs hcs
  refine ⟨fun a1 rest hch hlive => ?_, fun cause c path hch hlive =>
    cancel_on_open_path cs hinv cause c path hch hlive⟩
  have hlen : a1 < cs.st.heap.length := by
    have := hlive a1 (List.mem_cons_self _ _)
    unfold doneAt at this
    cases hn : cs.st.heap[a1]? with
    | none => rw [hn] at this; simp at this
    | some n => exact (List.getElem?_eq_some.1 hn).1
  have hmain := cancel_on_open_path cs hinv (some .ErrCancel) a1 rest
    (List.Chain.imp (fun a b hb => kids_of_builtOn cs.st.heap hinv.1.2.2.1 a b hb) hch) hlive
  exact ⟨by simp [cstep, hlen], hmain.1, hmain.2⟩

/-- C5 (amended) at the chain root→A→B→C built by three calls of `WithCancel`: in the
schedule `racedChainTail` of `cancelA()` all three nodes end with `done` closed;
`cancelA()` run alone leaves `A`, `B` and `C` with `ErrCancel`, and `cancel(ErrDeadline)`
on `B` run alone records `ErrDeadline` on `B` and `C`. -/
theorem C5_cancel_reaches_open_path_witness :
    crun (Conc.init 0) [.op (.WithCancel .emptyCtx), .op (.WithCancel (.cancelCtx 0 .emptyCtx)),
        .op (.WithCancel (.cancelCtx 1 (.cancelCtx 0 .emptyCtx)))] = some chainConc ∧
      crun (spawn chainConc 0 (some .ErrCancel)) racedChainTail = some racedChainEnd ∧
      (∀ a ∈ [0, 1, 2], doneAt racedChainEnd.st.heap a = some true) ∧
      (∃ cs1, RunsTo (spawn chainConc 0 (some .ErrCancel)) 0 cs1 ∧ atRest cs1 = true ∧
        ∀ a ∈ [0, 1, 2], doneAt cs1.st.heap a = some true ∧
          errAt cs1.st.heap a = some (some .ErrCancel)) ∧
      (∃ cs1, RunsTo (spawn chainConc 1 (some .ErrDeadline)) 0 cs1 ∧ atRest cs1 = true ∧
        ∀ a ∈ [1, 2], doneAt cs1.st.heap a = some true ∧
          errAt cs1.st.heap a = some (some .ErrDeadline)) :=
  ⟨by decide, by decide,
    ((C5_cancel_reaches_open_path chainConc
      (creachable_of_crun _ _ _ (CReachable.init 0) (by decide : crun (Conc.init 0)
        [.op (.WithCancel .emptyCtx), .op (.WithCancel (.cancelCtx 0 .emptyCtx)),
          .op (.WithCancel (.cancelCtx 1 (.cancelCtx 0 .emptyCtx)))] = some chainConc))).1
      0 [1, 2] (List.Chain.cons (by decide) (List.Chain.cons (by decide) List.Chain.nil))
      (by decide)).2.1 racedChainTail racedChainEnd (by decide) (by decide),
    ((C5_cancel_reaches_open_path chainConc
      (creachable_of_crun _ _ _ (CReachable.init 0) (by decide : crun (Conc.init 0)
        [.op (.WithCancel .emptyCtx), .op (.WithCancel (.cancelCtx 0 .emptyCtx)),
          .op (.WithCancel (.cancelCtx 1 (.cancelCtx 0 .emptyCtx)))] = some chainConc))).1
      0 [1, 2] (List.Chain.cons (by decide) (List.Chain.cons (by decide) List.Chain.nil))
      (by decide)).2.2 (by decide),
    ((C5_cancel_reaches_open_path chainConc
      (creachable_of_crun _ _ _ (CReachable.init 0) (by decide : crun (Conc.init 0)
        [.op (.WithCancel .emptyCtx), .op (.WithCancel (.cancelCtx 0 .emptyCtx)),
          .op (.WithCancel (.cancelCtx 1 (.cancelCtx 0 .emptyCtx)))] = some chainConc))).2
      (some .ErrDeadline) 1 [2] (List.Chain.cons (by decide) List.Chain.nil)
      (by decide)).2 (by decide)⟩

/-- C7 (the code at a failing input): in the run `racedChildEvents` of
`A, cancelA := WithCancel(Background())`, `B := WithCancel(A)`, `cancelA()`, the goroutine
monitoring `A` for `B` runs between `close(c.done)` and `c.err = err` of `A.cancel` and
calls `B.cancel(nil)`. Every event of the run can happen, and at its end every call has
returned: `B` is a context that `WithCancel` returned, `B.Done()` is closed and `B.Err()`
is nil, while `A.Err()` is `ErrCancel`. -/
theorem C7_done_closed_and_Err_nil_at_rest :
    crun (Conc.init 0) racedChildEvents = some racedChildEnd ∧
      atRest racedChildEnd = true ∧
      issued racedChildEnd.st.heap (.cancelCtx 1 (.cancelCtx 0 .emptyCtx)) = true ∧
      (Context.cancelCtx 1 (.cancelCtx 0 .emptyCtx)).Done = some (.made 1) ∧
      fired racedChildEnd.st.heap (.made 1) = true ∧
      (Context.cancelCtx 1 (.cancelCtx 0 .emptyCtx)).Err racedChildEnd.st.heap = some none ∧
      (Context.cancelCtx 0 .emptyCtx).Err racedChildEnd.st.heap
        = some (some .ErrCancel) :=
  ⟨by decide, by decide, by decide, by decide, by decide, by decide, by decide⟩

/-- C18 (the code at a failing input): on the tree A(cancelable)→V(value)→B(cancelable),
after `cancelA()` has executed `close(c.done)` and before it stores `c.err`, the goroutine
monitoring `V` for `B` finds `V.Done()` closed while `B` is not cancelled, reads
`V.Err()`, which is nil, and calls `B.cancel(nil)`; when every call has returned `A.Err()`
is `ErrCancel`, `B.Done()` is closed and `B.Err()` is nil. -/
theorem C18_monitor_forwards_nil_Err :
    crun (Conc.init 0) racedValueStart = some racedValueMid ∧
      racedValueMid.st.goroutines[1]?
        = some (.valCtx (.cancelCtx 0 .emptyCtx) (.string "k") (.int 7), 1) ∧
      (Context.valCtx (.cancelCtx 0 .emptyCtx) (.string "k") (.int 7)).Done
        = some (.made 0) ∧
      fired racedValueMid.st.heap (.made 0) = true ∧
      doneAt racedValueMid.st.heap 1 = some false ∧
      (Context.valCtx (.cancelCtx 0 .emptyCtx) (.string "k") (.int 7)).Err
        racedValueMid.st.heap = some none ∧
      cstep racedValueMid (.op (.monitorParent 1))
        = some (spawn ⟨⟨racedValueMid.st.heap, [(.emptyCtx, 0)], [], 0⟩, racedValueMid.threads⟩
            1 none) ∧
      crun racedValueMid racedValueRest = some racedValueEnd ∧
      atRest racedValueEnd = true ∧
      (Context.cancelCtx 0 .emptyCtx).Err racedValueEnd.st.heap = some (some .ErrCancel) ∧
      fired racedValueEnd.st.heap (.made 1) = true ∧
      (Context.cancelCtx 1 (.valCtx (.cancelCtx 0 .emptyCtx) (.string "k") (.int 7))).Err
        racedValueEnd.st.heap = some none :=
  ⟨by decide, by decide, by decide, by decide, by decide, by decide, by decide, by decide,
    by decide, by decide, by decide, by decide⟩

/-- C14 (amended) at `A` after `cancelA()` has returned: `WithCancel(A)` and, at time 0,
`WithDeadline(A, 10)` return a registered, uncancelled child and start no call of
`cancel`; the monitoring goroutine, run next with its call, leaves the child with `done`
closed and `Err()` equal to `ErrCancel`. -/
theorem C14_late_child_registered_then_monitored_witness :
    issued cancelledConc.st.heap (.cancelCtx 0 .emptyCtx) = true ∧
      Settled 0 (some .ErrCancel) cancelledConc ∧
      (∃ cs1, cstep cancelledConc (.op (.WithCancel (.cancelCtx 0 .emptyCtx))) = some cs1 ∧
        cs1.threads = cancelledConc.threads ∧ 1 ∈ kids cs1.st.heap 0 ∧
        doneAt cs1.st.heap 1 = some false ∧ errAt cs1.st.heap 1 = some none ∧
        ∃ cs2 cs3, cstep cs1 (.op (.monitorParent 1)) = some cs2 ∧
          RunsTo cs2 1 cs3 ∧ atRest cs3 = true ∧
          doneAt cs3.st.heap 1 = some true ∧
          errAt cs3.st.heap 1 = some (some .ErrCancel)) ∧
      (∃ cs1, cstep cancelledConc (.op (.WithDeadline (.cancelCtx 0 .emptyCtx) 10))
          = some cs1 ∧
        cs1.threads = cancelledConc.threads ∧ 1 ∈ kids cs1.st.heap 0 ∧
        doneAt cs1.st.heap 1 = some false ∧ errAt cs1.st.heap 1 = some none ∧
        ∃ cs2 cs3, cstep cs1 (.op (.monitorParent 1)) = some cs2 ∧
          RunsTo cs2 1 cs3 ∧ atRest cs3 = true ∧
          doneAt cs3.st.heap 1 = some true ∧
          errAt cs3.st.heap 1 = some (some .ErrCancel)) := by
  have hthm := C14_late_child_registered_then_monitored cancelledConc
    (creachable_of_crun _ _ _ (CReachable.init 0) (by decide : crun (Conc.init 0)
      [.op (.WithCancel .emptyCtx), .op (.CancelFunc 0), .stmt 0, .stmt 0, .stmt 0, .stmt 0]
        = some cancelledConc))
    0 .emptyCtx (some .ErrCancel) (by decide) ⟨by decide, by decide, by decide, by decide⟩
  refine ⟨by decide, ⟨by decide, by decide, by decide, by decide⟩, ?_, ?_⟩
  · obtain ⟨cs1, h1, h2, h3, h4, h5, _, h7⟩ := hthm.1
    exact ⟨cs1, h1, h2, h3, h4, h5, h7 (by decide)⟩
  · obtain ⟨cs1, h1, h2, h3, h4, h5, _, h7⟩ := hthm.2 10 (by decide)
    exact ⟨cs1, h1, h2, h3, h4, h5, h7 (by decide)⟩

end mycontext

/-! ## The middleware: the claim -/

namespace middleware

theorem splitAux_length_pos (sep : Char) :
    ∀ (cs acc : List Char), 1 ≤ (splitAux sep cs acc).length := by
  intro cs
  induction cs with
  | nil => intro acc; simp [splitAux]
  | cons c cs ih =>
    intro acc
    simp only [splitAux]
    split
    · simp
    · exact ih _

theorem splitAux_no_sep (sep : Char) :
    ∀ (cs acc : List Char), sep ∉ cs →
      splitAux sep cs acc = [String.mk (acc.reverse ++ cs)] := by
  intro cs
  induction cs with
  | nil => intro acc _; simp [splitAux]
  | cons c cs ih =>
    intro acc hno
    simp only [List.mem_cons, not_or] at hno
    simp only [splitAux, if_neg (Ne.symm hno.1)]
    rw [ih (c :: acc) hno.2]
    simp

theorem splitAux_sep (sep : Char) :
    ∀ (cs acc : List Char), sep ∈ cs → 2 ≤ (splitAux sep cs acc).length := by
  intro cs
  induction cs with
  | nil => intro acc h; simp at h
  | cons c cs ih =>
    intro acc hmem
    simp only [splitAux]
    split
    · have := splitAux_length_pos sep cs []
      simp only [List.length_cons]
      omega
    · rename_i hne
      rcases List.mem_cons.1 hmem with heq | hin
      · exact absurd heq.symm hne
      · exact ih _ hin

theorem Auth_eq_none_iff (auth : String) : Auth auth = none ↔ auth = "Bearer" := by
  by_cases hsp : ' ' ∈ auth.data
  · have hlen := splitAux_sep ' ' auth.data [] hsp
    have hne : auth ≠ "Bearer" := by
      rintro rfl
      revert hsp
      decide
    simp only [hne, iff_false]
    unfold Auth Split
    generalize splitAux ' ' auth.data [] = ls at hlen
    match ls, hlen with
    | a :: b :: rest, _ =>
      simp only [List.getElem?_cons_zero, List.getElem?_cons_succ]
      split
      · rename_i hr
        split at hr <;> simp at hr
      · simp
      · simp
  · have hls : splitAux ' ' auth.data [] = [auth] := by
      rw [splitAux_no_sep ' ' auth.data [] hsp]
      simp
    unfold Auth Split
    simp only [hls]
    by_cases hb : auth = "Bearer"
    · subst hb
      decide
    · simp [hb]

/-- C19 (the code at the failing input): for the header `Bearer`, without a space,
`strings.Split` yields the single segment `Bearer`; the guard
`len(ls) != 2 && ls[0] != "Bearer"` is false, no 401 is sent, and `ls[1]` is out of
range. That header is the only one on which the handler panics: a header with a space
has two segments or more, and any other header without a space is answered with 401. -/
theorem C19_Auth_panics_on_bare_Bearer :
    Split "Bearer" ' ' = ["Bearer"] ∧
      (Split "Bearer" ' ').length < 2 ∧
      Auth "Bearer" ≠ some .StatusUnauthorized ∧
      Auth "Bearer" = none ∧
      (∀ (auth : String), Auth auth = none ↔ auth = "Bearer") ∧
      Auth "Bearer jwttoken" = some (.next 1) ∧
      Auth "" = some .StatusUnauthorized :=
  ⟨by decide, by decide, by decide, by decide, Auth_eq_none_iff, by decide, by decide⟩

end middleware
